import Mathlib

/-!
# bufferUtils: plain and circular byte buffers over caller-owned memory

Shallow embedding of `src/bufferUtils.c`.

* Memory is a map from slot index to byte (`Mem`).  A handle carries the
  memory its `buff` pointer designates; slots at or beyond `buffLen` stand for
  whatever lies behind the storage, so a store through an out-of-range index is
  visible in the model instead of being dropped.
* Bytes are only ever copied, never computed with, so they are plain `Nat`s.
* `uint32_t` quantities are `Nat`s; every `+` and `-` of the source is
  `u32add` / `u32sub`, which wrap modulo `2^32`.
* A handle pointer is never `NULL` in the model; a data pointer that may be
  `NULL` is an `Option Mem`.
* Caller buffers (`data`) are assumed not to overlap the storage.
-/

namespace BufferUtils

/-- Byte memory addressed by slot index. -/
abbrev Mem := Nat → Nat

/-- The store `m[i] = v`. -/
def memSet (m : Mem) (i v : Nat) : Mem := fun j => if j = i then v else m j

/-- Memory whose first slots hold the listed bytes (zero elsewhere). -/
def memOfList (l : List Nat) : Mem := fun i => l.getD i 0

/-- The first `n` slots of a memory, as a list. -/
def memToList (m : Mem) (n : Nat) : List Nat := (List.range n).map m

/-- Addition of two `uint32_t`. -/
def u32add (a b : Nat) : Nat := (a + b) % 4294967296

/-- Subtraction of two `uint32_t`. -/
def u32sub (a b : Nat) : Nat := (a % 4294967296 + 4294967296 - b % 4294967296) % 4294967296

/-- The counted loop `for (d = 0; d < n; d++) s = body d s`. -/
def forUpTo {σ : Type} : Nat → (Nat → σ → σ) → σ → σ
  | 0, _, s => s
  | n + 1, body, s => body n (forUpTo n body s)

/-- The circular buffer handle.  Its declaration is in `bufferUtils.h`; the
fields are the ones the code reads and writes, and the three counters have
the `uint32_t` type of the arguments `cBuffInit` stores in them. -/
@[ext]
structure circular_buffer_handle where
  buff : Mem
  buffLen : Nat
  startIndex : Nat
  elemNum : Nat

/-- The plain buffer handle (declared in `bufferUtils.h`): storage, capacity
and number of valid elements. -/
structure plain_buffer_handle where
  buff : Mem
  buffLen : Nat
  elemNum : Nat

/-- Virtual index of a memory index (`cBuffGetVirtIndex`). -/
def cBuffGetVirtIndex (handle : circular_buffer_handle) (memIndex : Nat) : Nat :=
  if handle.buffLen = 0 ∨ handle.startIndex = 0 then memIndex
  else
    let memIndex := memIndex % handle.buffLen
    if handle.startIndex ≤ memIndex then u32sub memIndex handle.startIndex
    else u32add (u32sub handle.buffLen handle.startIndex) memIndex

/-- Memory index of a virtual index (`cBuffGetMemIndex`). -/
def cBuffGetMemIndex (handle : circular_buffer_handle) (virtIndex : Nat) : Nat :=
  if handle.buffLen = 0 ∨ handle.startIndex = 0 then virtIndex
  else
    let virtIndex := virtIndex % handle.buffLen
    if virtIndex < u32sub handle.buffLen handle.startIndex then
      u32add handle.startIndex virtIndex
    else u32sub virtIndex (u32sub handle.buffLen handle.startIndex)

/-- The byte held at a virtual index: `buff[cBuffGetMemIndex(handle, v)]`. -/
def elemAt (handle : circular_buffer_handle) (v : Nat) : Nat :=
  handle.buff (cBuffGetMemIndex handle v)

/-- The logical content: the bytes at virtual indices `0 .. elemNum - 1`. -/
def logical (handle : circular_buffer_handle) : List Nat :=
  (List.range handle.elemNum).map (elemAt handle)

/-- Local variables of the loop of `cBuffRotateMemory`, with the handle whose
storage the loop rewrites. -/
structure RotState where
  handle : circular_buffer_handle
  moved : Nat
  startPos : Nat
  pos : Nat
  tmpOld : Nat

/-- One pass through the body of the `while` loop of `cBuffRotateMemory`. -/
def rotateBody (tmpHandle : circular_buffer_handle) (st : RotState) : RotState :=
  let tmpNew := st.handle.buff st.pos
  let handle1 := { st.handle with buff := memSet st.handle.buff st.pos st.tmpOld }
  let tmpOld := tmpNew
  let moved := u32add st.moved 1
  let pos := cBuffGetMemIndex tmpHandle (cBuffGetVirtIndex handle1 st.pos)
  if pos = st.startPos then
    let handle2 := { handle1 with buff := memSet handle1.buff pos tmpOld }
    let startPos := u32add st.startPos 1 % handle2.buffLen
    { handle := handle2, moved := moved, startPos := startPos, pos := startPos, tmpOld := tmpOld }
  else
    { handle := handle1, moved := moved, startPos := st.startPos, pos := pos, tmpOld := tmpOld }

/-- The loop `while (moved < handle->buffLen) ...` of `cBuffRotateMemory`, run
for at most `fuel` passes. -/
def rotateLoop (tmpHandle : circular_buffer_handle) : Nat → RotState → RotState
  | 0, st => st
  | fuel + 1, st =>
    if st.moved < st.handle.buffLen then rotateLoop tmpHandle fuel (rotateBody tmpHandle st)
    else st

/-- Final loop state of `cBuffRotateMemory` past its early return.  `tmpOld`
is declared without an initialiser: it is one scratch location that lives
across the passes, and its first content is the parameter `scratch`.  Of
`tmpHandle` the code sets `buffLen` and `startIndex` only, the two fields the
index mappers read. -/
def rotateFinal (scratch : Nat) (handle : circular_buffer_handle) (newStartIndx : Nat) :
    RotState :=
  let newStartIndx := newStartIndx % handle.buffLen
  let tmpHandle : circular_buffer_handle :=
    { buff := handle.buff, buffLen := handle.buffLen, startIndex := newStartIndx,
      elemNum := handle.elemNum }
  rotateLoop tmpHandle handle.buffLen
    { handle := handle, moved := 0, startPos := handle.startIndex, pos := handle.startIndex,
      tmpOld := scratch }

/-- Rotation of the whole storage (`cBuffRotateMemory`). -/
def cBuffRotateMemory (scratch : Nat) (handle : circular_buffer_handle) (newStartIndx : Nat) :
    circular_buffer_handle :=
  if handle.buffLen = 0 ∨ newStartIndx = handle.startIndex then handle
  else
    { (rotateFinal scratch handle newStartIndx).handle with
      startIndex := newStartIndx % handle.buffLen }

/-- One pass of the `for` loop of `cBuffPush`; the state is the handle and
`pushMemIndx`. -/
def cBuffPushStep (data : Mem) (ht : Nat) (d : Nat) (st : circular_buffer_handle × Nat) :
    circular_buffer_handle × Nat :=
  let handle := st.1
  let pushMemIndx := st.2
  if ht = 0 then
    let handle1 := { handle with buff := memSet handle.buff pushMemIndx (data d) }
    let handle2 :=
      if handle1.elemNum < handle1.buffLen then
        { handle1 with elemNum := u32add handle1.elemNum 1 }
      else handle1
    let handle3 := { handle2 with startIndex := pushMemIndx }
    (handle3, cBuffGetMemIndex handle3 (u32sub handle3.buffLen 1))
  else
    let handle1 := { handle with buff := memSet handle.buff pushMemIndx (data d) }
    let handle2 :=
      if handle1.elemNum < handle1.buffLen then
        { handle1 with elemNum := u32add handle1.elemNum 1 }
      else { handle1 with startIndex := cBuffGetMemIndex handle1 1 }
    (handle2, cBuffGetMemIndex handle2 handle2.elemNum)

/-- Push of `dataLen` bytes before the head (`ht = 0`) or after the tail
(`cBuffPush`). -/
def cBuffPush (handle : circular_buffer_handle) (data : Option Mem) (dataLen ht : Nat) :
    circular_buffer_handle :=
  if handle.buffLen = 0 ∨ dataLen = 0 then handle
  else
    match data with
    | none => handle
    | some data =>
      let pushMemIndx :=
        if ht = 0 then cBuffGetMemIndex handle (u32sub handle.buffLen 1)
        else cBuffGetMemIndex handle handle.elemNum
      (forUpTo dataLen (cBuffPushStep data ht) (handle, pushMemIndx)).1

/-- Push clamped to the free space (`cBuffPushToFill`): the handle and the
returned count. -/
def cBuffPushToFill (handle : circular_buffer_handle) (data : Option Mem) (dataLen ht : Nat) :
    circular_buffer_handle × Nat :=
  if handle.buffLen = 0 ∨ dataLen = 0 ∨ data.isNone then (handle, 0)
  else
    let available := u32sub handle.buffLen handle.elemNum
    let available := if dataLen < available then dataLen else available
    (cBuffPush handle data available ht, available)

/-- What an access operation leaves: the handle, the caller's data buffer and
the returned count. -/
structure Access where
  handle : circular_buffer_handle
  data : Option Mem
  retVal : Nat

/-- One pass of the copy loop of `cBuffRead`. -/
def cBuffReadStep (handle : circular_buffer_handle) (ht off : Nat) (d : Nat) (data : Mem) : Mem :=
  if ht = 0 then memSet data d (handle.buff (cBuffGetMemIndex handle (u32add d off)))
  else
    memSet data d
      (handle.buff (cBuffGetMemIndex handle (u32sub (u32sub (u32sub handle.elemNum 1) d) off)))

/-- Copy out of the buffer without removing (`cBuffRead`). -/
def cBuffRead (handle : circular_buffer_handle) (data : Option Mem) (dataLen ht off : Nat) :
    Access :=
  if handle.elemNum = 0 ∨ dataLen = 0 ∨ off ≥ handle.elemNum then
    { handle := handle, data := data, retVal := 0 }
  else
    let retVal :=
      if dataLen ≤ u32sub handle.elemNum off then dataLen else u32sub handle.elemNum off
    match data with
    | none => { handle := handle, data := none, retVal := retVal }
    | some out =>
      { handle := handle, data := some (forUpTo retVal (cBuffReadStep handle ht off) out),
        retVal := retVal }

/-- One pass of the copy loop of `cBuffWrite`. -/
def cBuffWriteStep (data : Mem) (ht off : Nat) (d : Nat) (handle : circular_buffer_handle) :
    circular_buffer_handle :=
  if ht = 0 then
    { handle with buff := memSet handle.buff (cBuffGetMemIndex handle (u32add d off)) (data d) }
  else
    { handle with
      buff := memSet handle.buff
        (cBuffGetMemIndex handle (u32sub (u32sub (u32sub handle.elemNum 1) d) off)) (data d) }

/-- Copy into the valid elements of the buffer (`cBuffWrite`). -/
def cBuffWrite (handle : circular_buffer_handle) (data : Option Mem) (dataLen ht off : Nat) :
    Access :=
  if handle.elemNum = 0 ∨ dataLen = 0 ∨ off ≥ handle.elemNum then
    { handle := handle, data := data, retVal := 0 }
  else
    let retVal :=
      if dataLen ≤ u32sub handle.elemNum off then dataLen else u32sub handle.elemNum off
    match data with
    | none => { handle := handle, data := none, retVal := retVal }
    | some src =>
      { handle := forUpTo retVal (cBuffWriteStep src ht off) handle, data := some src,
        retVal := retVal }

/-- Removal of up to `dataLen` bytes from the head (`ht = 0`) or the tail
(`cBuffPull`). -/
def cBuffPull (handle : circular_buffer_handle) (data : Option Mem) (dataLen ht : Nat) :
    Access :=
  if handle.buffLen = 0 ∨ dataLen = 0 then { handle := handle, data := data, retVal := 0 }
  else
    let r := cBuffRead handle data dataLen ht 0
    let retVal := r.retVal
    let handle1 :=
      if ht = 0 then { r.handle with startIndex := cBuffGetMemIndex r.handle retVal }
      else r.handle
    let handle2 := { handle1 with elemNum := u32sub handle1.elemNum retVal }
    { handle := handle2, data := r.data, retVal := retVal }

/-- Store of one byte at an offset from an end (`cBuffWriteByte`). -/
def cBuffWriteByte (handle : circular_buffer_handle) (val ht off : Nat) :
    circular_buffer_handle :=
  if handle.buffLen = 0 ∨ handle.elemNum = 0 ∨ off ≥ handle.elemNum then handle
  else if ht = 0 then
    { handle with buff := memSet handle.buff (cBuffGetMemIndex handle off) val }
  else
    { handle with
      buff := memSet handle.buff
        (cBuffGetMemIndex handle (u32sub (u32sub handle.elemNum 1) off)) val }

/-- Load of one byte at an offset from an end (`cBuffReadByte`). -/
def cBuffReadByte (handle : circular_buffer_handle) (ht off : Nat) : Nat :=
  if handle.buffLen = 0 ∨ handle.elemNum = 0 ∨ off ≥ handle.elemNum then 0
  else if ht = 0 then handle.buff (cBuffGetMemIndex handle off)
  else handle.buff (cBuffGetMemIndex handle (u32sub (u32sub handle.elemNum 1) off))

/-- One pass of the copy loop of `cBuffRotate`. -/
def cBuffRotateStep (tmpBuff : circular_buffer_handle) (fixed : Nat) (vIndx : Nat)
    (handle : circular_buffer_handle) : circular_buffer_handle :=
  { handle with
    buff := memSet handle.buff (cBuffGetMemIndex tmpBuff (u32add fixed vIndx))
      (handle.buff (cBuffGetMemIndex handle vIndx)) }

/-- Rotation of the valid elements (`cBuffRotate`).  The loop bound
`cBuffGetVirtIndex(handle, tmpBuff.startIndex)` reads only `buffLen` and
`startIndex`, which the loop does not write, so it is taken once. -/
def cBuffRotate (handle : circular_buffer_handle) (dir pos : Nat) : circular_buffer_handle :=
  if handle.buffLen = 0 ∨ handle.elemNum = 0 then handle
  else
    let newStartVIndx := pos % handle.elemNum
    let newStartVIndx := if dir ≠ 0 then u32sub handle.elemNum newStartVIndx else newStartVIndx
    let tmpBuff : circular_buffer_handle :=
      { buff := handle.buff, buffLen := handle.buffLen,
        startIndex := cBuffGetMemIndex handle newStartVIndx, elemNum := handle.elemNum }
    let fixed := u32sub handle.elemNum newStartVIndx
    let handle1 :=
      forUpTo (cBuffGetVirtIndex handle tmpBuff.startIndex) (cBuffRotateStep tmpBuff fixed) handle
    { handle1 with startIndex := tmpBuff.startIndex }

/-- Emptying of the buffer (`cBuffFlush`). -/
def cBuffFlush (handle : circular_buffer_handle) : circular_buffer_handle :=
  { handle with elemNum := 0 }

/-- Whether the buffer is full (`cBuffFull`). -/
def cBuffFull (handle : circular_buffer_handle) : Nat :=
  if handle.elemNum = handle.buffLen then 1 else 0

/-- Whether the buffer is empty (`cBuffEmpty`). -/
def cBuffEmpty (handle : circular_buffer_handle) : Nat :=
  if handle.elemNum = 0 then 1 else 0

/-- Conversion of a circular buffer to a plain one (`cBuffToPlain`): the plain
handle written and the circular handle after the rotation. -/
def cBuffToPlain (scratch : Nat) (cHandle : circular_buffer_handle) :
    plain_buffer_handle × circular_buffer_handle :=
  let cHandle1 := cBuffRotateMemory scratch cHandle 0
  ({ buff := cHandle1.buff, buffLen := cHandle1.buffLen, elemNum := cHandle1.elemNum }, cHandle1)

/-- Conversion of a plain buffer to a circular one (`pBuffToCirc`). -/
def pBuffToCirc (pHandle : plain_buffer_handle) : circular_buffer_handle :=
  { buff := pHandle.buff, buffLen := pHandle.buffLen, elemNum := pHandle.elemNum,
    startIndex := 0 }

/-! ### The plain buffer operations -/

/-- What an access operation on a plain buffer leaves: the handle, the
caller's data buffer and the returned count. -/
structure PlainAccess where
  handle : plain_buffer_handle
  data : Option Mem
  retVal : Nat

/-- Binding of a plain handle to storage (`pBuffInit`); `buff` is the caller's
storage, absent when the pointer is `NULL`. -/
def pBuffInit (handle : plain_buffer_handle) (buff : Option Mem) (buffLen elemNum : Nat) :
    plain_buffer_handle :=
  match buff with
  | none => handle
  | some buff => { buff := buff, buffLen := buffLen, elemNum := elemNum }

/-- Binding of a circular handle to storage (`cBuffInit`). -/
def cBuffInit (handle : circular_buffer_handle) (buff : Option Mem) (buffLen elemNum : Nat) :
    circular_buffer_handle :=
  match buff with
  | none => handle
  | some buff => { buff := buff, buffLen := buffLen, startIndex := 0, elemNum := elemNum }

/-- Copy into the valid elements of a plain buffer (`pBuffWrite`); the storage
is shared with the temporary circular handle. -/
def pBuffWrite (handle : plain_buffer_handle) (data : Option Mem) (dataLen ht off : Nat) :
    PlainAccess :=
  if handle.buffLen = 0 ∨ dataLen = 0 ∨ off ≥ handle.elemNum then
    { handle := handle, data := data, retVal := 0 }
  else
    let r := cBuffWrite (pBuffToCirc handle) data dataLen ht off
    { handle := { handle with buff := r.handle.buff }, data := r.data, retVal := r.retVal }

/-- Copy out of a plain buffer (`pBuffRead`). -/
def pBuffRead (handle : plain_buffer_handle) (data : Option Mem) (dataLen ht off : Nat) :
    PlainAccess :=
  if handle.buffLen = 0 ∨ dataLen = 0 ∨ off ≥ handle.elemNum then
    { handle := handle, data := data, retVal := 0 }
  else
    let r := cBuffRead (pBuffToCirc handle) data dataLen ht off
    { handle := { handle with buff := r.handle.buff }, data := r.data, retVal := r.retVal }

/-- Store of one byte in a plain buffer (`pBuffWriteByte`). -/
def pBuffWriteByte (handle : plain_buffer_handle) (val ht off : Nat) : plain_buffer_handle :=
  if handle.buffLen = 0 ∨ handle.elemNum = 0 ∨ off ≥ handle.elemNum then handle
  else if ht = 0 then { handle with buff := memSet handle.buff off val }
  else { handle with buff := memSet handle.buff (u32sub (u32sub handle.elemNum 1) off) val }

/-- Load of one byte from a plain buffer (`pBuffReadByte`). -/
def pBuffReadByte (handle : plain_buffer_handle) (ht off : Nat) : Nat :=
  if handle.buffLen = 0 ∨ handle.elemNum = 0 ∨ off ≥ handle.elemNum then 0
  else if ht = 0 then handle.buff off
  else handle.buff (u32sub (u32sub handle.elemNum 1) off)

/-- Push into the free space of a plain buffer (`pBuffPush`): the handle and
the returned count.  `scratch` is the first content of `tmpOld` in
`cBuffRotateMemory`. -/
def pBuffPush (scratch : Nat) (handle : plain_buffer_handle) (data : Option Mem)
    (dataLen ht : Nat) : plain_buffer_handle × Nat :=
  if handle.buffLen = 0 ∨ dataLen = 0 ∨ data.isNone then (handle, 0)
  else
    let retVal := u32sub handle.buffLen handle.elemNum
    if retVal = 0 then (handle, 0)
    else
      let retVal := if dataLen < retVal then dataLen else retVal
      let tmpBuff := pBuffToCirc handle
      let tmpBuff := cBuffPush tmpBuff data retVal ht
      let tmpBuff := if ht = 0 then cBuffRotateMemory scratch tmpBuff 0 else tmpBuff
      ({ handle with buff := tmpBuff.buff, elemNum := tmpBuff.elemNum }, retVal)

/-- Removal from a plain buffer (`pBuffPull`). -/
def pBuffPull (scratch : Nat) (handle : plain_buffer_handle) (data : Option Mem)
    (dataLen ht : Nat) : PlainAccess :=
  if handle.buffLen = 0 ∨ dataLen = 0 then { handle := handle, data := data, retVal := 0 }
  else if handle.elemNum = 0 then { handle := handle, data := data, retVal := 0 }
  else
    let tmpBuff := pBuffToCirc handle
    let r := cBuffPull tmpBuff data dataLen ht
    let tmpBuff := if ht = 0 then cBuffRotateMemory scratch r.handle 0 else r.handle
    { handle := { handle with buff := tmpBuff.buff, elemNum := tmpBuff.elemNum },
      data := r.data, retVal := r.retVal }

/-- Emptying of a plain buffer (`pBuffFlush`). -/
def pBuffFlush (handle : plain_buffer_handle) : plain_buffer_handle :=
  { handle with elemNum := 0 }

/-- Whether a plain buffer is full (`pBuffFull`). -/
def pBuffFull (handle : plain_buffer_handle) : Nat :=
  if handle.elemNum = handle.buffLen then 1 else 0

/-- Whether a plain buffer is empty (`pBuffEmpty`). -/
def pBuffEmpty (handle : plain_buffer_handle) : Nat :=
  if handle.elemNum = 0 then 1 else 0

/-! ### Bookkeeping for the proof of `cBuffRotateMemory` -/

/-- Length of one cycle of the shift by `k` on `n` slots. -/
def rotPeriod (n k : Nat) : Nat := n / Nat.gcd n k

/-- The slot the loop of `cBuffRotateMemory` stands on in pass `m`, for start
index `s` and shift `k` on `n` slots. -/
def rotVisit (n s k m : Nat) : Nat := (s + m / rotPeriod n k + m % rotPeriod n k * k) % n

/-- The amount by which `cBuffRotateMemory` shifts every slot, modulo the
capacity `n`, when the start index goes from `s` to `t`. -/
def rotShift (n s t : Nat) : Nat := if s ≤ t then t - s else t + n - s

/-- State of the loop of `cBuffRotateMemory` on handle `h` after `m` passes,
with `k` the shift. -/
structure RotInv (h : circular_buffer_handle) (k m : Nat) (st : RotState) : Prop where
  hLen : st.handle.buffLen = h.buffLen
  hStart : st.handle.startIndex = h.startIndex
  hElem : st.handle.elemNum = h.elemNum
  hMoved : st.moved = m
  hStartPos : st.startPos = (h.startIndex + m / rotPeriod h.buffLen k) % h.buffLen
  hPos : st.pos = rotVisit h.buffLen h.startIndex k m
  hTmp : 1 ≤ m → st.tmpOld = h.buff (rotVisit h.buffLen h.startIndex k (m - 1))
  hTodo : ∀ m', m' < h.buffLen → m ≤ m' →
    st.handle.buff (rotVisit h.buffLen h.startIndex k m') =
      h.buff (rotVisit h.buffLen h.startIndex k m')
  hDone : ∀ m', m' < m →
    (m' % rotPeriod h.buffLen k ≠ 0 ∨ m' / rotPeriod h.buffLen k < m / rotPeriod h.buffLen k) →
    st.handle.buff (rotVisit h.buffLen h.startIndex k m') =
      h.buff ((rotVisit h.buffLen h.startIndex k m' + h.buffLen - k) % h.buffLen)
  hOut : ∀ p, h.buffLen ≤ p → st.handle.buff p = h.buff p

/-! ### Bookkeeping for the proofs about `cBuffPush` -/

/-- The slot `j` places before slot `s` on a ring of `n` slots (`j ≤ n`). -/
def headSlot (n s j : Nat) : Nat := if j ≤ s then s - j else s + n - j

/-! ### Bookkeeping for the proofs about `cBuffWrite` -/

/-- The storage slot pass `d` of the copy loops of `cBuffWrite` and `cBuffRead`
addresses. -/
def accessSlot (handle : circular_buffer_handle) (ht off d : Nat) : Nat :=
  if ht = 0 then cBuffGetMemIndex handle (u32add d off)
  else cBuffGetMemIndex handle (u32sub (u32sub (u32sub handle.elemNum 1) d) off)

end BufferUtils

namespace BufferUtils

/-! ## Arithmetic of `uint32_t` and of the index mappers -/

theorem u32add_of_lt {a b : Nat} (h : a + b < 4294967296) : u32add a b = a + b := by
  unfold u32add
  omega

theorem u32sub_of_le {a b : Nat} (hb : b ≤ a) (ha : a < 4294967296) : u32sub a b = a - b := by
  unfold u32sub
  omega

theorem memSet_same (m : Mem) (i v : Nat) : memSet m i v i = v := by
  simp [memSet]

theorem memSet_other (m : Mem) {i j : Nat} (v : Nat) (h : j ≠ i) : memSet m i v j = m j := by
  simp [memSet, h]

theorem forUpTo_succ {σ : Type} (n : Nat) (body : Nat → σ → σ) (s : σ) :
    forUpTo (n + 1) body s = body n (forUpTo n body s) := rfl

/-- Within range the memory index is the start index plus the virtual index,
wrapped once. -/
theorem memIndex_of_lt (h : circular_buffer_handle) (v : Nat)
    (h32 : h.buffLen < 4294967296) (hs : h.startIndex < h.buffLen) (hv : v < h.buffLen) :
    cBuffGetMemIndex h v =
      if v < h.buffLen - h.startIndex then h.startIndex + v
      else v - (h.buffLen - h.startIndex) := by
  unfold cBuffGetMemIndex
  by_cases h0 : h.startIndex = 0
  · simp [h0, hv]
  · have hc : ¬ (h.buffLen = 0 ∨ h.startIndex = 0) := by omega
    simp only [hc, if_false, Nat.mod_eq_of_lt hv]
    rw [u32sub_of_le (le_of_lt hs) h32]
    split_ifs with h1
    · exact u32add_of_lt (by omega)
    · exact u32sub_of_le (by omega) (by omega)

/-- Within range the virtual index is the memory index minus the start index,
wrapped once. -/
theorem virtIndex_of_lt (h : circular_buffer_handle) (p : Nat)
    (h32 : h.buffLen < 4294967296) (hs : h.startIndex < h.buffLen) (hp : p < h.buffLen) :
    cBuffGetVirtIndex h p =
      if h.startIndex ≤ p then p - h.startIndex else h.buffLen - h.startIndex + p := by
  unfold cBuffGetVirtIndex
  by_cases h0 : h.startIndex = 0
  · simp [h0]
  · have hc : ¬ (h.buffLen = 0 ∨ h.startIndex = 0) := by omega
    simp only [hc, if_false, Nat.mod_eq_of_lt hp]
    split_ifs with h1
    · exact u32sub_of_le h1 (by omega)
    · rw [u32sub_of_le (le_of_lt hs) h32]
      exact u32add_of_lt (by omega)

theorem memIndex_lt (h : circular_buffer_handle) (v : Nat)
    (h32 : h.buffLen < 4294967296) (hs : h.startIndex < h.buffLen) (hv : v < h.buffLen) :
    cBuffGetMemIndex h v < h.buffLen := by
  rw [memIndex_of_lt h v h32 hs hv]
  split_ifs <;> omega

theorem virtIndex_lt (h : circular_buffer_handle) (p : Nat)
    (h32 : h.buffLen < 4294967296) (hs : h.startIndex < h.buffLen) (hp : p < h.buffLen) :
    cBuffGetVirtIndex h p < h.buffLen := by
  rw [virtIndex_of_lt h p h32 hs hp]
  split_ifs <;> omega

/-- C3: for a handle with `0 < buffLen` and `startIndex < buffLen`, the two
index mappers send `[0, buffLen)` into itself and are inverse to each other
there: `cBuffGetMemIndex (cBuffGetVirtIndex p) = p` and
`cBuffGetVirtIndex (cBuffGetMemIndex v) = v`. -/
theorem index_mappers_inverse (h : circular_buffer_handle)
    (_hn : 0 < h.buffLen) (h32 : h.buffLen < 4294967296) (hs : h.startIndex < h.buffLen) :
    (∀ p, p < h.buffLen →
      cBuffGetVirtIndex h p < h.buffLen ∧ cBuffGetMemIndex h (cBuffGetVirtIndex h p) = p) ∧
    (∀ v, v < h.buffLen →
      cBuffGetMemIndex h v < h.buffLen ∧ cBuffGetVirtIndex h (cBuffGetMemIndex h v) = v) := by
  constructor
  · intro p hp
    have hlt := virtIndex_lt h p h32 hs hp
    refine ⟨hlt, ?_⟩
    rw [memIndex_of_lt h _ h32 hs hlt, virtIndex_of_lt h p h32 hs hp]
    split_ifs <;> omega
  · intro v hv
    have hlt := memIndex_lt h v h32 hs hv
    refine ⟨hlt, ?_⟩
    rw [virtIndex_of_lt h _ h32 hs hlt, memIndex_of_lt h v h32 hs hv]
    split_ifs <;> omega

/-- C3 at capacity 5, start index 3. -/
theorem index_mappers_inverse_witness :
    (0 < 5 ∧ 5 < 4294967296 ∧ 3 < 5) ∧
    ((∀ p, p < 5 →
      cBuffGetVirtIndex ⟨memOfList [], 5, 3, 0⟩ p < 5 ∧
        cBuffGetMemIndex ⟨memOfList [], 5, 3, 0⟩ (cBuffGetVirtIndex ⟨memOfList [], 5, 3, 0⟩ p)
          = p) ∧
    (∀ v, v < 5 →
      cBuffGetMemIndex ⟨memOfList [], 5, 3, 0⟩ v < 5 ∧
        cBuffGetVirtIndex ⟨memOfList [], 5, 3, 0⟩ (cBuffGetMemIndex ⟨memOfList [], 5, 3, 0⟩ v)
          = v)) :=
  ⟨by decide, index_mappers_inverse ⟨memOfList [], 5, 3, 0⟩ (by decide) (by decide) (by decide)⟩

/-! ## The cycles of the memory rotation -/

theorem rotPeriod_mul (n k : Nat) : Nat.gcd n k * rotPeriod n k = n :=
  Nat.mul_div_cancel' (Nat.gcd_dvd_left n k)

theorem rotPeriod_pos {n : Nat} (k : Nat) (hn : 0 < n) : 0 < rotPeriod n k := by
  have h := rotPeriod_mul n k
  rcases Nat.eq_zero_or_pos (rotPeriod n k) with h0 | h0
  · rw [h0] at h; omega
  · exact h0

theorem rotPeriod_mul_shift (n k : Nat) : ∃ c, rotPeriod n k * k = n * c := by
  obtain ⟨c, hc⟩ := Nat.gcd_dvd_right n k
  refine ⟨c, ?_⟩
  have h := rotPeriod_mul n k
  calc rotPeriod n k * k = rotPeriod n k * (Nat.gcd n k * c) := by rw [← hc]
    _ = (Nat.gcd n k * rotPeriod n k) * c := by ring
    _ = n * c := by rw [h]

theorem div_rotPeriod_lt {n k m : Nat} (hm : m < n) : m / rotPeriod n k < Nat.gcd n k := by
  apply Nat.div_lt_of_lt_mul
  rw [Nat.mul_comm, rotPeriod_mul]
  exact hm

theorem rotVisit_lt {n : Nat} (s k m : Nat) (hn : 0 < n) : rotVisit n s k m < n :=
  Nat.mod_lt _ hn

theorem rotVisit_inj {n s k m m' : Nat} (hn : 0 < n) (hm : m < n) (hm' : m' < n)
    (h : rotVisit n s k m = rotVisit n s k m') : m = m' := by
  have hL := rotPeriod_pos k hn
  have hg : 0 < Nat.gcd n k := Nat.gcd_pos_of_pos_left k hn
  have h1 : s + m / rotPeriod n k + m % rotPeriod n k * k ≡
      s + m' / rotPeriod n k + m' % rotPeriod n k * k [MOD n] := h
  -- the cycle numbers agree
  have h2 : m / rotPeriod n k ≡ m' / rotPeriod n k [MOD Nat.gcd n k] := by
    have h3 := h1.of_dvd (Nat.gcd_dvd_left n k)
    have hk : ∀ i : Nat, i * k ≡ 0 [MOD Nat.gcd n k] := fun i =>
      (Nat.modEq_zero_iff_dvd).2 (Dvd.dvd.mul_left (Nat.gcd_dvd_right n k) i)
    have h4 : s + m / rotPeriod n k + 0 ≡ s + m' / rotPeriod n k + 0 [MOD Nat.gcd n k] :=
      ((Nat.ModEq.add_left _ (hk _).symm).trans h3).trans (Nat.ModEq.add_left _ (hk _))
    simp only [Nat.add_zero] at h4
    exact Nat.ModEq.add_left_cancel' s h4
  have hq : m / rotPeriod n k = m' / rotPeriod n k :=
    h2.eq_of_lt_of_lt (div_rotPeriod_lt hm) (div_rotPeriod_lt hm')
  -- the positions inside the cycle agree
  rw [hq] at h1
  have h5 : m % rotPeriod n k * k ≡ m' % rotPeriod n k * k [MOD n] :=
    Nat.ModEq.add_left_cancel' _ h1
  have h6 : m % rotPeriod n k ≡ m' % rotPeriod n k [MOD rotPeriod n k] :=
    Nat.ModEq.cancel_right_div_gcd hn h5
  have hr : m % rotPeriod n k = m' % rotPeriod n k :=
    h6.eq_of_lt_of_lt (Nat.mod_lt _ hL) (Nat.mod_lt _ hL)
  rw [← Nat.div_add_mod m (rotPeriod n k), ← Nat.div_add_mod m' (rotPeriod n k), hq, hr]

theorem rotVisit_surj {n : Nat} (s k : Nat) (hn : 0 < n) (p : Nat) (hp : p < n) :
    ∃ m, m < n ∧ rotVisit n s k m = p := by
  let f : Fin n → Fin n := fun m => ⟨rotVisit n s k m.1, rotVisit_lt s k m.1 hn⟩
  have hinj : Function.Injective f := by
    intro a b hab
    have : rotVisit n s k a.1 = rotVisit n s k b.1 := congrArg Fin.val hab
    exact Fin.ext (rotVisit_inj hn a.2 b.2 this)
  obtain ⟨m, hm⟩ := (Finite.injective_iff_surjective.1 hinj) ⟨p, hp⟩
  exact ⟨m.1, m.2, congrArg Fin.val hm⟩

theorem succ_divmod {L : Nat} (m : Nat) (hL : 0 < L) :
    (m % L + 1 = L ∧ (m + 1) % L = 0 ∧ (m + 1) / L = m / L + 1) ∨
    (m % L + 1 < L ∧ (m + 1) % L = m % L + 1 ∧ (m + 1) / L = m / L) := by
  have h1 := Nat.div_add_mod m L
  have h2 := Nat.mod_lt m hL
  rcases Nat.lt_or_ge (m % L + 1) L with h | h
  · right
    have := (Nat.div_mod_unique hL).2 (show m % L + 1 + L * (m / L) = m + 1 ∧ m % L + 1 < L from
      ⟨by omega, h⟩)
    exact ⟨h, this.2, this.1⟩
  · left
    have h3 : m % L + 1 = L := by omega
    have := (Nat.div_mod_unique hL).2 (show 0 + L * (m / L + 1) = m + 1 ∧ 0 < L from
      ⟨by rw [Nat.mul_add]; omega, hL⟩)
    exact ⟨h3, this.2, this.1⟩

theorem rotVisit_step {n : Nat} (s k m : Nat) (hn : 0 < n) :
    (rotVisit n s k m + k) % n =
      if (m + 1) % rotPeriod n k = 0 then (s + m / rotPeriod n k) % n
      else rotVisit n s k (m + 1) := by
  have hL := rotPeriod_pos k hn
  unfold rotVisit
  rw [Nat.mod_add_mod]
  rcases succ_divmod m hL with ⟨h1, h2, _⟩ | ⟨_, h2, h3⟩
  · rw [if_pos h2]
    obtain ⟨c, hc⟩ := rotPeriod_mul_shift n k
    have h4 : m % rotPeriod n k * k + k = n * c := by
      have h5 : m % rotPeriod n k * k + k = (m % rotPeriod n k + 1) * k := by ring
      rw [h5, h1, hc]
    rw [Nat.add_assoc, h4, Nat.add_mul_mod_self_left]
  · rw [if_neg (by omega), h2, h3, Nat.add_mul, Nat.one_mul, Nat.add_assoc]

/-- The slot a byte comes from: `shiftSrc n k ((x + k) % n) = x % n`. -/
theorem shiftSrc_step {n k : Nat} (x : Nat) (hk : k < n) :
    ((x + k) % n + n - k) % n = x % n := by
  have h : (x + k) % n + n - k = (x + k) % n + (n - k) := by omega
  rw [h, Nat.mod_add_mod]
  have h2 : x + k + (n - k) = x + n := by omega
  rw [h2, Nat.add_mod_right]

theorem rotVisit_src {n s k m : Nat} (hn : 0 < n) (hk : k < n) (hm : m % rotPeriod n k ≠ 0) :
    (rotVisit n s k m + n - k) % n = rotVisit n s k (m - 1) := by
  obtain ⟨m1, rfl⟩ : ∃ m1, m = m1 + 1 := by
    rcases m with _ | m1
    · simp at hm
    · exact ⟨m1, rfl⟩
  have h := rotVisit_step s k m1 hn
  rw [if_neg hm] at h
  rw [← h, shiftSrc_step _ hk, Nat.add_sub_cancel, Nat.mod_eq_of_lt (rotVisit_lt s k m1 hn)]

theorem rotVisit_cycleStart {n : Nat} (s k a : Nat) (hn : 0 < n) :
    rotVisit n s k (rotPeriod n k * a) = (s + a) % n := by
  have hL := rotPeriod_pos k hn
  unfold rotVisit
  rw [Nat.mul_div_cancel_left a hL, Nat.mul_mod_right, Nat.zero_mul, Nat.add_zero]

theorem mod_wrap {x n : Nat} (hx : x < n + n) : x % n = if x < n then x else x - n := by
  split_ifs with h
  · exact Nat.mod_eq_of_lt h
  · rw [Nat.mod_eq_sub_mod (by omega), Nat.mod_eq_of_lt (by omega)]

theorem rotShift_lt {n s t : Nat} (hs : s < n) (ht : t < n) : rotShift n s t < n := by
  unfold rotShift
  split_ifs <;> omega

/-- The next slot of the rotation loop is the current one shifted by
`rotShift`. -/
theorem rotate_next (h tmp : circular_buffer_handle) (pos : Nat)
    (h32 : h.buffLen < 4294967296) (hs : h.startIndex < h.buffLen)
    (hl : tmp.buffLen = h.buffLen) (ht : tmp.startIndex < h.buffLen) (hp : pos < h.buffLen) :
    cBuffGetMemIndex tmp (cBuffGetVirtIndex h pos) =
      (pos + rotShift h.buffLen h.startIndex tmp.startIndex) % h.buffLen := by
  have hv := virtIndex_lt h pos h32 hs hp
  rw [memIndex_of_lt tmp _ (by omega) (by omega) (by omega), virtIndex_of_lt h pos h32 hs hp, hl,
    mod_wrap (by have := rotShift_lt hs ht; omega)]
  unfold rotShift
  split_ifs <;> omega

theorem rotInv_init (scratch : Nat) (h : circular_buffer_handle) (k : Nat)
    (hs : h.startIndex < h.buffLen) :
    RotInv h k 0
      { handle := h, moved := 0, startPos := h.startIndex, pos := h.startIndex,
        tmpOld := scratch } where
  hLen := rfl
  hStart := rfl
  hElem := rfl
  hMoved := rfl
  hStartPos := by simp [Nat.mod_eq_of_lt hs]
  hPos := by simp [rotVisit, Nat.mod_eq_of_lt hs]
  hTmp := fun h0 => absurd h0 (by decide)
  hTodo := fun _ _ _ => rfl
  hDone := fun _ h0 => absurd h0 (Nat.not_lt_zero _)
  hOut := fun _ _ => rfl

/-- One pass of the rotation loop carries the loop state from pass `m` to pass
`m + 1`. -/
theorem rotInv_step (h tmp : circular_buffer_handle) (m : Nat) (st : RotState)
    (hn : 0 < h.buffLen) (h32 : h.buffLen < 4294967296) (hs : h.startIndex < h.buffLen)
    (hl : tmp.buffLen = h.buffLen) (ht : tmp.startIndex < h.buffLen) (hm : m < h.buffLen)
    (inv : RotInv h (rotShift h.buffLen h.startIndex tmp.startIndex) m st) :
    RotInv h (rotShift h.buffLen h.startIndex tmp.startIndex) (m + 1) (rotateBody tmp st) := by
  obtain ⟨hLen, hStart, hElem, hMoved, hStartPos, hPos, hTmp, hTodo, hDone, hOut⟩ := inv
  have hk := rotShift_lt hs ht
  generalize hkdef : rotShift h.buffLen h.startIndex tmp.startIndex = k at *
  have hL := rotPeriod_pos k hn
  have hposlt : st.pos < h.buffLen := by rw [hPos]; exact rotVisit_lt _ _ _ hn
  have hcur : st.handle.buff st.pos = h.buff (rotVisit h.buffLen h.startIndex k m) := by
    rw [hPos]; exact hTodo m hm (le_refl m)
  -- the next slot
  have hnext : cBuffGetMemIndex tmp
      (cBuffGetVirtIndex { st.handle with buff := memSet st.handle.buff st.pos st.tmpOld } st.pos)
        = (st.pos + k) % h.buffLen := by
    have := rotate_next { st.handle with buff := memSet st.handle.buff st.pos st.tmpOld } tmp
      st.pos (by simpa [hLen] using h32) (by simpa [hLen, hStart] using hs)
      (by simpa [hLen] using hl) (by simpa [hLen] using ht) (by simpa [hLen] using hposlt)
    simpa [hLen, hStart, hkdef] using this
  have hstep := rotVisit_step h.startIndex k m hn
  rw [← hPos] at hstep
  -- the start of the current cycle
  have hm0 : rotPeriod h.buffLen k * (m / rotPeriod h.buffLen k) ≤ m := Nat.mul_div_le m _
  have hstart0 : st.startPos =
      rotVisit h.buffLen h.startIndex k (rotPeriod h.buffLen k * (m / rotPeriod h.buffLen k)) := by
    rw [rotVisit_cycleStart _ _ _ hn, hStartPos]
  have hne : ∀ a b, a < h.buffLen → b < h.buffLen → a ≠ b →
      rotVisit h.buffLen h.startIndex k a ≠ rotVisit h.buffLen h.startIndex k b :=
    fun a b ha hb hab e => hab (rotVisit_inj hn ha hb e)
  -- the byte written on the current slot
  have hwr : m % rotPeriod h.buffLen k ≠ 0 →
      st.tmpOld = h.buff ((rotVisit h.buffLen h.startIndex k m + h.buffLen - k) % h.buffLen) := by
    intro hm1
    have h1 : 1 ≤ m := by
      rcases m with _ | m1
      · simp at hm1
      · omega
    rw [rotVisit_src hn hk hm1]
    exact hTmp h1
  rcases succ_divmod m hL with ⟨h1, h2, h3⟩ | ⟨h1, h2, h3⟩
  · -- the cycle closes
    rw [if_pos h2] at hstep
    have hclose : (st.pos + k) % h.buffLen = st.startPos := by rw [hstep, hStartPos]
    have hm0eq : rotPeriod h.buffLen k * (m / rotPeriod h.buffLen k) + rotPeriod h.buffLen k
        = m + 1 := by
      have := Nat.div_add_mod m (rotPeriod h.buffLen k)
      omega
    unfold rotateBody
    simp only [hnext, hclose, if_true]
    refine ⟨hLen, hStart, hElem, ?_, ?_, ?_, ?_, ?_, ?_, ?_⟩
    · show u32add st.moved 1 = m + 1
      rw [hMoved]; exact u32add_of_lt (by omega)
    · show u32add st.startPos 1 % st.handle.buffLen = _
      have hsp : st.startPos < h.buffLen := by rw [hStartPos]; exact Nat.mod_lt _ hn
      rw [u32add_of_lt (by omega), hLen, hStartPos, Nat.mod_add_mod, h3, Nat.add_assoc]
    · show u32add st.startPos 1 % st.handle.buffLen = _
      have hsp : st.startPos < h.buffLen := by rw [hStartPos]; exact Nat.mod_lt _ hn
      rw [u32add_of_lt (by omega), hLen, hStartPos, Nat.mod_add_mod]
      unfold rotVisit
      simp only [h2, h3, Nat.zero_mul, Nat.add_zero, Nat.add_assoc]
    · intro _
      show st.handle.buff st.pos = _
      rw [Nat.add_sub_cancel]; exact hcur
    · intro m' hm' hle
      show memSet (memSet st.handle.buff st.pos st.tmpOld) st.startPos (st.handle.buff st.pos) _ = _
      rw [memSet_other _ _ (by rw [hstart0]; exact hne _ _ hm' (by omega) (by omega)),
        memSet_other _ _ (by rw [hPos]; exact hne _ _ hm' hm (by omega))]
      exact hTodo m' hm' (by omega)
    · intro m' hm' hcond
      show memSet (memSet st.handle.buff st.pos st.tmpOld) st.startPos (st.handle.buff st.pos) _ = _
      by_cases e0 : m' = rotPeriod h.buffLen k * (m / rotPeriod h.buffLen k)
      · rw [e0, ← hstart0, memSet_same, hcur]
        congr 1
        rw [← hclose, hPos, shiftSrc_step _ hk, Nat.mod_eq_of_lt (rotVisit_lt _ _ _ hn)]
      · rw [memSet_other _ _ (by rw [hstart0]; exact hne _ _ (by omega) (by omega) e0)]
        by_cases e1 : m' = m
        · rw [e1, ← hPos, memSet_same, hPos]
          apply hwr
          intro hz
          have hd := Nat.div_add_mod m (rotPeriod h.buffLen k)
          rw [hz, Nat.add_zero] at hd
          exact e0 (e1.trans hd.symm)
        · rw [memSet_other _ _ (by rw [hPos]; exact hne _ _ (by omega) hm e1)]
          apply hDone m' (by omega)
          by_cases hz : m' % rotPeriod h.buffLen k = 0
          · right
            have hd := Nat.div_add_mod m' (rotPeriod h.buffLen k)
            rw [hz, Nat.add_zero] at hd
            have hle : m' / rotPeriod h.buffLen k ≤ m / rotPeriod h.buffLen k :=
              Nat.div_le_div_right (by omega)
            rcases Nat.lt_or_ge (m' / rotPeriod h.buffLen k) (m / rotPeriod h.buffLen k)
              with hlt | hge
            · exact hlt
            · exfalso
              have : m' / rotPeriod h.buffLen k = m / rotPeriod h.buffLen k := by omega
              rw [this] at hd
              exact e0 hd.symm
          · exact Or.inl hz
    · intro p hp
      show memSet (memSet st.handle.buff st.pos st.tmpOld) st.startPos (st.handle.buff st.pos) p = _
      have hsp : st.startPos < h.buffLen := by rw [hStartPos]; exact Nat.mod_lt _ hn
      rw [memSet_other _ _ (by omega), memSet_other _ _ (by omega)]
      exact hOut p hp
  · -- the cycle goes on
    have h2' : (m + 1) % rotPeriod h.buffLen k ≠ 0 := by omega
    rw [if_neg h2'] at hstep
    have hm1 : m + 1 < h.buffLen := by
      rcases Nat.lt_or_ge (m + 1) h.buffLen with hlt | hge
      · exact hlt
      · exfalso
        have e : m + 1 = h.buffLen := by omega
        apply h2'
        rw [e]
        exact Nat.mod_eq_zero_of_dvd (Dvd.intro_left _ (rotPeriod_mul h.buffLen k))
    have hopen : (st.pos + k) % h.buffLen ≠ st.startPos := by
      rw [hstep, hstart0]
      exact hne _ _ hm1 (by omega) (by omega)
    unfold rotateBody
    simp only [hnext, hopen, if_false]
    refine ⟨hLen, hStart, hElem, ?_, ?_, ?_, ?_, ?_, ?_, ?_⟩
    · show u32add st.moved 1 = m + 1
      rw [hMoved]; exact u32add_of_lt (by omega)
    · show st.startPos = _
      rw [h3]; exact hStartPos
    · exact hstep
    · intro _
      show st.handle.buff st.pos = _
      rw [Nat.add_sub_cancel]; exact hcur
    · intro m' hm' hle
      show memSet st.handle.buff st.pos st.tmpOld _ = _
      rw [memSet_other _ _ (by rw [hPos]; exact hne _ _ hm' hm (by omega))]
      exact hTodo m' hm' (by omega)
    · intro m' hm' hcond
      show memSet st.handle.buff st.pos st.tmpOld _ = _
      rw [h3] at hcond
      by_cases e1 : m' = m
      · rw [e1] at hcond ⊢
        rw [← hPos, memSet_same, hPos]
        exact hwr (by rcases hcond with hc | hc; exact hc; omega)
      · rw [memSet_other _ _ (by rw [hPos]; exact hne _ _ (by omega) hm e1)]
        exact hDone m' (by omega) hcond
    · intro p hp
      show memSet st.handle.buff st.pos st.tmpOld p = _
      rw [memSet_other _ _ (by omega)]
      exact hOut p hp

/-- Run from pass `m` with the passes still due as fuel, the rotation loop
reaches pass `buffLen`. -/
theorem rotateLoop_inv (h tmp : circular_buffer_handle)
    (hn : 0 < h.buffLen) (h32 : h.buffLen < 4294967296) (hs : h.startIndex < h.buffLen)
    (hl : tmp.buffLen = h.buffLen) (ht : tmp.startIndex < h.buffLen) :
    ∀ (fuel m : Nat) (st : RotState), m + fuel = h.buffLen →
      RotInv h (rotShift h.buffLen h.startIndex tmp.startIndex) m st →
      RotInv h (rotShift h.buffLen h.startIndex tmp.startIndex) h.buffLen
        (rotateLoop tmp fuel st) := by
  intro fuel
  induction fuel with
  | zero =>
    intro m st hm inv
    have e : m = h.buffLen := by omega
    have inv' := inv
    rw [e] at inv'
    exact inv'
  | succ fuel ih =>
    intro m st hm inv
    have hlt : st.moved < st.handle.buffLen := by rw [inv.hMoved, inv.hLen]; omega
    show RotInv h _ h.buffLen
      (if st.moved < st.handle.buffLen then rotateLoop tmp fuel (rotateBody tmp st) else st)
    rw [if_pos hlt]
    exact ih (m + 1) _ (by omega) (rotInv_step h tmp m st hn h32 hs hl ht (by omega) inv)

/-- The loop state `cBuffRotateMemory` ends with. -/
theorem rotateFinal_inv (scratch : Nat) (h : circular_buffer_handle) (t : Nat)
    (hn : 0 < h.buffLen) (h32 : h.buffLen < 4294967296) (hs : h.startIndex < h.buffLen)
    (ht : t < h.buffLen) :
    RotInv h (rotShift h.buffLen h.startIndex t) h.buffLen (rotateFinal scratch h t) := by
  unfold rotateFinal
  simp only [Nat.mod_eq_of_lt ht]
  exact rotateLoop_inv h ⟨h.buff, h.buffLen, t, h.elemNum⟩ hn h32 hs rfl ht h.buffLen 0 _
    (by omega) (rotInv_init scratch h _ hs)

/-- After the loop every slot of the storage holds the byte from `rotShift`
slots before it. -/
theorem rotateFinal_buff (scratch : Nat) (h : circular_buffer_handle) (t : Nat)
    (hn : 0 < h.buffLen) (h32 : h.buffLen < 4294967296) (hs : h.startIndex < h.buffLen)
    (ht : t < h.buffLen) (p : Nat) (hp : p < h.buffLen) :
    (rotateFinal scratch h t).handle.buff p =
      h.buff ((p + h.buffLen - rotShift h.buffLen h.startIndex t) % h.buffLen) := by
  have inv := rotateFinal_inv scratch h t hn h32 hs ht
  obtain ⟨m, hm, rfl⟩ := rotVisit_surj h.startIndex (rotShift h.buffLen h.startIndex t) hn p hp
  apply inv.hDone m hm
  right
  have hL := rotPeriod_pos (rotShift h.buffLen h.startIndex t) hn
  have e : h.buffLen / rotPeriod h.buffLen (rotShift h.buffLen h.startIndex t) =
      Nat.gcd h.buffLen (rotShift h.buffLen h.startIndex t) :=
    Nat.div_eq_of_eq_mul_left hL (rotPeriod_mul _ _).symm
  rw [e]
  exact div_rotPeriod_lt hm

/-- Within range the memory index is `(v + startIndex) mod buffLen`. -/
theorem memIndex_eq_mod (h : circular_buffer_handle) (v : Nat)
    (h32 : h.buffLen < 4294967296) (hs : h.startIndex < h.buffLen) (hv : v < h.buffLen) :
    cBuffGetMemIndex h v = (v + h.startIndex) % h.buffLen := by
  rw [memIndex_of_lt h v h32 hs hv, mod_wrap (by omega)]
  split_ifs <;> omega

theorem rotShift_src {n s t : Nat} (v : Nat) (hs : s < n) (ht : t < n) :
    ((v + t) % n + n - rotShift n s t) % n = (v + s) % n := by
  have e : (v + t) % n = (v + s + rotShift n s t) % n := by
    unfold rotShift
    split_ifs with hst
    · congr 1; omega
    · have : v + s + (t + n - s) = v + t + n := by omega
      rw [this, Nat.add_mod_right]
  rw [e, shiftSrc_step _ (rotShift_lt hs ht)]

/-- The remap done by `cBuffRotateMemory` on the storage. -/
theorem cBuffRotateMemory_buff (scratch : Nat) (h : circular_buffer_handle) (t : Nat)
    (hn : 0 < h.buffLen) (h32 : h.buffLen < 4294967296) (hs : h.startIndex < h.buffLen)
    (ht : t < h.buffLen) (v : Nat) :
    (cBuffRotateMemory scratch h t).buff ((v + t) % h.buffLen) =
      h.buff ((v + h.startIndex) % h.buffLen) := by
  unfold cBuffRotateMemory
  split_ifs with hc
  · rcases hc with hc | hc
    · omega
    · rw [hc]
  · show (rotateFinal scratch h t).handle.buff _ = _
    rw [rotateFinal_buff scratch h t hn h32 hs ht _ (Nat.mod_lt _ hn), rotShift_src v hs ht]

theorem cBuffRotateMemory_fields (scratch : Nat) (h : circular_buffer_handle) (t : Nat)
    (hn : 0 < h.buffLen) (h32 : h.buffLen < 4294967296) (hs : h.startIndex < h.buffLen)
    (ht : t < h.buffLen) :
    (cBuffRotateMemory scratch h t).startIndex = t ∧
    (cBuffRotateMemory scratch h t).buffLen = h.buffLen ∧
    (cBuffRotateMemory scratch h t).elemNum = h.elemNum ∧
    ∀ p, h.buffLen ≤ p → (cBuffRotateMemory scratch h t).buff p = h.buff p := by
  have inv := rotateFinal_inv scratch h t hn h32 hs ht
  unfold cBuffRotateMemory
  split_ifs with hc
  · rcases hc with hc | hc
    · omega
    · exact ⟨hc.symm, rfl, rfl, fun _ _ => rfl⟩
  · exact ⟨Nat.mod_eq_of_lt ht, inv.hLen, inv.hElem, inv.hOut⟩

/-- C1: on a handle with `0 < buffLen` and `startIndex < buffLen`, and for
`newStartIndx < buffLen`, `cBuffRotateMemory` sets `startIndex` to
`newStartIndx`, keeps `buffLen` and `elemNum`, and leaves at slot
`(v + newStartIndx) mod buffLen` the byte that was at slot
`(v + startIndex) mod buffLen`, for every `v < buffLen`; slots beyond the
storage keep their byte, the element at every virtual index below `elemNum`
(and `buffLen`) is unchanged, the result is the same whatever `tmpOld` first
held, and the loop is left through its own test. -/
theorem cBuffRotateMemory_remap (scratch : Nat) (h : circular_buffer_handle) (t : Nat)
    (hn : 0 < h.buffLen) (h32 : h.buffLen < 4294967296) (hs : h.startIndex < h.buffLen)
    (ht : t < h.buffLen) :
    (cBuffRotateMemory scratch h t).startIndex = t ∧
    (cBuffRotateMemory scratch h t).buffLen = h.buffLen ∧
    (cBuffRotateMemory scratch h t).elemNum = h.elemNum ∧
    (∀ v, v < h.buffLen →
      (cBuffRotateMemory scratch h t).buff ((v + t) % h.buffLen) =
        h.buff ((v + h.startIndex) % h.buffLen)) ∧
    (∀ p, h.buffLen ≤ p → (cBuffRotateMemory scratch h t).buff p = h.buff p) ∧
    (∀ v, v < h.elemNum → v < h.buffLen →
      elemAt (cBuffRotateMemory scratch h t) v = elemAt h v) ∧
    (∀ scratch', cBuffRotateMemory scratch' h t = cBuffRotateMemory scratch h t) ∧
    ¬ ((rotateFinal scratch h t).moved < (rotateFinal scratch h t).handle.buffLen) := by
  obtain ⟨f1, f2, f3, f4⟩ := cBuffRotateMemory_fields scratch h t hn h32 hs ht
  refine ⟨f1, f2, f3, fun v _ => cBuffRotateMemory_buff scratch h t hn h32 hs ht v, f4, ?_, ?_, ?_⟩
  · intro v _ hv
    unfold elemAt
    rw [memIndex_eq_mod _ v (by rw [f2]; exact h32) (by rw [f1, f2]; exact ht)
      (by rw [f2]; exact hv), memIndex_eq_mod h v h32 hs hv, f1, f2]
    exact cBuffRotateMemory_buff scratch h t hn h32 hs ht v
  · intro scratch'
    obtain ⟨g1, g2, g3, g4⟩ := cBuffRotateMemory_fields scratch' h t hn h32 hs ht
    apply circular_buffer_handle.ext
    · funext p
      rcases Nat.lt_or_ge p h.buffLen with hp | hp
      · have e : p = ((p + h.buffLen - t) % h.buffLen + t) % h.buffLen := by
          rw [Nat.mod_add_mod]
          have : p + h.buffLen - t + t = p + h.buffLen := by omega
          rw [this, Nat.add_mod_right, Nat.mod_eq_of_lt hp]
        rw [e, cBuffRotateMemory_buff scratch h t hn h32 hs ht,
          cBuffRotateMemory_buff scratch' h t hn h32 hs ht]
      · rw [f4 p hp, g4 p hp]
    · rw [f2, g2]
    · rw [f1, g1]
    · rw [f3, g3]
  · have inv := rotateFinal_inv scratch h t hn h32 hs ht
    rw [inv.hMoved, inv.hLen]
    exact Nat.lt_irrefl _

/-- C1 at capacity 6: start index 1 moved to 4. -/
theorem cBuffRotateMemory_remap_witness :
    (0 < 6 ∧ 6 < 4294967296 ∧ 1 < 6 ∧ 4 < 6) ∧
    ((cBuffRotateMemory 99 ⟨memOfList [10, 11, 12, 13, 14, 15], 6, 1, 3⟩ 4).startIndex = 4 ∧
    (cBuffRotateMemory 99 ⟨memOfList [10, 11, 12, 13, 14, 15], 6, 1, 3⟩ 4).buffLen = 6 ∧
    (cBuffRotateMemory 99 ⟨memOfList [10, 11, 12, 13, 14, 15], 6, 1, 3⟩ 4).elemNum = 3 ∧
    (∀ v, v < 6 →
      (cBuffRotateMemory 99 ⟨memOfList [10, 11, 12, 13, 14, 15], 6, 1, 3⟩ 4).buff ((v + 4) % 6) =
        memOfList [10, 11, 12, 13, 14, 15] ((v + 1) % 6)) ∧
    (∀ p, 6 ≤ p →
      (cBuffRotateMemory 99 ⟨memOfList [10, 11, 12, 13, 14, 15], 6, 1, 3⟩ 4).buff p =
        memOfList [10, 11, 12, 13, 14, 15] p) ∧
    (∀ v, v < 3 → v < 6 →
      elemAt (cBuffRotateMemory 99 ⟨memOfList [10, 11, 12, 13, 14, 15], 6, 1, 3⟩ 4) v =
        elemAt ⟨memOfList [10, 11, 12, 13, 14, 15], 6, 1, 3⟩ v) ∧
    (∀ scratch', cBuffRotateMemory scratch' ⟨memOfList [10, 11, 12, 13, 14, 15], 6, 1, 3⟩ 4 =
      cBuffRotateMemory 99 ⟨memOfList [10, 11, 12, 13, 14, 15], 6, 1, 3⟩ 4) ∧
    ¬ ((rotateFinal 99 ⟨memOfList [10, 11, 12, 13, 14, 15], 6, 1, 3⟩ 4).moved <
      (rotateFinal 99 ⟨memOfList [10, 11, 12, 13, 14, 15], 6, 1, 3⟩ 4).handle.buffLen)) ∧
    memToList (cBuffRotateMemory 99 ⟨memOfList [10, 11, 12, 13, 14, 15], 6, 1, 3⟩ 4).buff 6
      = [13, 14, 15, 10, 11, 12] :=
  ⟨by decide,
    cBuffRotateMemory_remap 99 ⟨memOfList [10, 11, 12, 13, 14, 15], 6, 1, 3⟩ 4 (by decide)
      (by decide) (by decide) (by decide),
    by decide⟩

/-! ## Pushes into free space -/

theorem memIndex_congr (h h' : circular_buffer_handle) (v : Nat)
    (hl : h'.buffLen = h.buffLen) (hs : h'.startIndex = h.startIndex) :
    cBuffGetMemIndex h' v = cBuffGetMemIndex h v := by
  unfold cBuffGetMemIndex
  rw [hl, hs]

theorem memIndex_inj (h : circular_buffer_handle) (v w : Nat)
    (h32 : h.buffLen < 4294967296) (hs : h.startIndex < h.buffLen)
    (hv : v < h.buffLen) (hw : w < h.buffLen)
    (e : cBuffGetMemIndex h v = cBuffGetMemIndex h w) : v = w := by
  rw [memIndex_of_lt h v h32 hs hv, memIndex_of_lt h w h32 hs hw] at e
  split_ifs at e <;> omega

/-- State of the loop of `cBuffPush` after `j` passes of a tail push that
fits the free space: the bytes are stored at the virtual indices following the
old tail and nothing else moves. -/
theorem pushTail_loop (h0 : circular_buffer_handle) (data : Mem) (ht : Nat) (hht : ht ≠ 0)
    (h32 : h0.buffLen < 4294967296) (hs : h0.startIndex < h0.buffLen) :
    ∀ j, h0.elemNum + j ≤ h0.buffLen →
      (forUpTo j (cBuffPushStep data ht) (h0, cBuffGetMemIndex h0 h0.elemNum)).1.buffLen
        = h0.buffLen ∧
      (forUpTo j (cBuffPushStep data ht) (h0, cBuffGetMemIndex h0 h0.elemNum)).1.startIndex
        = h0.startIndex ∧
      (forUpTo j (cBuffPushStep data ht) (h0, cBuffGetMemIndex h0 h0.elemNum)).1.elemNum
        = h0.elemNum + j ∧
      (forUpTo j (cBuffPushStep data ht) (h0, cBuffGetMemIndex h0 h0.elemNum)).2
        = cBuffGetMemIndex h0 (h0.elemNum + j) ∧
      (∀ d, d < j →
        (forUpTo j (cBuffPushStep data ht) (h0, cBuffGetMemIndex h0 h0.elemNum)).1.buff
          (cBuffGetMemIndex h0 (h0.elemNum + d)) = data d) ∧
      (∀ p, (∀ d, d < j → p ≠ cBuffGetMemIndex h0 (h0.elemNum + d)) →
        (forUpTo j (cBuffPushStep data ht) (h0, cBuffGetMemIndex h0 h0.elemNum)).1.buff p
          = h0.buff p) := by
  intro j
  induction j with
  | zero =>
    intro _
    exact ⟨rfl, rfl, rfl, rfl, fun d hd => absurd hd (Nat.not_lt_zero d), fun _ _ => rfl⟩
  | succ j ih =>
    intro hj
    obtain ⟨a1, a2, a3, a4, a5, a6⟩ := ih (by omega)
    rw [forUpTo_succ]
    generalize forUpTo j (cBuffPushStep data ht) (h0, cBuffGetMemIndex h0 h0.elemNum) = st at *
    obtain ⟨hj', pm⟩ := st
    simp only at a1 a2 a3 a4 a5 a6
    have hlt : hj'.elemNum < hj'.buffLen := by omega
    simp only [cBuffPushStep, if_neg hht, if_pos hlt]
    have e1 : u32add hj'.elemNum 1 = h0.elemNum + (j + 1) := by
      rw [u32add_of_lt (by omega)]; omega
    refine ⟨a1, a2, e1, ?_, ?_, ?_⟩
    · rw [e1]
      exact memIndex_congr h0 _ _ a1 a2
    · intro d hd
      by_cases e : d = j
      · rw [e, ← a4, memSet_same]
      · have hne : cBuffGetMemIndex h0 (h0.elemNum + d) ≠ pm := by
          rw [a4]
          intro hh
          have := memIndex_inj h0 _ _ h32 hs (by omega) (by omega) hh
          omega
        rw [memSet_other _ _ hne]
        exact a5 d (by omega)
    · intro p hp
      have hne : p ≠ pm := by rw [a4]; exact hp j (by omega)
      rw [memSet_other _ _ hne]
      exact a6 p (fun d hd => hp d (by omega))

/-- What a tail push that fits the free space leaves. -/
theorem cBuffPush_tail_fit (h : circular_buffer_handle) (data : Mem) (n ht : Nat)
    (hht : ht ≠ 0) (h32 : h.buffLen < 4294967296) (hs : h.startIndex < h.buffLen)
    (hfit : h.elemNum + n ≤ h.buffLen) :
    (cBuffPush h (some data) n ht).elemNum = h.elemNum + n ∧
    (cBuffPush h (some data) n ht).startIndex = h.startIndex ∧
    (cBuffPush h (some data) n ht).buffLen = h.buffLen ∧
    (∀ v, v < h.elemNum → elemAt (cBuffPush h (some data) n ht) v = elemAt h v) ∧
    (∀ d, d < n → elemAt (cBuffPush h (some data) n ht) (h.elemNum + d) = data d) := by
  by_cases hc : h.buffLen = 0 ∨ n = 0
  · have e : cBuffPush h (some data) n ht = h := by simp only [cBuffPush, if_pos hc]
    rw [e]
    have hn0 : n = 0 := by omega
    exact ⟨by omega, rfl, rfl, fun _ _ => rfl, fun d hd => by omega⟩
  · obtain ⟨a1, a2, a3, _, a5, a6⟩ := pushTail_loop h data ht hht h32 hs n hfit
    have e : cBuffPush h (some data) n ht =
        (forUpTo n (cBuffPushStep data ht) (h, cBuffGetMemIndex h h.elemNum)).1 := by
      simp only [cBuffPush, if_neg hc, if_neg hht]
    rw [e]
    refine ⟨a3, a2, a1, ?_, ?_⟩
    · intro v hv
      unfold elemAt
      rw [memIndex_congr h _ v a1 a2]
      apply a6
      intro d hd hh
      have := memIndex_inj h _ _ h32 hs (by omega) (by omega) hh
      omega
    · intro d hd
      unfold elemAt
      rw [memIndex_congr h _ _ a1 a2]
      exact a5 d hd

/-- C7: on a handle with `0 < buffLen`, `startIndex < buffLen` and
`elemNum ≤ buffLen`, a tail push of `n` bytes with `0 < n ≤ buffLen - elemNum`
appends: `elemNum` grows by `n`, `startIndex` stays, the elements at the
virtual indices below the old `elemNum` stay, and the element at virtual index
`elemNum + d` is `data[d]` for every `d < n`. -/
theorem cBuffPush_tail_append (h : circular_buffer_handle) (data : Mem) (n ht : Nat)
    (hht : ht ≠ 0) (_hn : 0 < h.buffLen) (h32 : h.buffLen < 4294967296)
    (hs : h.startIndex < h.buffLen) (he : h.elemNum ≤ h.buffLen) (_hc : 0 < n)
    (hfit : n ≤ h.buffLen - h.elemNum) :
    (cBuffPush h (some data) n ht).elemNum = h.elemNum + n ∧
    (cBuffPush h (some data) n ht).startIndex = h.startIndex ∧
    (∀ v, v < h.elemNum → elemAt (cBuffPush h (some data) n ht) v = elemAt h v) ∧
    (∀ d, d < n → elemAt (cBuffPush h (some data) n ht) (h.elemNum + d) = data d) := by
  obtain ⟨b1, b2, _, b4, b5⟩ := cBuffPush_tail_fit h data n ht hht h32 hs (by omega)
  exact ⟨b1, b2, b4, b5⟩

/-- C7 on the empty ring of capacity 4: pushing `[1, 2, 3]` to the tail gives
length 3 and logical content `[1, 2, 3]`. -/
theorem cBuffPush_tail_append_witness :
    ((1 : Nat) ≠ 0 ∧ 0 < 4 ∧ 4 < 4294967296 ∧ 0 < 4 ∧ 0 ≤ 4 ∧ 0 < 3 ∧ 3 ≤ 4 - 0) ∧
    ((cBuffPush ⟨memOfList [], 4, 0, 0⟩ (some (memOfList [1, 2, 3])) 3 1).elemNum = 0 + 3 ∧
      (cBuffPush ⟨memOfList [], 4, 0, 0⟩ (some (memOfList [1, 2, 3])) 3 1).startIndex = 0 ∧
      (∀ v, v < 0 →
        elemAt (cBuffPush ⟨memOfList [], 4, 0, 0⟩ (some (memOfList [1, 2, 3])) 3 1) v =
          elemAt ⟨memOfList [], 4, 0, 0⟩ v) ∧
      (∀ d, d < 3 →
        elemAt (cBuffPush ⟨memOfList [], 4, 0, 0⟩ (some (memOfList [1, 2, 3])) 3 1) (0 + d) =
          memOfList [1, 2, 3] d)) ∧
    logical (cBuffPush ⟨memOfList [], 4, 0, 0⟩ (some (memOfList [1, 2, 3])) 3 1) = [1, 2, 3] :=
  ⟨by decide,
    cBuffPush_tail_append ⟨memOfList [], 4, 0, 0⟩ (memOfList [1, 2, 3]) 3 1 (by decide)
      (by decide) (by decide) (by decide) (by decide) (by decide) (by decide),
    by decide⟩

/-- State of the loop of `cBuffPush` after `j` passes of a head push that fits
the free space: the start index has moved back by `j` slots, the bytes are
stored on the slots it moved over and nothing else moves. -/
theorem pushHead_loop (h0 : circular_buffer_handle) (data : Mem)
    (h32 : h0.buffLen < 4294967296) (hs : h0.startIndex < h0.buffLen) :
    ∀ j, h0.elemNum + j ≤ h0.buffLen →
      (forUpTo j (cBuffPushStep data 0)
        (h0, cBuffGetMemIndex h0 (u32sub h0.buffLen 1))).1.buffLen = h0.buffLen ∧
      (forUpTo j (cBuffPushStep data 0)
        (h0, cBuffGetMemIndex h0 (u32sub h0.buffLen 1))).1.startIndex
          = headSlot h0.buffLen h0.startIndex j ∧
      (forUpTo j (cBuffPushStep data 0)
        (h0, cBuffGetMemIndex h0 (u32sub h0.buffLen 1))).1.elemNum = h0.elemNum + j ∧
      (forUpTo j (cBuffPushStep data 0) (h0, cBuffGetMemIndex h0 (u32sub h0.buffLen 1))).2
        = cBuffGetMemIndex
            (forUpTo j (cBuffPushStep data 0) (h0, cBuffGetMemIndex h0 (u32sub h0.buffLen 1))).1
            (u32sub h0.buffLen 1) ∧
      (∀ d, d < j →
        (forUpTo j (cBuffPushStep data 0) (h0, cBuffGetMemIndex h0 (u32sub h0.buffLen 1))).1.buff
          (headSlot h0.buffLen h0.startIndex (d + 1)) = data d) ∧
      (∀ p, (∀ d, d < j → p ≠ headSlot h0.buffLen h0.startIndex (d + 1)) →
        (forUpTo j (cBuffPushStep data 0) (h0, cBuffGetMemIndex h0 (u32sub h0.buffLen 1))).1.buff p
          = h0.buff p) := by
  intro j
  induction j with
  | zero =>
    intro _
    refine ⟨rfl, ?_, rfl, rfl, fun d hd => absurd hd (Nat.not_lt_zero d), fun _ _ => rfl⟩
    simp [forUpTo, headSlot]
  | succ j ih =>
    intro hj
    obtain ⟨a1, a2, a3, a4, a5, a6⟩ := ih (by omega)
    rw [forUpTo_succ]
    generalize forUpTo j (cBuffPushStep data 0) (h0, cBuffGetMemIndex h0 (u32sub h0.buffLen 1))
      = st at *
    obtain ⟨hj', pm⟩ := st
    simp only at a1 a2 a3 a4 a5 a6
    have hlt : hj'.elemNum < hj'.buffLen := by omega
    have hsj : hj'.startIndex < hj'.buffLen := by
      rw [a1, a2]; unfold headSlot; split_ifs <;> omega
    have hpm : pm = headSlot h0.buffLen h0.startIndex (j + 1) := by
      rw [a4, u32sub_of_le (by omega) h32,
        memIndex_of_lt hj' _ (by omega) hsj (by omega), a1, a2]
      unfold headSlot
      split_ifs <;> omega
    simp only [cBuffPushStep, if_true, if_pos hlt]
    have e1 : u32add hj'.elemNum 1 = h0.elemNum + (j + 1) := by
      rw [u32add_of_lt (by omega)]; omega
    refine ⟨a1, hpm, e1, ?_, ?_, ?_⟩
    · rw [a1]
    · intro d hd
      by_cases e : d = j
      · rw [e, ← hpm, memSet_same]
      · have hne : headSlot h0.buffLen h0.startIndex (d + 1) ≠ pm := by
          rw [hpm]; unfold headSlot; split_ifs <;> omega
        rw [memSet_other _ _ hne]
        exact a5 d (by omega)
    · intro p hp
      have hne : p ≠ pm := by rw [hpm]; exact hp j (by omega)
      rw [memSet_other _ _ hne]
      exact a6 p (fun d hd => hp d (by omega))

/-- What a head push that fits the free space leaves. -/
theorem cBuffPush_head_fit (h : circular_buffer_handle) (data : Mem) (n : Nat)
    (h32 : h.buffLen < 4294967296) (hs : h.startIndex < h.buffLen)
    (hfit : h.elemNum + n ≤ h.buffLen) :
    (cBuffPush h (some data) n 0).elemNum = h.elemNum + n ∧
    (cBuffPush h (some data) n 0).startIndex = headSlot h.buffLen h.startIndex n ∧
    (cBuffPush h (some data) n 0).buffLen = h.buffLen ∧
    (∀ v, v < h.elemNum → elemAt (cBuffPush h (some data) n 0) (v + n) = elemAt h v) := by
  by_cases hc : h.buffLen = 0 ∨ n = 0
  · have e : cBuffPush h (some data) n 0 = h := by simp only [cBuffPush, if_pos hc]
    rw [e]
    have hn0 : n = 0 := by omega
    subst hn0
    exact ⟨rfl, by simp [headSlot], rfl, fun _ _ => rfl⟩
  · obtain ⟨a1, a2, a3, _, _, a6⟩ := pushHead_loop h data h32 hs n hfit
    have e : cBuffPush h (some data) n 0 =
        (forUpTo n (cBuffPushStep data 0) (h, cBuffGetMemIndex h (u32sub h.buffLen 1))).1 := by
      simp only [cBuffPush, if_neg hc, if_true]
    rw [e]
    refine ⟨a3, a2, a1, ?_⟩
    intro v hv
    unfold elemAt
    have hs' : headSlot h.buffLen h.startIndex n < h.buffLen := by
      unfold headSlot; split_ifs <;> omega
    have e2 : cBuffGetMemIndex
        (forUpTo n (cBuffPushStep data 0) (h, cBuffGetMemIndex h (u32sub h.buffLen 1))).1 (v + n)
        = cBuffGetMemIndex h v := by
      rw [memIndex_of_lt _ _ (by rw [a1]; exact h32) (by rw [a1, a2]; exact hs')
        (by rw [a1]; omega), memIndex_of_lt h v h32 hs (by omega), a1, a2]
      unfold headSlot
      split_ifs <;> omega
    rw [e2]
    apply a6
    intro d hd
    rw [memIndex_of_lt h v h32 hs (by omega)]
    unfold headSlot
    split_ifs <;> omega

/-- C9: on a handle with `0 < buffLen`, `startIndex < buffLen` and
`elemNum ≤ buffLen`, `cBuffPushToFill` with data present and `0 < dataLen`
returns `a = min dataLen (buffLen - elemNum)`, grows `elemNum` by `a` and
keeps every element: after a tail push the old element at virtual index `v`
is at `v`, after a head push it is at `v + a`.  On a full buffer it returns 0
and leaves the handle as it was. -/
theorem cBuffPushToFill_keeps (h : circular_buffer_handle) (data : Mem) (dataLen ht : Nat)
    (hn : 0 < h.buffLen) (h32 : h.buffLen < 4294967296) (hs : h.startIndex < h.buffLen)
    (he : h.elemNum ≤ h.buffLen) (hd : 0 < dataLen) :
    (cBuffPushToFill h (some data) dataLen ht).2 = min dataLen (h.buffLen - h.elemNum) ∧
    (cBuffPushToFill h (some data) dataLen ht).1.elemNum =
      h.elemNum + min dataLen (h.buffLen - h.elemNum) ∧
    (cBuffPushToFill h (some data) dataLen ht).1.buffLen = h.buffLen ∧
    (ht ≠ 0 → (cBuffPushToFill h (some data) dataLen ht).1.startIndex = h.startIndex ∧
      ∀ v, v < h.elemNum →
        elemAt (cBuffPushToFill h (some data) dataLen ht).1 v = elemAt h v) ∧
    (ht = 0 → ∀ v, v < h.elemNum →
      elemAt (cBuffPushToFill h (some data) dataLen ht).1
        (v + min dataLen (h.buffLen - h.elemNum)) = elemAt h v) ∧
    (h.elemNum = h.buffLen → cBuffPushToFill h (some data) dataLen ht = (h, 0)) := by
  have hc : ¬ (h.buffLen = 0 ∨ dataLen = 0 ∨ (some data).isNone = true) := by
    simp only [Option.isNone_some, Bool.false_eq_true, or_false]
    omega
  have hav : (if dataLen < u32sub h.buffLen h.elemNum then dataLen
      else u32sub h.buffLen h.elemNum) = min dataLen (h.buffLen - h.elemNum) := by
    rw [u32sub_of_le he h32]
    split_ifs <;> omega
  have e : cBuffPushToFill h (some data) dataLen ht =
      (cBuffPush h (some data) (min dataLen (h.buffLen - h.elemNum)) ht,
        min dataLen (h.buffLen - h.elemNum)) := by
    simp only [cBuffPushToFill, if_neg hc, hav]
  rw [e]
  have hfit : h.elemNum + min dataLen (h.buffLen - h.elemNum) ≤ h.buffLen := by omega
  refine ⟨rfl, ?_, ?_, ?_, ?_, ?_⟩
  · by_cases hht : ht = 0
    · subst hht; exact (cBuffPush_head_fit h data _ h32 hs hfit).1
    · exact (cBuffPush_tail_fit h data _ ht hht h32 hs hfit).1
  · by_cases hht : ht = 0
    · subst hht; exact (cBuffPush_head_fit h data _ h32 hs hfit).2.2.1
    · exact (cBuffPush_tail_fit h data _ ht hht h32 hs hfit).2.2.1
  · intro hht
    obtain ⟨_, b2, _, b4, _⟩ := cBuffPush_tail_fit h data _ ht hht h32 hs hfit
    exact ⟨b2, b4⟩
  · intro hht
    subst hht
    exact (cBuffPush_head_fit h data _ h32 hs hfit).2.2.2
  · intro hfull
    have h0 : min dataLen (h.buffLen - h.elemNum) = 0 := by omega
    rw [h0]
    simp [cBuffPush]

/-- C9 at capacity 4 holding `[7, 8]` from slot 3 on: a head push of three
bytes takes two. -/
theorem cBuffPushToFill_keeps_witness :
    (0 < 4 ∧ 4 < 4294967296 ∧ 3 < 4 ∧ 2 ≤ 4 ∧ 0 < 3) ∧
    ((cBuffPushToFill ⟨memOfList [8, 0, 0, 7], 4, 3, 2⟩ (some (memOfList [1, 2, 3])) 3 0).2
        = min 3 (4 - 2) ∧
    (cBuffPushToFill ⟨memOfList [8, 0, 0, 7], 4, 3, 2⟩ (some (memOfList [1, 2, 3])) 3 0).1.elemNum
        = 2 + min 3 (4 - 2) ∧
    (cBuffPushToFill ⟨memOfList [8, 0, 0, 7], 4, 3, 2⟩ (some (memOfList [1, 2, 3])) 3 0).1.buffLen
        = 4 ∧
    ((0 : Nat) ≠ 0 →
      (cBuffPushToFill ⟨memOfList [8, 0, 0, 7], 4, 3, 2⟩
        (some (memOfList [1, 2, 3])) 3 0).1.startIndex = 3 ∧
      ∀ v, v < 2 →
        elemAt (cBuffPushToFill ⟨memOfList [8, 0, 0, 7], 4, 3, 2⟩
          (some (memOfList [1, 2, 3])) 3 0).1 v = elemAt ⟨memOfList [8, 0, 0, 7], 4, 3, 2⟩ v) ∧
    ((0 : Nat) = 0 → ∀ v, v < 2 →
      elemAt (cBuffPushToFill ⟨memOfList [8, 0, 0, 7], 4, 3, 2⟩
        (some (memOfList [1, 2, 3])) 3 0).1 (v + min 3 (4 - 2))
        = elemAt ⟨memOfList [8, 0, 0, 7], 4, 3, 2⟩ v) ∧
    ((2 : Nat) = 4 →
      cBuffPushToFill ⟨memOfList [8, 0, 0, 7], 4, 3, 2⟩ (some (memOfList [1, 2, 3])) 3 0
        = (⟨memOfList [8, 0, 0, 7], 4, 3, 2⟩, 0))) ∧
    logical (cBuffPushToFill ⟨memOfList [8, 0, 0, 7], 4, 3, 2⟩
      (some (memOfList [1, 2, 3])) 3 0).1 = [2, 1, 7, 8] :=
  ⟨by decide,
    cBuffPushToFill_keeps ⟨memOfList [8, 0, 0, 7], 4, 3, 2⟩ (memOfList [1, 2, 3]) 3 0
      (by decide) (by decide) (by decide) (by decide) (by decide),
    by decide⟩

/-! ## Reads and pulls -/

/-- What the copy loop of `cBuffRead` leaves in the caller's buffer after `r`
passes. -/
theorem readLoop_spec (h : circular_buffer_handle) (ht off : Nat) (out : Mem) :
    ∀ r,
      (∀ d, d < r →
        forUpTo r (cBuffReadStep h ht off) out d =
          if ht = 0 then h.buff (cBuffGetMemIndex h (u32add d off))
          else h.buff (cBuffGetMemIndex h (u32sub (u32sub (u32sub h.elemNum 1) d) off))) ∧
      (∀ j, r ≤ j → forUpTo r (cBuffReadStep h ht off) out j = out j) := by
  intro r
  induction r with
  | zero => exact ⟨fun d hd => absurd hd (Nat.not_lt_zero d), fun _ _ => rfl⟩
  | succ r ih =>
    obtain ⟨a1, a2⟩ := ih
    rw [forUpTo_succ]
    constructor
    · intro d hd
      by_cases e : d = r
      · subst e
        unfold cBuffReadStep
        split_ifs <;> exact memSet_same _ _ _
      · have e2 : cBuffReadStep h ht off r (forUpTo r (cBuffReadStep h ht off) out) d =
            forUpTo r (cBuffReadStep h ht off) out d := by
          unfold cBuffReadStep
          split_ifs <;> exact memSet_other _ _ e
        rw [e2]
        exact a1 d (by omega)
    · intro j hj
      have e2 : cBuffReadStep h ht off r (forUpTo r (cBuffReadStep h ht off) out) j =
          forUpTo r (cBuffReadStep h ht off) out j := by
        unfold cBuffReadStep
        split_ifs <;> exact memSet_other _ _ (by omega)
      rw [e2]
      exact a2 j (by omega)

/-- The read of `cBuffRead` past its early return, in terms of virtual
indices. -/
theorem cBuffRead_some (h : circular_buffer_handle) (out : Mem) (count ht off : Nat)
    (h32 : h.buffLen < 4294967296) (he : h.elemNum ≤ h.buffLen)
    (hoff : off < h.elemNum) (hcount : count ≠ 0) :
    (cBuffRead h (some out) count ht off).handle = h ∧
    (cBuffRead h (some out) count ht off).retVal = min count (h.elemNum - off) ∧
    (cBuffRead h none count ht off).retVal = min count (h.elemNum - off) ∧
    ∃ out', (cBuffRead h (some out) count ht off).data = some out' ∧
      (∀ d, d < min count (h.elemNum - off) →
        out' d = if ht = 0 then elemAt h (off + d) else elemAt h (h.elemNum - 1 - off - d)) ∧
      (∀ j, min count (h.elemNum - off) ≤ j → out' j = out j) := by
  have hc : ¬ (h.elemNum = 0 ∨ count = 0 ∨ off ≥ h.elemNum) := by omega
  have hr : (if count ≤ u32sub h.elemNum off then count else u32sub h.elemNum off)
      = min count (h.elemNum - off) := by
    rw [u32sub_of_le (le_of_lt hoff) (by omega)]
    split_ifs <;> omega
  refine ⟨?_, ?_, ?_, ?_⟩
  · simp only [cBuffRead, if_neg hc]
  · simp only [cBuffRead, if_neg hc, hr]
  · simp only [cBuffRead, if_neg hc, hr]
  · refine ⟨forUpTo (min count (h.elemNum - off)) (cBuffReadStep h ht off) out, ?_, ?_, ?_⟩
    · simp only [cBuffRead, if_neg hc, hr]
    · intro d hd
      rw [(readLoop_spec h ht off out _).1 d hd]
      unfold elemAt
      have e1 : u32add d off = off + d := by rw [u32add_of_lt (by omega)]; omega
      have e2 : u32sub (u32sub (u32sub h.elemNum 1) d) off = h.elemNum - 1 - off - d := by
        have s1 : u32sub h.elemNum 1 = h.elemNum - 1 := u32sub_of_le (by omega) (by omega)
        have s2 : u32sub (h.elemNum - 1) d = h.elemNum - 1 - d :=
          u32sub_of_le (by omega) (by omega)
        have s3 : u32sub (h.elemNum - 1 - d) off = h.elemNum - 1 - d - off :=
          u32sub_of_le (by omega) (by omega)
        rw [s1, s2, s3]
        omega
      rw [e1, e2]
    · intro j hj
      exact (readLoop_spec h ht off out _).2 j hj

/-- C10: on a handle with `startIndex < buffLen` and `elemNum ≤ buffLen`,
`cBuffRead` returns the handle as it was.  With `off ≥ elemNum` or a zero
count it returns 0 and leaves the caller's buffer as it was; otherwise it
returns `n = min count (elemNum - off)`, sets `out[d]` for `d < n` to the
element at virtual index `off + d` (from the head) or `elemNum - 1 - off - d`
(from the tail) and leaves `out[j]` for `j ≥ n`.  Without a caller buffer it
returns the same count and copies nothing. -/
theorem cBuffRead_spec (h : circular_buffer_handle) (out : Mem) (count ht off : Nat)
    (h32 : h.buffLen < 4294967296) (_hs : h.startIndex < h.buffLen)
    (he : h.elemNum ≤ h.buffLen) :
    (cBuffRead h (some out) count ht off).handle = h ∧
    (cBuffRead h none count ht off).handle = h ∧
    (cBuffRead h none count ht off).data = none ∧
    (cBuffRead h none count ht off).retVal = (cBuffRead h (some out) count ht off).retVal ∧
    (off ≥ h.elemNum ∨ count = 0 →
      (cBuffRead h (some out) count ht off).retVal = 0 ∧
      (cBuffRead h (some out) count ht off).data = some out) ∧
    (off < h.elemNum → count ≠ 0 →
      (cBuffRead h (some out) count ht off).retVal = min count (h.elemNum - off) ∧
      ∃ out', (cBuffRead h (some out) count ht off).data = some out' ∧
        (∀ d, d < min count (h.elemNum - off) →
          out' d = if ht = 0 then elemAt h (off + d) else elemAt h (h.elemNum - 1 - off - d)) ∧
        (∀ j, min count (h.elemNum - off) ≤ j → out' j = out j)) := by
  by_cases hc : h.elemNum = 0 ∨ count = 0 ∨ off ≥ h.elemNum
  · have e1 : cBuffRead h (some out) count ht off = ⟨h, some out, 0⟩ := by
      simp only [cBuffRead, if_pos hc]
    have e2 : cBuffRead h none count ht off = ⟨h, none, 0⟩ := by
      simp only [cBuffRead, if_pos hc]
    rw [e1, e2]
    exact ⟨rfl, rfl, rfl, rfl, fun _ => ⟨rfl, rfl⟩, fun h1 h2 => by omega⟩
  · have hoff : off < h.elemNum := by omega
    have hcount : count ≠ 0 := by omega
    obtain ⟨b1, b2, b3, b4⟩ := cBuffRead_some h out count ht off h32 he hoff hcount
    refine ⟨b1, ?_, ?_, by rw [b2, b3], fun h1 => by omega, fun _ _ => ⟨b2, b4⟩⟩
    · simp only [cBuffRead, if_neg hc]
    · simp only [cBuffRead, if_neg hc]

/-- C10 on `[4, 5]`: reading two bytes from the head at offset 1 returns one
byte, `5`. -/
theorem cBuffRead_spec_witness :
    (4 < 4294967296 ∧ 2 < 4 ∧ 2 ≤ 4) ∧
    ((cBuffRead ⟨memOfList [2, 3, 4, 5], 4, 2, 2⟩ (some (memOfList [])) 2 0 1).handle
      = ⟨memOfList [2, 3, 4, 5], 4, 2, 2⟩ ∧
    (cBuffRead ⟨memOfList [2, 3, 4, 5], 4, 2, 2⟩ none 2 0 1).handle
      = ⟨memOfList [2, 3, 4, 5], 4, 2, 2⟩ ∧
    (cBuffRead ⟨memOfList [2, 3, 4, 5], 4, 2, 2⟩ none 2 0 1).data = none ∧
    (cBuffRead ⟨memOfList [2, 3, 4, 5], 4, 2, 2⟩ none 2 0 1).retVal =
      (cBuffRead ⟨memOfList [2, 3, 4, 5], 4, 2, 2⟩ (some (memOfList [])) 2 0 1).retVal ∧
    (1 ≥ 2 ∨ 2 = 0 →
      (cBuffRead ⟨memOfList [2, 3, 4, 5], 4, 2, 2⟩ (some (memOfList [])) 2 0 1).retVal = 0 ∧
      (cBuffRead ⟨memOfList [2, 3, 4, 5], 4, 2, 2⟩ (some (memOfList [])) 2 0 1).data
        = some (memOfList [])) ∧
    (1 < 2 → 2 ≠ 0 →
      (cBuffRead ⟨memOfList [2, 3, 4, 5], 4, 2, 2⟩ (some (memOfList [])) 2 0 1).retVal
        = min 2 (2 - 1) ∧
      ∃ out', (cBuffRead ⟨memOfList [2, 3, 4, 5], 4, 2, 2⟩ (some (memOfList [])) 2 0 1).data
          = some out' ∧
        (∀ d, d < min 2 (2 - 1) →
          out' d = if (0 : Nat) = 0 then elemAt ⟨memOfList [2, 3, 4, 5], 4, 2, 2⟩ (1 + d)
            else elemAt ⟨memOfList [2, 3, 4, 5], 4, 2, 2⟩ (2 - 1 - 1 - d)) ∧
        (∀ j, min 2 (2 - 1) ≤ j → out' j = memOfList [] j))) ∧
    (logical ⟨memOfList [2, 3, 4, 5], 4, 2, 2⟩ = [4, 5] ∧
      (cBuffRead ⟨memOfList [2, 3, 4, 5], 4, 2, 2⟩ (some (memOfList [])) 2 0 1).retVal = 1 ∧
      ((cBuffRead ⟨memOfList [2, 3, 4, 5], 4, 2, 2⟩ (some (memOfList [])) 2 0 1).data.map
        (fun m => memToList m 2)) = some [5, 0]) :=
  ⟨by decide,
    cBuffRead_spec ⟨memOfList [2, 3, 4, 5], 4, 2, 2⟩ (memOfList []) 2 0 1 (by decide)
      (by decide) (by decide),
    by decide⟩

/-- The handle `cBuffPull` leaves, past its early return, when `cBuffRead`
has returned `r` and has not touched the handle. -/
theorem cBuffPull_fields (h : circular_buffer_handle) (data : Option Mem) (dataLen ht : Nat)
    (hn : 0 < h.buffLen) (hd : 0 < dataLen)
    (hr : (cBuffRead h data dataLen ht 0).handle = h) :
    (cBuffPull h data dataLen ht).retVal = (cBuffRead h data dataLen ht 0).retVal ∧
    (cBuffPull h data dataLen ht).data = (cBuffRead h data dataLen ht 0).data ∧
    (cBuffPull h data dataLen ht).handle.buff = h.buff ∧
    (cBuffPull h data dataLen ht).handle.buffLen = h.buffLen ∧
    (cBuffPull h data dataLen ht).handle.elemNum =
      u32sub h.elemNum (cBuffRead h data dataLen ht 0).retVal ∧
    (cBuffPull h data dataLen ht).handle.startIndex =
      if ht = 0 then cBuffGetMemIndex h (cBuffRead h data dataLen ht 0).retVal
      else h.startIndex := by
  have hc : ¬ (h.buffLen = 0 ∨ dataLen = 0) := by omega
  refine ⟨?_, ?_, ?_, ?_, ?_, ?_⟩ <;> simp only [cBuffPull, if_neg hc, hr] <;> split_ifs <;> rfl

/-- C8: on a handle with `0 < buffLen`, `startIndex < buffLen` and
`elemNum ≤ buffLen`, `cBuffPull` with `0 < dataLen` returns
`r = min dataLen elemNum`, sets `elemNum` to `elemNum - r` and leaves the
storage as it was (with `elemNum = 0` it returns 0 and changes nothing).  From
the head it copies the elements at virtual indices `0 .. r - 1` to `out` in
that order, and afterwards the element at virtual index `v` is the old one at
`v + r`; from the tail it copies `out[d] =` old element at `elemNum - 1 - d`,
and the elements at virtual indices below `elemNum - r` stay. -/
theorem cBuffPull_spec (h : circular_buffer_handle) (out : Mem) (dataLen ht : Nat)
    (hn : 0 < h.buffLen) (h32 : h.buffLen < 4294967296) (hs : h.startIndex < h.buffLen)
    (he : h.elemNum ≤ h.buffLen) (hd : 0 < dataLen) :
    (cBuffPull h (some out) dataLen ht).retVal = min dataLen h.elemNum ∧
    (cBuffPull h (some out) dataLen ht).handle.elemNum = h.elemNum - min dataLen h.elemNum ∧
    (cBuffPull h (some out) dataLen ht).handle.buffLen = h.buffLen ∧
    (cBuffPull h (some out) dataLen ht).handle.buff = h.buff ∧
    (h.elemNum = 0 →
      (cBuffPull h (some out) dataLen ht).handle = h ∧
      (cBuffPull h (some out) dataLen ht).data = some out) ∧
    ∃ out', (cBuffPull h (some out) dataLen ht).data = some out' ∧
      (∀ j, min dataLen h.elemNum ≤ j → out' j = out j) ∧
      (ht = 0 →
        (∀ d, d < min dataLen h.elemNum → out' d = elemAt h d) ∧
        (∀ v, v + min dataLen h.elemNum < h.elemNum →
          elemAt (cBuffPull h (some out) dataLen ht).handle v
            = elemAt h (v + min dataLen h.elemNum))) ∧
      (ht ≠ 0 →
        (∀ d, d < min dataLen h.elemNum → out' d = elemAt h (h.elemNum - 1 - d)) ∧
        (cBuffPull h (some out) dataLen ht).handle.startIndex = h.startIndex ∧
        (∀ v, v + min dataLen h.elemNum < h.elemNum →
          elemAt (cBuffPull h (some out) dataLen ht).handle v = elemAt h v)) := by
  obtain ⟨r1, r2, r3, r4, r5, r6⟩ := cBuffRead_spec h out dataLen ht 0 h32 hs he
  obtain ⟨p1, p2, p3, p4, p5, p6⟩ := cBuffPull_fields h (some out) dataLen ht hn hd r1
  by_cases h0 : h.elemNum = 0
  · obtain ⟨z1, z2⟩ := r5 (Or.inl (by omega))
    rw [z1] at p1 p5 p6
    rw [z2] at p2
    have e5 : (cBuffPull h (some out) dataLen ht).handle.elemNum = h.elemNum := by
      rw [p5, u32sub_of_le (by omega) (by omega)]; rfl
    have e6 : (cBuffPull h (some out) dataLen ht).handle.startIndex = h.startIndex := by
      rw [p6, memIndex_of_lt h 0 h32 hs hn]
      split_ifs <;> omega
    have eh : (cBuffPull h (some out) dataLen ht).handle = h :=
      circular_buffer_handle.ext p3 p4 e6 e5
    refine ⟨by rw [p1]; omega, by rw [e5]; omega, p4, p3, fun _ => ⟨eh, p2⟩, out, p2,
      fun _ _ => rfl, fun _ => ⟨fun d hd => by omega, fun v hv => by omega⟩,
      fun _ => ⟨fun d hd => by omega, e6, fun v hv => by omega⟩⟩
  · obtain ⟨z1, out', z2, z3, z4⟩ := r6 (by omega) (by omega)
    rw [Nat.sub_zero] at z1 z3 z4
    rw [z1] at p1 p5 p6
    rw [z2] at p2
    have e5 : (cBuffPull h (some out) dataLen ht).handle.elemNum =
        h.elemNum - min dataLen h.elemNum := by
      rw [p5, u32sub_of_le (by omega) (by omega)]
    refine ⟨p1, e5, p4, p3, fun hz => absurd hz h0, out', p2, z4, ?_, ?_⟩
    · intro hht
      rw [if_pos hht] at p6
      constructor
      · intro d hd
        rw [z3 d hd, if_pos hht, Nat.zero_add]
      · intro v hv
        unfold elemAt
        rw [p3]
        congr 1
        have hlt : min dataLen h.elemNum < h.buffLen := by omega
        have hs' : (cBuffPull h (some out) dataLen ht).handle.startIndex
            < (cBuffPull h (some out) dataLen ht).handle.buffLen := by
          rw [p4, p6]; exact memIndex_lt h _ h32 hs hlt
        rw [memIndex_of_lt _ v (by rw [p4]; exact h32) hs' (by rw [p4]; omega), p4, p6,
          memIndex_of_lt h _ h32 hs hlt, memIndex_of_lt h _ h32 hs (by omega)]
        split_ifs <;> omega
    · intro hht
      rw [if_neg hht] at p6
      refine ⟨?_, p6, ?_⟩
      · intro d hd
        rw [z3 d hd, if_neg hht, Nat.sub_zero]
      · intro v _
        unfold elemAt
        rw [p3, memIndex_congr h _ v p4 p6]

/-- C8 on `[2, 3, 4, 5]`: pulling two bytes from the head returns `[2, 3]`
and leaves `[4, 5]`. -/
theorem cBuffPull_spec_witness :
    (0 < 4 ∧ 4 < 4294967296 ∧ 0 < 4 ∧ 4 ≤ 4 ∧ 0 < 2) ∧
    ((cBuffPull ⟨memOfList [2, 3, 4, 5], 4, 0, 4⟩ (some (memOfList [])) 2 0).retVal = min 2 4 ∧
    (cBuffPull ⟨memOfList [2, 3, 4, 5], 4, 0, 4⟩ (some (memOfList [])) 2 0).handle.elemNum
      = 4 - min 2 4 ∧
    (cBuffPull ⟨memOfList [2, 3, 4, 5], 4, 0, 4⟩ (some (memOfList [])) 2 0).handle.buffLen = 4 ∧
    (cBuffPull ⟨memOfList [2, 3, 4, 5], 4, 0, 4⟩ (some (memOfList [])) 2 0).handle.buff
      = memOfList [2, 3, 4, 5] ∧
    ((4 : Nat) = 0 →
      (cBuffPull ⟨memOfList [2, 3, 4, 5], 4, 0, 4⟩ (some (memOfList [])) 2 0).handle
        = ⟨memOfList [2, 3, 4, 5], 4, 0, 4⟩ ∧
      (cBuffPull ⟨memOfList [2, 3, 4, 5], 4, 0, 4⟩ (some (memOfList [])) 2 0).data
        = some (memOfList [])) ∧
    ∃ out', (cBuffPull ⟨memOfList [2, 3, 4, 5], 4, 0, 4⟩ (some (memOfList [])) 2 0).data
        = some out' ∧
      (∀ j, min 2 4 ≤ j → out' j = memOfList [] j) ∧
      ((0 : Nat) = 0 →
        (∀ d, d < min 2 4 → out' d = elemAt ⟨memOfList [2, 3, 4, 5], 4, 0, 4⟩ d) ∧
        (∀ v, v + min 2 4 < 4 →
          elemAt (cBuffPull ⟨memOfList [2, 3, 4, 5], 4, 0, 4⟩ (some (memOfList [])) 2 0).handle v
            = elemAt ⟨memOfList [2, 3, 4, 5], 4, 0, 4⟩ (v + min 2 4))) ∧
      ((0 : Nat) ≠ 0 →
        (∀ d, d < min 2 4 → out' d = elemAt ⟨memOfList [2, 3, 4, 5], 4, 0, 4⟩ (4 - 1 - d)) ∧
        (cBuffPull ⟨memOfList [2, 3, 4, 5], 4, 0, 4⟩ (some (memOfList [])) 2 0).handle.startIndex
          = 0 ∧
        (∀ v, v + min 2 4 < 4 →
          elemAt (cBuffPull ⟨memOfList [2, 3, 4, 5], 4, 0, 4⟩ (some (memOfList [])) 2 0).handle v
            = elemAt ⟨memOfList [2, 3, 4, 5], 4, 0, 4⟩ v))) ∧
    (((cBuffPull ⟨memOfList [2, 3, 4, 5], 4, 0, 4⟩ (some (memOfList [])) 2 0).data.map
        (fun m => memToList m 2)) = some [2, 3] ∧
      logical (cBuffPull ⟨memOfList [2, 3, 4, 5], 4, 0, 4⟩ (some (memOfList [])) 2 0).handle
        = [4, 5]) :=
  ⟨by decide,
    cBuffPull_spec ⟨memOfList [2, 3, 4, 5], 4, 0, 4⟩ (memOfList []) 2 0 (by decide)
      (by decide) (by decide) (by decide) (by decide),
    by decide⟩

/-- C5: on an empty buffer (`elemNum = 0`, `startIndex < buffLen`), pushing
the `n` bytes of `S` to the tail (`0 < n ≤ buffLen`) and then pulling `n`
bytes from the head returns `n`, fills `out[0 .. n - 1]` with `S` in the same
order, leaves the rest of `out` alone and leaves `elemNum = 0`. -/
theorem push_pull_roundtrip (h : circular_buffer_handle) (S out : Mem) (n ht : Nat)
    (hht : ht ≠ 0) (h32 : h.buffLen < 4294967296) (hs : h.startIndex < h.buffLen)
    (he : h.elemNum = 0) (hn : 0 < n) (hfit : n ≤ h.buffLen) :
    (cBuffPull (cBuffPush h (some S) n ht) (some out) n 0).retVal = n ∧
    (cBuffPull (cBuffPush h (some S) n ht) (some out) n 0).handle.elemNum = 0 ∧
    ∃ out', (cBuffPull (cBuffPush h (some S) n ht) (some out) n 0).data = some out' ∧
      (∀ d, d < n → out' d = S d) ∧ (∀ j, n ≤ j → out' j = out j) := by
  obtain ⟨b1, b2, b3, _, b5⟩ := cBuffPush_tail_fit h S n ht hht h32 hs (by omega)
  rw [he, Nat.zero_add] at b1
  obtain ⟨c1, c2, _, _, _, out', c6, c7, c8, _⟩ :=
    cBuffPull_spec (cBuffPush h (some S) n ht) out n 0 (by omega) (by omega) (by omega)
      (by omega) hn
  rw [b1, Nat.min_self] at c1 c2 c7 c8
  refine ⟨c1, by omega, out', c6, ?_, c7⟩
  intro d hd
  rw [(c8 rfl).1 d hd]
  have := b5 d hd
  rw [he, Nat.zero_add] at this
  exact this

/-- C5 at capacity 4 with start index 2: `[1, 2, 3]` pushed to the tail and
pulled from the head comes back as `[1, 2, 3]`. -/
theorem push_pull_roundtrip_witness :
    ((1 : Nat) ≠ 0 ∧ 4 < 4294967296 ∧ 2 < 4 ∧ (0 : Nat) = 0 ∧ 0 < 3 ∧ 3 ≤ 4) ∧
    ((cBuffPull (cBuffPush ⟨memOfList [], 4, 2, 0⟩ (some (memOfList [1, 2, 3])) 3 1)
        (some (memOfList [])) 3 0).retVal = 3 ∧
    (cBuffPull (cBuffPush ⟨memOfList [], 4, 2, 0⟩ (some (memOfList [1, 2, 3])) 3 1)
        (some (memOfList [])) 3 0).handle.elemNum = 0 ∧
    ∃ out', (cBuffPull (cBuffPush ⟨memOfList [], 4, 2, 0⟩ (some (memOfList [1, 2, 3])) 3 1)
        (some (memOfList [])) 3 0).data = some out' ∧
      (∀ d, d < 3 → out' d = memOfList [1, 2, 3] d) ∧
      (∀ j, 3 ≤ j → out' j = memOfList [] j)) ∧
    ((cBuffPull (cBuffPush ⟨memOfList [], 4, 2, 0⟩ (some (memOfList [1, 2, 3])) 3 1)
        (some (memOfList [])) 3 0).data.map (fun m => memToList m 3)) = some [1, 2, 3] :=
  ⟨by decide,
    push_pull_roundtrip ⟨memOfList [], 4, 2, 0⟩ (memOfList [1, 2, 3]) (memOfList []) 3 1
      (by decide) (by decide) (by decide) (by decide) (by decide) (by decide),
    by decide⟩

/-! ## Rotation of the valid elements -/

/-- State of the copy loop of `cBuffRotate` after `j` passes, when no pass
reads a slot an earlier pass wrote and no two passes write the same slot. -/
theorem rotateCopy_loop (h tmp : circular_buffer_handle) (fixed J : Nat)
    (hni : ∀ v j, v < j → j < J →
      cBuffGetMemIndex h j ≠ cBuffGetMemIndex tmp (u32add fixed v))
    (hinj : ∀ v j, v < j → j < J →
      cBuffGetMemIndex tmp (u32add fixed v) ≠ cBuffGetMemIndex tmp (u32add fixed j)) :
    ∀ j, j ≤ J →
      (forUpTo j (cBuffRotateStep tmp fixed) h).buffLen = h.buffLen ∧
      (forUpTo j (cBuffRotateStep tmp fixed) h).startIndex = h.startIndex ∧
      (forUpTo j (cBuffRotateStep tmp fixed) h).elemNum = h.elemNum ∧
      (∀ v, v < j →
        (forUpTo j (cBuffRotateStep tmp fixed) h).buff (cBuffGetMemIndex tmp (u32add fixed v))
          = h.buff (cBuffGetMemIndex h v)) ∧
      (∀ p, (∀ v, v < j → p ≠ cBuffGetMemIndex tmp (u32add fixed v)) →
        (forUpTo j (cBuffRotateStep tmp fixed) h).buff p = h.buff p) := by
  intro j
  induction j with
  | zero =>
    intro _
    exact ⟨rfl, rfl, rfl, fun v hv => absurd hv (Nat.not_lt_zero v), fun _ _ => rfl⟩
  | succ j ih =>
    intro hj
    obtain ⟨a1, a2, a3, a4, a5⟩ := ih (by omega)
    rw [forUpTo_succ]
    generalize forUpTo j (cBuffRotateStep tmp fixed) h = hj' at *
    have hsrc : hj'.buff (cBuffGetMemIndex hj' j) = h.buff (cBuffGetMemIndex h j) := by
      rw [memIndex_congr h hj' j a1 a2]
      exact a5 _ (fun v hv => hni v j hv (by omega))
    refine ⟨a1, a2, a3, ?_, ?_⟩
    · intro v hv
      show memSet hj'.buff (cBuffGetMemIndex tmp (u32add fixed j))
        (hj'.buff (cBuffGetMemIndex hj' j)) _ = _
      by_cases e : v = j
      · rw [e, memSet_same, hsrc]
      · rw [memSet_other _ _ (hinj v j (by omega) (by omega))]
        exact a4 v (by omega)
    · intro p hp
      show memSet hj'.buff (cBuffGetMemIndex tmp (u32add fixed j))
        (hj'.buff (cBuffGetMemIndex hj' j)) p = _
      rw [memSet_other _ _ (hp j (by omega))]
      exact a5 p (fun v hv => hp v (by omega))

/-- The form of `cBuffRotate` past its early return, with `nsv` the new head
virtual index. -/
theorem cBuffRotate_eq (h : circular_buffer_handle) (dir pos nsv : Nat)
    (hc : ¬ (h.buffLen = 0 ∨ h.elemNum = 0))
    (hnsv : nsv = if dir ≠ 0 then u32sub h.elemNum (pos % h.elemNum) else pos % h.elemNum) :
    cBuffRotate h dir pos =
      { forUpTo (cBuffGetVirtIndex h (cBuffGetMemIndex h nsv))
          (cBuffRotateStep ⟨h.buff, h.buffLen, cBuffGetMemIndex h nsv, h.elemNum⟩
            (u32sub h.elemNum nsv)) h with
        startIndex := cBuffGetMemIndex h nsv } := by
  subst hnsv
  unfold cBuffRotate
  rw [if_neg hc]

/-- A rotation whose new head virtual index `nsv` lies inside the storage
moves the old element at `nsv + w` (wrapped at `elemNum`) to virtual index
`w`. -/
theorem cBuffRotate_inner (h : circular_buffer_handle) (dir pos nsv : Nat)
    (hn : 0 < h.buffLen) (h32 : h.buffLen < 4294967296) (hs : h.startIndex < h.buffLen)
    (he0 : 0 < h.elemNum) (he : h.elemNum ≤ h.buffLen)
    (hnsv : nsv = if dir ≠ 0 then u32sub h.elemNum (pos % h.elemNum) else pos % h.elemNum)
    (hle : nsv ≤ h.elemNum) (hlt : nsv < h.buffLen) :
    (cBuffRotate h dir pos).elemNum = h.elemNum ∧
    (cBuffRotate h dir pos).buffLen = h.buffLen ∧
    ∀ w, w < h.elemNum →
      elemAt (cBuffRotate h dir pos) w =
        elemAt h (if w + nsv < h.elemNum then w + nsv else w + nsv - h.elemNum) := by
  rw [cBuffRotate_eq h dir pos nsv (by omega) hnsv]
  have hT := memIndex_of_lt h nsv h32 hs hlt
  have hTlt := memIndex_lt h nsv h32 hs hlt
  have hB : cBuffGetVirtIndex h (cBuffGetMemIndex h nsv) = nsv :=
    ((index_mappers_inverse h hn h32 hs).2 nsv hlt).2
  have hfix : u32sub h.elemNum nsv = h.elemNum - nsv := u32sub_of_le hle (by omega)
  rw [hB, hfix]
  generalize hTdef : cBuffGetMemIndex h nsv = T at *
  have hdest : ∀ v, v < nsv →
      cBuffGetMemIndex ⟨h.buff, h.buffLen, T, h.elemNum⟩ (u32add (h.elemNum - nsv) v) =
        if h.elemNum - nsv + v < h.buffLen - T then T + (h.elemNum - nsv + v)
        else h.elemNum - nsv + v - (h.buffLen - T) := by
    intro v hv
    rw [u32add_of_lt (by omega)]
    exact memIndex_of_lt ⟨h.buff, h.buffLen, T, h.elemNum⟩ _ h32 hTlt
      (show h.elemNum - nsv + v < h.buffLen by omega)
  have hsrc : ∀ v, v < h.buffLen → cBuffGetMemIndex h v =
      if v < h.buffLen - h.startIndex then h.startIndex + v
      else v - (h.buffLen - h.startIndex) := fun v hv => memIndex_of_lt h v h32 hs hv
  obtain ⟨a1, a2, a3, a4, a5⟩ :=
    rotateCopy_loop h ⟨h.buff, h.buffLen, T, h.elemNum⟩ (h.elemNum - nsv) nsv
      (by
        intro v j hvj hj
        rw [hdest v (by omega), hsrc j (by omega)]
        split_ifs at hT ⊢ <;> omega)
      (by
        intro v j hvj hj
        rw [hdest v (by omega), hdest j hj]
        split_ifs <;> omega)
      nsv (le_refl _)
  refine ⟨a3, a1, ?_⟩
  intro w hw
  unfold elemAt
  show (forUpTo nsv _ h).buff (cBuffGetMemIndex _ w) = _
  have hm : cBuffGetMemIndex
      { forUpTo nsv (cBuffRotateStep ⟨h.buff, h.buffLen, T, h.elemNum⟩ (h.elemNum - nsv)) h with
        startIndex := T } w =
      if w < h.buffLen - T then T + w else w - (h.buffLen - T) := by
    have := memIndex_of_lt
      { forUpTo nsv (cBuffRotateStep ⟨h.buff, h.buffLen, T, h.elemNum⟩ (h.elemNum - nsv)) h with
        startIndex := T } w (by rw [a1]; exact h32) (by rw [a1]; exact hTlt) (by rw [a1]; omega)
    rw [a1] at this
    exact this
  rw [hm]
  by_cases hcase : w + nsv < h.elemNum
  · rw [if_pos hcase, a5, hsrc _ (by omega)]
    · congr 1
      split_ifs at hT ⊢ <;> omega
    · intro v hv
      rw [hdest v hv]
      split_ifs at hT ⊢ <;> omega
  · rw [if_neg hcase]
    have hv : w + nsv - h.elemNum < nsv := by omega
    rw [← a4 _ hv]
    congr 1
    rw [hdest _ hv]
    split_ifs at hT ⊢ <;> omega

/-- With a start index equal to the capacity the memory index of an in-range
virtual index is that index. -/
theorem memIndex_start_eq_len (h : circular_buffer_handle) (v : Nat)
    (hn : 0 < h.buffLen) (h32 : h.buffLen < 4294967296) (hs : h.startIndex = h.buffLen)
    (hv : v < h.buffLen) : cBuffGetMemIndex h v = v := by
  have hc : ¬ (h.buffLen = 0 ∨ h.startIndex = 0) := by omega
  unfold cBuffGetMemIndex
  rw [if_neg hc]
  simp only [Nat.mod_eq_of_lt hv, hs]
  have e0 : u32sub h.buffLen h.buffLen = 0 := by rw [u32sub_of_le (le_refl _) h32]; omega
  rw [e0, if_neg (Nat.not_lt_zero v), u32sub_of_le (Nat.zero_le v) (by omega), Nat.sub_zero]

/-- A right rotation of a full buffer by a multiple of `elemNum` (new head
virtual index equal to the capacity) leaves every element where it was. -/
theorem cBuffRotate_outer (h : circular_buffer_handle) (dir pos : Nat)
    (hn : 0 < h.buffLen) (h32 : h.buffLen < 4294967296) (hs : h.startIndex < h.buffLen)
    (hfull : h.elemNum = h.buffLen)
    (hnsv : h.buffLen = if dir ≠ 0 then u32sub h.elemNum (pos % h.elemNum)
      else pos % h.elemNum) :
    (cBuffRotate h dir pos).elemNum = h.elemNum ∧
    (cBuffRotate h dir pos).buffLen = h.buffLen ∧
    ∀ w, w < h.elemNum → elemAt (cBuffRotate h dir pos) w = elemAt h w := by
  rw [cBuffRotate_eq h dir pos h.buffLen (by omega) hnsv]
  by_cases h0 : h.startIndex = 0
  · -- the identity shortcut leaves the capacity itself as new start index
    have hT : cBuffGetMemIndex h h.buffLen = h.buffLen := by
      unfold cBuffGetMemIndex
      rw [if_pos (Or.inr h0)]
    have hB : cBuffGetVirtIndex h h.buffLen = h.buffLen := by
      unfold cBuffGetVirtIndex
      rw [if_pos (Or.inr h0)]
    have hsrc : ∀ v, cBuffGetMemIndex h v = v := by
      intro v
      unfold cBuffGetMemIndex
      rw [if_pos (Or.inr h0)]
    have hfix : u32sub h.elemNum h.buffLen = 0 := by
      rw [hfull, u32sub_of_le (le_refl _) h32]; omega
    rw [hT, hB, hfix]
    have hdest : ∀ v, v < h.buffLen →
        cBuffGetMemIndex ⟨h.buff, h.buffLen, h.buffLen, h.elemNum⟩ (u32add 0 v) = v := by
      intro v hv
      rw [u32add_of_lt (by omega), Nat.zero_add]
      exact memIndex_start_eq_len ⟨h.buff, h.buffLen, h.buffLen, h.elemNum⟩ v hn h32 rfl hv
    obtain ⟨a1, _, a3, a4, _⟩ :=
      rotateCopy_loop h ⟨h.buff, h.buffLen, h.buffLen, h.elemNum⟩ 0 h.buffLen
        (by
          intro v j hvj hj
          rw [hdest v (by omega), hsrc j]
          omega)
        (by
          intro v j hvj hj
          rw [hdest v (by omega), hdest j hj]
          omega)
        h.buffLen (le_refl _)
    refine ⟨a3, a1, ?_⟩
    intro w hw
    unfold elemAt
    show (forUpTo h.buffLen _ h).buff (cBuffGetMemIndex _ w) = _
    rw [memIndex_start_eq_len _ w (by rw [a1]; exact hn) (by rw [a1]; exact h32)
      (by rw [a1]) (by rw [a1]; omega)]
    have := a4 w (by omega)
    rw [hdest w (by omega)] at this
    exact this
  · -- the new start index is the old one and the loop body never runs
    have hT : cBuffGetMemIndex h h.buffLen = h.startIndex := by
      unfold cBuffGetMemIndex
      have hc : ¬ (h.buffLen = 0 ∨ h.startIndex = 0) := by omega
      simp only [hc, if_false, Nat.mod_self]
      rw [u32sub_of_le (le_of_lt hs) h32, if_pos (by omega)]
      exact u32add_of_lt (by omega)
    have hB : cBuffGetVirtIndex h h.startIndex = 0 := by
      rw [virtIndex_of_lt h _ h32 hs hs, if_pos (le_refl _)]
      omega
    rw [hT, hB]
    exact ⟨rfl, rfl, fun _ _ => rfl⟩

/-- C4: on a handle with `0 < buffLen`, `startIndex < buffLen` and
`0 < elemNum ≤ buffLen`, `cBuffRotate` keeps `elemNum` and `buffLen` and
rotates the valid elements: to the left (`dir = 0`) the element at virtual
index `w` becomes the old one at `(w + pos) mod elemNum`, to the right
(`dir ≠ 0`) the old one at `(w + elemNum - pos mod elemNum) mod elemNum`, for
every `w < elemNum`. -/
theorem cBuffRotate_spec (h : circular_buffer_handle) (dir pos : Nat)
    (hn : 0 < h.buffLen) (h32 : h.buffLen < 4294967296) (hs : h.startIndex < h.buffLen)
    (he0 : 0 < h.elemNum) (he : h.elemNum ≤ h.buffLen) :
    (cBuffRotate h dir pos).elemNum = h.elemNum ∧
    (cBuffRotate h dir pos).buffLen = h.buffLen ∧
    (dir = 0 → ∀ w, w < h.elemNum →
      elemAt (cBuffRotate h dir pos) w = elemAt h ((w + pos) % h.elemNum)) ∧
    (dir ≠ 0 → ∀ w, w < h.elemNum →
      elemAt (cBuffRotate h dir pos) w =
        elemAt h ((w + h.elemNum - pos % h.elemNum) % h.elemNum)) := by
  have hr : pos % h.elemNum < h.elemNum := Nat.mod_lt _ he0
  by_cases hdir : dir = 0
  · have hnsv : pos % h.elemNum =
        if dir ≠ 0 then u32sub h.elemNum (pos % h.elemNum) else pos % h.elemNum := by
      rw [if_neg (by simpa using hdir)]
    obtain ⟨b1, b2, b3⟩ :=
      cBuffRotate_inner h dir pos _ hn h32 hs he0 he hnsv (le_of_lt hr) (by omega)
    refine ⟨b1, b2, fun _ w hw => ?_, fun hd => absurd hdir hd⟩
    have e1 : (w + pos) % h.elemNum =
        if w + pos % h.elemNum < h.elemNum then w + pos % h.elemNum
        else w + pos % h.elemNum - h.elemNum := by
      rw [Nat.add_mod, Nat.mod_eq_of_lt hw]
      exact mod_wrap (by omega)
    rw [b3 w hw, e1]
  · have hsub : u32sub h.elemNum (pos % h.elemNum) = h.elemNum - pos % h.elemNum :=
      u32sub_of_le (le_of_lt hr) (by omega)
    have hnsv : h.elemNum - pos % h.elemNum =
        if dir ≠ 0 then u32sub h.elemNum (pos % h.elemNum) else pos % h.elemNum := by
      rw [if_pos hdir, hsub]
    by_cases hin : h.elemNum - pos % h.elemNum < h.buffLen
    · obtain ⟨b1, b2, b3⟩ :=
        cBuffRotate_inner h dir pos _ hn h32 hs he0 he hnsv (Nat.sub_le _ _) hin
      refine ⟨b1, b2, fun hd => absurd hd hdir, fun _ w hw => ?_⟩
      have e1 : (w + h.elemNum - pos % h.elemNum) % h.elemNum =
          if w + (h.elemNum - pos % h.elemNum) < h.elemNum then
            w + (h.elemNum - pos % h.elemNum)
          else w + (h.elemNum - pos % h.elemNum) - h.elemNum := by
        have e2 : w + h.elemNum - pos % h.elemNum = w + (h.elemNum - pos % h.elemNum) := by
          omega
        rw [e2]
        exact mod_wrap (by omega)
      rw [b3 w hw, e1]
    · have hfull : h.elemNum = h.buffLen := by omega
      have hr0 : pos % h.elemNum = 0 := by omega
      have hnsv' : h.buffLen =
          if dir ≠ 0 then u32sub h.elemNum (pos % h.elemNum) else pos % h.elemNum := by
        rw [← hnsv]; omega
      obtain ⟨b1, b2, b3⟩ := cBuffRotate_outer h dir pos hn h32 hs hfull hnsv'
      refine ⟨b1, b2, fun hd => absurd hd hdir, fun _ w hw => ?_⟩
      rw [b3 w hw, hr0, Nat.sub_zero, Nat.add_mod_right, Nat.mod_eq_of_lt hw]

/-- C4 on `[5, 6, 7]` in a capacity of 5: rotated left by 1 it reads
`[6, 7, 5]`. -/
theorem cBuffRotate_spec_witness :
    (0 < 5 ∧ 5 < 4294967296 ∧ 3 < 5 ∧ 0 < 3 ∧ 3 ≤ 5) ∧
    ((cBuffRotate ⟨memOfList [7, 0, 0, 5, 6], 5, 3, 3⟩ 0 1).elemNum = 3 ∧
    (cBuffRotate ⟨memOfList [7, 0, 0, 5, 6], 5, 3, 3⟩ 0 1).buffLen = 5 ∧
    ((0 : Nat) = 0 → ∀ w, w < 3 →
      elemAt (cBuffRotate ⟨memOfList [7, 0, 0, 5, 6], 5, 3, 3⟩ 0 1) w =
        elemAt ⟨memOfList [7, 0, 0, 5, 6], 5, 3, 3⟩ ((w + 1) % 3)) ∧
    ((0 : Nat) ≠ 0 → ∀ w, w < 3 →
      elemAt (cBuffRotate ⟨memOfList [7, 0, 0, 5, 6], 5, 3, 3⟩ 0 1) w =
        elemAt ⟨memOfList [7, 0, 0, 5, 6], 5, 3, 3⟩ ((w + 3 - 1 % 3) % 3))) ∧
    (logical ⟨memOfList [7, 0, 0, 5, 6], 5, 3, 3⟩ = [5, 6, 7] ∧
      logical (cBuffRotate ⟨memOfList [7, 0, 0, 5, 6], 5, 3, 3⟩ 0 1) = [6, 7, 5]) :=
  ⟨by decide,
    cBuffRotate_spec ⟨memOfList [7, 0, 0, 5, 6], 5, 3, 3⟩ 0 1 (by decide) (by decide)
      (by decide) (by decide) (by decide),
    by decide⟩

/-! ## The identity shortcut of `cBuffGetMemIndex` at start index 0 -/

/-- C2, the code at start index 0: a full buffer `[1, 2, 3, 4]` of capacity 4
takes the pushed byte `5` at slot 4, behind the storage, and then reads
`[2, 3, 4, 1]`; the same happens at the end of the scenario "push `[1, 2, 3]`,
then `[4, 5]`" on the empty ring.  With start index 2 the same push gives
`[2, 3, 4, 5]`. -/
theorem cBuffPush_tail_full_at_start_zero :
    (cBuffPush ⟨memOfList [1, 2, 3, 4], 4, 0, 4⟩ (some (memOfList [5])) 1 1).buff 4 = 5 ∧
    memToList (cBuffPush ⟨memOfList [1, 2, 3, 4], 4, 0, 4⟩ (some (memOfList [5])) 1 1).buff 4
      = [1, 2, 3, 4] ∧
    (cBuffPush ⟨memOfList [1, 2, 3, 4], 4, 0, 4⟩ (some (memOfList [5])) 1 1).startIndex = 1 ∧
    (cBuffPush ⟨memOfList [1, 2, 3, 4], 4, 0, 4⟩ (some (memOfList [5])) 1 1).elemNum = 4 ∧
    logical (cBuffPush ⟨memOfList [1, 2, 3, 4], 4, 0, 4⟩ (some (memOfList [5])) 1 1)
      = [2, 3, 4, 1] ∧
    logical (cBuffPush (cBuffPush ⟨memOfList [], 4, 0, 0⟩ (some (memOfList [1, 2, 3])) 3 1)
      (some (memOfList [4, 5])) 2 1) = [2, 3, 4, 1] ∧
    logical (cBuffPush (cBuffPush ⟨memOfList [], 4, 2, 0⟩ (some (memOfList [1, 2, 3])) 3 1)
      (some (memOfList [4, 5])) 2 1) = [2, 3, 4, 5] := by
  decide

/-- C6, the code at start index 0: pulling all four elements from the head of
a full buffer of capacity 4, pushing one byte to the tail of a full buffer of
capacity 1, and rotating a full buffer of capacity 4 to the right by 4 each
leave `startIndex = buffLen`. -/
theorem startIndex_leaves_range_at_start_zero :
    ((cBuffPull ⟨memOfList [1, 2, 3, 4], 4, 0, 4⟩ (some (memOfList [])) 4 0).handle.startIndex = 4 ∧
      (cBuffPull ⟨memOfList [1, 2, 3, 4], 4, 0, 4⟩ (some (memOfList [])) 4 0).handle.buffLen = 4) ∧
    ((cBuffPush ⟨memOfList [9], 1, 0, 1⟩ (some (memOfList [5])) 1 1).startIndex = 1 ∧
      (cBuffPush ⟨memOfList [9], 1, 0, 1⟩ (some (memOfList [5])) 1 1).buffLen = 1) ∧
    ((cBuffRotate ⟨memOfList [1, 2, 3, 4], 4, 0, 4⟩ 1 4).startIndex = 4 ∧
      (cBuffRotate ⟨memOfList [1, 2, 3, 4], 4, 0, 4⟩ 1 4).buffLen = 4) := by
  decide

/-- With a start index other than 0 the push of one byte to the tail of a
full buffer evicts the head: the element at virtual index `v` becomes the old
one at `v + 1` and the last element is the pushed byte. -/
theorem cBuffPush_tail_full_of_start_pos (h : circular_buffer_handle) (data : Mem) (ht : Nat)
    (hht : ht ≠ 0) (h32 : h.buffLen < 4294967296) (hs : h.startIndex < h.buffLen)
    (hs0 : h.startIndex ≠ 0) (hfull : h.elemNum = h.buffLen) :
    (cBuffPush h (some data) 1 ht).elemNum = h.buffLen ∧
    (cBuffPush h (some data) 1 ht).buffLen = h.buffLen ∧
    (cBuffPush h (some data) 1 ht).startIndex < h.buffLen ∧
    (∀ v, v + 1 < h.buffLen → elemAt (cBuffPush h (some data) 1 ht) v = elemAt h (v + 1)) ∧
    elemAt (cBuffPush h (some data) 1 ht) (h.buffLen - 1) = data 0 := by
  have hc : ¬ (h.buffLen = 0 ∨ 1 = 0) := by omega
  have hnl : ¬ (h.elemNum < h.buffLen) := by omega
  have hc2 : ¬ (h.buffLen = 0 ∨ h.startIndex = 0) := by omega
  -- the slot written and the new start index
  have hpm : cBuffGetMemIndex h h.elemNum = h.startIndex := by
    unfold cBuffGetMemIndex
    rw [if_neg hc2, hfull]
    simp only [Nat.mod_self]
    rw [u32sub_of_le (le_of_lt hs) h32, if_pos (by omega)]
    exact u32add_of_lt (by omega)
  have hone := memIndex_of_lt h 1 h32 hs (by omega)
  have e : cBuffPush h (some data) 1 ht =
      { h with buff := memSet h.buff h.startIndex (data 0),
               startIndex := cBuffGetMemIndex h 1 } := by
    simp only [cBuffPush, if_neg hc, if_neg hht, forUpTo, cBuffPushStep, if_neg hnl, hpm]
    rfl
  rw [e]
  have hlt1 := memIndex_lt h 1 h32 hs (by omega)
  refine ⟨hfull, rfl, hlt1, ?_, ?_⟩
  · intro v hv
    unfold elemAt
    show memSet h.buff h.startIndex (data 0) (cBuffGetMemIndex _ v) = _
    have hm := memIndex_of_lt
      { h with buff := memSet h.buff h.startIndex (data 0),
               startIndex := cBuffGetMemIndex h 1 } v h32 hlt1 (show v < h.buffLen by omega)
    simp only at hm
    have hm2 := memIndex_of_lt h (v + 1) h32 hs hv
    have e2 : cBuffGetMemIndex
        { h with buff := memSet h.buff h.startIndex (data 0),
                 startIndex := cBuffGetMemIndex h 1 } v = cBuffGetMemIndex h (v + 1) := by
      rw [hm, hm2, hone]
      split_ifs <;> omega
    rw [e2, memSet_other]
    rw [hm2]
    split_ifs <;> omega
  · unfold elemAt
    show memSet h.buff h.startIndex (data 0) (cBuffGetMemIndex _ (h.buffLen - 1)) = _
    have hm := memIndex_of_lt
      { h with buff := memSet h.buff h.startIndex (data 0),
               startIndex := cBuffGetMemIndex h 1 } (h.buffLen - 1) h32 hlt1
      (show h.buffLen - 1 < h.buffLen by omega)
    simp only at hm
    have e2 : cBuffGetMemIndex
        { h with buff := memSet h.buff h.startIndex (data 0),
                 startIndex := cBuffGetMemIndex h 1 } (h.buffLen - 1) = h.startIndex := by
      rw [hm, hone]
      split_ifs <;> omega
    rw [e2, memSet_same]

/-! ## Range and exactness of the index mappers -/

/-- C12, the code at start index 0: both mappers hand back an index at or
beyond the capacity as it is (capacity 4: index 4 gives 4, index `2^32 - 1`
gives `2^32 - 1`), while at start index 2 the same index 4 is reduced to a
slot of the storage. -/
theorem index_mappers_unreduced_at_start_zero :
    (cBuffGetMemIndex ⟨memOfList [], 4, 0, 0⟩ 4 = 4 ∧
      cBuffGetVirtIndex ⟨memOfList [], 4, 0, 0⟩ 4 = 4 ∧
      cBuffGetMemIndex ⟨memOfList [], 4, 0, 0⟩ 4294967295 = 4294967295 ∧
      cBuffGetVirtIndex ⟨memOfList [], 4, 0, 0⟩ 4294967295 = 4294967295) ∧
    (cBuffGetMemIndex ⟨memOfList [], 4, 2, 0⟩ 4 = 2 ∧
      cBuffGetVirtIndex ⟨memOfList [], 4, 2, 0⟩ 4 = 2) := by
  decide

/-- With a start index other than 0 both mappers reduce every index to a slot
of the storage. -/
theorem index_mappers_reduce_of_start_pos (h : circular_buffer_handle) (i : Nat)
    (h32 : h.buffLen < 4294967296) (hs : h.startIndex < h.buffLen) (hs0 : h.startIndex ≠ 0) :
    cBuffGetMemIndex h i < h.buffLen ∧ cBuffGetVirtIndex h i < h.buffLen := by
  have hc : ¬ (h.buffLen = 0 ∨ h.startIndex = 0) := by omega
  have hi : i % h.buffLen < h.buffLen := Nat.mod_lt _ (by omega)
  have e1 : cBuffGetMemIndex h i = cBuffGetMemIndex h (i % h.buffLen) := by
    unfold cBuffGetMemIndex
    rw [if_neg hc, if_neg hc, Nat.mod_mod]
  have e2 : cBuffGetVirtIndex h i = cBuffGetVirtIndex h (i % h.buffLen) := by
    unfold cBuffGetVirtIndex
    rw [if_neg hc, if_neg hc, Nat.mod_mod]
  rw [e1, e2]
  exact ⟨memIndex_lt h _ h32 hs hi, virtIndex_lt h _ h32 hs hi⟩

/-- C13: for `0 < buffLen`, `startIndex < buffLen` and an index
`i < buffLen`, the branches of the mappers in 32-bit arithmetic give the exact
integer values `(i - startIndex + buffLen) mod buffLen` and
`(i + startIndex) mod buffLen`, the sums being taken without wrap-around. -/
theorem index_mappers_exact (h : circular_buffer_handle) (i : Nat)
    (_hn : 0 < h.buffLen) (h32 : h.buffLen < 4294967296) (hs : h.startIndex < h.buffLen)
    (hi : i < h.buffLen) :
    ((cBuffGetVirtIndex h i : Nat) : Int) =
      ((i : Int) - (h.startIndex : Int) + (h.buffLen : Int)) % (h.buffLen : Int) ∧
    cBuffGetVirtIndex h i = (i + h.buffLen - h.startIndex) % h.buffLen ∧
    cBuffGetMemIndex h i = (i + h.startIndex) % h.buffLen := by
  have e2 : cBuffGetVirtIndex h i = (i + h.buffLen - h.startIndex) % h.buffLen := by
    rw [virtIndex_of_lt h i h32 hs hi, mod_wrap (by omega)]
    split_ifs <;> omega
  refine ⟨?_, e2, memIndex_eq_mod h i h32 hs hi⟩
  have e3 : (i : Int) - (h.startIndex : Int) + (h.buffLen : Int) =
      ((i + h.buffLen - h.startIndex : Nat) : Int) := by omega
  rw [e2, e3]
  norm_cast

/-- C13 at capacity `2^32 - 1` with start index and index `2^32 - 2`, whose
sum is beyond the 32-bit range. -/
theorem index_mappers_exact_witness :
    (0 < 4294967295 ∧ 4294967295 < 4294967296 ∧ 4294967294 < 4294967295 ∧
      4294967294 < 4294967295) ∧
    (((cBuffGetVirtIndex ⟨memOfList [], 4294967295, 4294967294, 0⟩ 4294967294 : Nat) : Int) =
      (((4294967294 : Nat) : Int) - ((4294967294 : Nat) : Int) + ((4294967295 : Nat) : Int))
        % ((4294967295 : Nat) : Int) ∧
    cBuffGetVirtIndex ⟨memOfList [], 4294967295, 4294967294, 0⟩ 4294967294 =
      (4294967294 + 4294967295 - 4294967294) % 4294967295 ∧
    cBuffGetMemIndex ⟨memOfList [], 4294967295, 4294967294, 0⟩ 4294967294 =
      (4294967294 + 4294967294) % 4294967295) ∧
    cBuffGetMemIndex ⟨memOfList [], 4294967295, 4294967294, 0⟩ 4294967294 = 4294967293 :=
  ⟨by decide,
    index_mappers_exact ⟨memOfList [], 4294967295, 4294967294, 0⟩ 4294967294 (by decide)
      (by decide) (by decide) (by decide),
    by decide⟩

/-! ## Conversions and defensive returns -/

/-- C17: for every plain handle, `pBuffToCirc` gives a ring over the same
storage, capacity and element count with `startIndex = 0` (the plain handle
is only read), and `cBuffToPlain` on that ring moves no byte: it leaves the
ring as it is and gives back a plain handle equal to the original. -/
theorem plain_circ_plain_roundtrip (scratch : Nat) (p : plain_buffer_handle) :
    (pBuffToCirc p).startIndex = 0 ∧
    (pBuffToCirc p).buff = p.buff ∧
    (pBuffToCirc p).buffLen = p.buffLen ∧
    (pBuffToCirc p).elemNum = p.elemNum ∧
    (cBuffToPlain scratch (pBuffToCirc p)).2 = pBuffToCirc p ∧
    (cBuffToPlain scratch (pBuffToCirc p)).1 = p := by
  have e : cBuffRotateMemory scratch (pBuffToCirc p) 0 = pBuffToCirc p := by
    have hc : (pBuffToCirc p).buffLen = 0 ∨ 0 = (pBuffToCirc p).startIndex := Or.inr rfl
    unfold cBuffRotateMemory
    rw [if_pos hc]
  refine ⟨rfl, rfl, rfl, rfl, ?_, ?_⟩
  · show cBuffRotateMemory scratch (pBuffToCirc p) 0 = _
    exact e
  · unfold cBuffToPlain
    simp only [e]
    rfl

/-- C18: on a handle with `elemNum ≤ buffLen`, a zero count or a zero
capacity makes `cBuffPush`, `cBuffPushToFill`, `cBuffPull`, `cBuffRead` and
`cBuffWrite` return the handle and the caller's buffer as they were, with
count 0; so does an absent data pointer for `cBuffPush` and
`cBuffPushToFill`; and with a zero capacity `cBuffRotate` and
`cBuffRotateMemory` return the handle as it was. -/
theorem defensive_noop (h : circular_buffer_handle) (data : Option Mem)
    (dataLen ht off dir pos scratch t : Nat) (he : h.elemNum ≤ h.buffLen) :
    (dataLen = 0 ∨ h.buffLen = 0 →
      cBuffPush h data dataLen ht = h ∧
      cBuffPushToFill h data dataLen ht = (h, 0) ∧
      cBuffPull h data dataLen ht = ⟨h, data, 0⟩ ∧
      cBuffRead h data dataLen ht off = ⟨h, data, 0⟩ ∧
      cBuffWrite h data dataLen ht off = ⟨h, data, 0⟩) ∧
    (cBuffPush h none dataLen ht = h ∧ cBuffPushToFill h none dataLen ht = (h, 0)) ∧
    (h.buffLen = 0 → cBuffRotate h dir pos = h ∧ cBuffRotateMemory scratch h t = h) := by
  refine ⟨?_, ⟨?_, ?_⟩, ?_⟩
  · intro hz
    have c1 : h.buffLen = 0 ∨ dataLen = 0 := by omega
    have c2 : h.buffLen = 0 ∨ dataLen = 0 ∨ data.isNone = true := by
      rcases c1 with c | c
      · exact Or.inl c
      · exact Or.inr (Or.inl c)
    have c3 : h.elemNum = 0 ∨ dataLen = 0 ∨ off ≥ h.elemNum := by omega
    refine ⟨?_, ?_, ?_, ?_, ?_⟩
    · simp only [cBuffPush, if_pos c1]
    · simp only [cBuffPushToFill, if_pos c2]
    · simp only [cBuffPull, if_pos c1]
    · simp only [cBuffRead, if_pos c3]
    · simp only [cBuffWrite, if_pos c3]
  · unfold cBuffPush
    split_ifs <;> rfl
  · have c2 : h.buffLen = 0 ∨ dataLen = 0 ∨ (none : Option Mem).isNone = true :=
      Or.inr (Or.inr rfl)
    simp only [cBuffPushToFill, if_pos c2]
  · intro hz
    constructor
    · simp only [cBuffRotate, if_pos (Or.inl hz : h.buffLen = 0 ∨ h.elemNum = 0)]
    · simp only [cBuffRotateMemory,
        if_pos (Or.inl hz : h.buffLen = 0 ∨ t = h.startIndex)]

/-- C18 on a zero-capacity handle with a data buffer present and count 3. -/
theorem defensive_noop_witness :
    (0 ≤ 0) ∧
    ((3 = 0 ∨ (0 : Nat) = 0 →
      cBuffPush ⟨memOfList [], 0, 0, 0⟩ (some (memOfList [1, 2, 3])) 3 1
        = ⟨memOfList [], 0, 0, 0⟩ ∧
      cBuffPushToFill ⟨memOfList [], 0, 0, 0⟩ (some (memOfList [1, 2, 3])) 3 1
        = (⟨memOfList [], 0, 0, 0⟩, 0) ∧
      cBuffPull ⟨memOfList [], 0, 0, 0⟩ (some (memOfList [1, 2, 3])) 3 1
        = ⟨⟨memOfList [], 0, 0, 0⟩, some (memOfList [1, 2, 3]), 0⟩ ∧
      cBuffRead ⟨memOfList [], 0, 0, 0⟩ (some (memOfList [1, 2, 3])) 3 1 0
        = ⟨⟨memOfList [], 0, 0, 0⟩, some (memOfList [1, 2, 3]), 0⟩ ∧
      cBuffWrite ⟨memOfList [], 0, 0, 0⟩ (some (memOfList [1, 2, 3])) 3 1 0
        = ⟨⟨memOfList [], 0, 0, 0⟩, some (memOfList [1, 2, 3]), 0⟩) ∧
    (cBuffPush ⟨memOfList [], 0, 0, 0⟩ none 3 1 = ⟨memOfList [], 0, 0, 0⟩ ∧
      cBuffPushToFill ⟨memOfList [], 0, 0, 0⟩ none 3 1 = (⟨memOfList [], 0, 0, 0⟩, 0)) ∧
    ((0 : Nat) = 0 →
      cBuffRotate ⟨memOfList [], 0, 0, 0⟩ 1 2 = ⟨memOfList [], 0, 0, 0⟩ ∧
      cBuffRotateMemory 9 ⟨memOfList [], 0, 0, 0⟩ 5 = ⟨memOfList [], 0, 0, 0⟩)) :=
  ⟨by decide,
    defensive_noop ⟨memOfList [], 0, 0, 0⟩ (some (memOfList [1, 2, 3])) 3 1 0 1 2 9 5
      (by decide)⟩

/-! ## Writes -/

/-- State of the copy loop of `cBuffWrite` after `r` passes that address
pairwise different slots: the slots addressed hold the caller's bytes and
nothing else moves. -/
theorem writeLoop_spec (h : circular_buffer_handle) (src : Mem) (ht off R : Nat)
    (hinj : ∀ v j, v < j → j < R → accessSlot h ht off v ≠ accessSlot h ht off j) :
    ∀ r, r ≤ R →
      (forUpTo r (cBuffWriteStep src ht off) h).buffLen = h.buffLen ∧
      (forUpTo r (cBuffWriteStep src ht off) h).startIndex = h.startIndex ∧
      (forUpTo r (cBuffWriteStep src ht off) h).elemNum = h.elemNum ∧
      (∀ d, d < r →
        (forUpTo r (cBuffWriteStep src ht off) h).buff (accessSlot h ht off d) = src d) ∧
      (∀ p, (∀ d, d < r → p ≠ accessSlot h ht off d) →
        (forUpTo r (cBuffWriteStep src ht off) h).buff p = h.buff p) := by
  intro r
  induction r with
  | zero =>
    intro _
    exact ⟨rfl, rfl, rfl, fun d hd => absurd hd (Nat.not_lt_zero d), fun _ _ => rfl⟩
  | succ r ih =>
    intro hr
    obtain ⟨a1, a2, a3, a4, a5⟩ := ih (by omega)
    rw [forUpTo_succ]
    generalize forUpTo r (cBuffWriteStep src ht off) h = hr' at *
    have hstep : cBuffWriteStep src ht off r hr' =
        { hr' with buff := memSet hr'.buff (accessSlot h ht off r) (src r) } := by
      unfold cBuffWriteStep accessSlot
      split_ifs
      · rw [memIndex_congr h hr' _ a1 a2]
      · rw [memIndex_congr h hr' _ a1 a2, a3]
    rw [hstep]
    refine ⟨a1, a2, a3, ?_, ?_⟩
    · intro d hd
      show memSet hr'.buff (accessSlot h ht off r) (src r) _ = _
      by_cases e : d = r
      · rw [e, memSet_same]
      · rw [memSet_other _ _ (hinj d r (by omega) (by omega))]
        exact a4 d (by omega)
    · intro p hp
      show memSet hr'.buff (accessSlot h ht off r) (src r) p = _
      rw [memSet_other _ _ (hp r (by omega))]
      exact a5 p (fun d hd => hp d (by omega))

/-- Within the valid elements the slot of pass `d` is the memory index of the
virtual index `off + d` (from the head) or `elemNum - 1 - off - d` (from the
tail). -/
theorem accessSlot_eq (h : circular_buffer_handle) (ht off d : Nat)
    (h32 : h.buffLen < 4294967296) (he : h.elemNum ≤ h.buffLen) (hd : off + d < h.elemNum) :
    accessSlot h ht off d =
      cBuffGetMemIndex h (if ht = 0 then off + d else h.elemNum - 1 - off - d) := by
  unfold accessSlot
  split_ifs
  · rw [u32add_of_lt (by omega), Nat.add_comm]
  · have s1 : u32sub h.elemNum 1 = h.elemNum - 1 := u32sub_of_le (by omega) (by omega)
    have s2 : u32sub (h.elemNum - 1) d = h.elemNum - 1 - d :=
      u32sub_of_le (by omega) (by omega)
    have s3 : u32sub (h.elemNum - 1 - d) off = h.elemNum - 1 - d - off :=
      u32sub_of_le (by omega) (by omega)
    have s4 : h.elemNum - 1 - d - off = h.elemNum - 1 - off - d := by omega
    rw [s1, s2, s3, s4]

/-- The write of `cBuffWrite` past its early return. -/
theorem cBuffWrite_some (h : circular_buffer_handle) (src : Mem) (count ht off : Nat)
    (h32 : h.buffLen < 4294967296) (hs : h.startIndex < h.buffLen)
    (he : h.elemNum ≤ h.buffLen) (hoff : off < h.elemNum) (hcount : count ≠ 0) :
    (cBuffWrite h (some src) count ht off).retVal = min count (h.elemNum - off) ∧
    (cBuffWrite h (some src) count ht off).data = some src ∧
    (cBuffWrite h (some src) count ht off).handle.buffLen = h.buffLen ∧
    (cBuffWrite h (some src) count ht off).handle.startIndex = h.startIndex ∧
    (cBuffWrite h (some src) count ht off).handle.elemNum = h.elemNum ∧
    (∀ d, d < min count (h.elemNum - off) →
      elemAt (cBuffWrite h (some src) count ht off).handle
        (if ht = 0 then off + d else h.elemNum - 1 - off - d) = src d) ∧
    (∀ p, (∀ d, d < min count (h.elemNum - off) →
        p ≠ cBuffGetMemIndex h (if ht = 0 then off + d else h.elemNum - 1 - off - d)) →
      (cBuffWrite h (some src) count ht off).handle.buff p = h.buff p) := by
  have hc : ¬ (h.elemNum = 0 ∨ count = 0 ∨ off ≥ h.elemNum) := by omega
  have hr : (if count ≤ u32sub h.elemNum off then count else u32sub h.elemNum off)
      = min count (h.elemNum - off) := by
    rw [u32sub_of_le (le_of_lt hoff) (by omega)]
    split_ifs <;> omega
  have e : cBuffWrite h (some src) count ht off =
      ⟨forUpTo (min count (h.elemNum - off)) (cBuffWriteStep src ht off) h, some src,
        min count (h.elemNum - off)⟩ := by
    simp only [cBuffWrite, if_neg hc, hr]
  rw [e]
  obtain ⟨a1, a2, a3, a4, a5⟩ :=
    writeLoop_spec h src ht off (min count (h.elemNum - off))
      (by
        intro v j hvj hj
        rw [accessSlot_eq h ht off v h32 he (by omega), accessSlot_eq h ht off j h32 he (by omega)]
        intro hh
        have := memIndex_inj h _ _ h32 hs (by split_ifs <;> omega) (by split_ifs <;> omega) hh
        split_ifs at this <;> omega)
      _ (le_refl _)
  refine ⟨rfl, rfl, a1, a2, a3, ?_, ?_⟩
  · intro d hd
    unfold elemAt
    show (forUpTo _ _ h).buff (cBuffGetMemIndex _ _) = _
    rw [memIndex_congr h _ _ a1 a2, ← accessSlot_eq h ht off d h32 he (by omega)]
    exact a4 d hd
  · intro p hp
    show (forUpTo _ _ h).buff p = _
    apply a5
    intro d hd
    rw [accessSlot_eq h ht off d h32 he (by omega)]
    exact hp d hd

/-- C11: on a handle with `startIndex < buffLen` and `elemNum ≤ buffLen`,
`cBuffWrite` keeps `elemNum`, `startIndex` and `buffLen`, leaves the caller's
buffer and returns `n = min count (elemNum - off)` (0 when `off ≥ elemNum` or
the count is 0).  Afterwards the element at virtual index `off + d` (from the
head) or `elemNum - 1 - off - d` (from the tail) is `data[d]` for every
`d < n`, every storage slot other than those `n` holds the byte it held, and a
`cBuffRead` with the same end, offset and count returns `n` and
`data[0 .. n - 1]`. -/
theorem cBuffWrite_spec (h : circular_buffer_handle) (src out : Mem) (count ht off : Nat)
    (h32 : h.buffLen < 4294967296) (hs : h.startIndex < h.buffLen)
    (he : h.elemNum ≤ h.buffLen) :
    (cBuffWrite h (some src) count ht off).handle.elemNum = h.elemNum ∧
    (cBuffWrite h (some src) count ht off).handle.startIndex = h.startIndex ∧
    (cBuffWrite h (some src) count ht off).handle.buffLen = h.buffLen ∧
    (cBuffWrite h (some src) count ht off).data = some src ∧
    (cBuffWrite h (some src) count ht off).retVal =
      (if off ≥ h.elemNum ∨ count = 0 then 0 else min count (h.elemNum - off)) ∧
    (∀ d, d < (cBuffWrite h (some src) count ht off).retVal →
      elemAt (cBuffWrite h (some src) count ht off).handle
        (if ht = 0 then off + d else h.elemNum - 1 - off - d) = src d) ∧
    (∀ p, (∀ d, d < (cBuffWrite h (some src) count ht off).retVal →
        p ≠ cBuffGetMemIndex h (if ht = 0 then off + d else h.elemNum - 1 - off - d)) →
      (cBuffWrite h (some src) count ht off).handle.buff p = h.buff p) ∧
    (cBuffRead (cBuffWrite h (some src) count ht off).handle (some out) count ht off).retVal
      = (cBuffWrite h (some src) count ht off).retVal ∧
    ∃ out',
      (cBuffRead (cBuffWrite h (some src) count ht off).handle (some out) count ht off).data
        = some out' ∧
      (∀ d, d < (cBuffWrite h (some src) count ht off).retVal → out' d = src d) ∧
      (∀ j, (cBuffWrite h (some src) count ht off).retVal ≤ j → out' j = out j) := by
  by_cases hc : h.elemNum = 0 ∨ count = 0 ∨ off ≥ h.elemNum
  · have e : cBuffWrite h (some src) count ht off = ⟨h, some src, 0⟩ := by
      simp only [cBuffWrite, if_pos hc]
    have e2 : cBuffRead h (some out) count ht off = ⟨h, some out, 0⟩ := by
      simp only [cBuffRead, if_pos hc]
    rw [e]
    refine ⟨rfl, rfl, rfl, rfl, ?_, fun d hd => absurd hd (Nat.not_lt_zero d), fun _ _ => rfl,
      ?_, out, ?_, fun d hd => absurd hd (Nat.not_lt_zero d), fun _ _ => rfl⟩
    · show 0 = _
      rw [if_pos (by omega)]
    · show (cBuffRead h (some out) count ht off).retVal = 0
      rw [e2]
    · show (cBuffRead h (some out) count ht off).data = some out
      rw [e2]
  · have hoff : off < h.elemNum := by omega
    have hcount : count ≠ 0 := by omega
    obtain ⟨w1, w2, w3, w4, w5, w6, w7⟩ := cBuffWrite_some h src count ht off h32 hs he hoff hcount
    obtain ⟨_, r2, _, out', r4, r5, r6⟩ :=
      cBuffRead_some (cBuffWrite h (some src) count ht off).handle out count ht off
        (by rw [w3]; exact h32) (by rw [w3, w5]; exact he) (by rw [w5]; exact hoff) hcount
    rw [w5] at r2 r5 r6
    rw [w1]
    refine ⟨w5, w4, w3, w2, ?_, w6, w7, r2, out', r4, ?_, r6⟩
    · rw [if_neg (by omega)]
    · intro d hd
      rw [r5 d hd]
      have := w6 d hd
      split_ifs at this ⊢ <;> exact this

/-- C11 on `[4, 5, 6]` in a capacity of 4 from slot 3 on: writing `[8, 9]`
from the tail at offset 1 gives `[9, 8, 6]`. -/
theorem cBuffWrite_spec_witness :
    (4 < 4294967296 ∧ 3 < 4 ∧ 3 ≤ 4) ∧
    ((cBuffWrite ⟨memOfList [5, 6, 0, 4], 4, 3, 3⟩ (some (memOfList [8, 9])) 5 1 1).handle.elemNum
      = 3 ∧
    (cBuffWrite ⟨memOfList [5, 6, 0, 4], 4, 3, 3⟩ (some (memOfList [8, 9])) 5 1 1).handle.startIndex
      = 3 ∧
    (cBuffWrite ⟨memOfList [5, 6, 0, 4], 4, 3, 3⟩ (some (memOfList [8, 9])) 5 1 1).handle.buffLen
      = 4 ∧
    (cBuffWrite ⟨memOfList [5, 6, 0, 4], 4, 3, 3⟩ (some (memOfList [8, 9])) 5 1 1).data
      = some (memOfList [8, 9]) ∧
    (cBuffWrite ⟨memOfList [5, 6, 0, 4], 4, 3, 3⟩ (some (memOfList [8, 9])) 5 1 1).retVal =
      (if 1 ≥ 3 ∨ 5 = 0 then 0 else min 5 (3 - 1)) ∧
    (∀ d, d < (cBuffWrite ⟨memOfList [5, 6, 0, 4], 4, 3, 3⟩ (some (memOfList [8, 9])) 5 1 1).retVal →
      elemAt (cBuffWrite ⟨memOfList [5, 6, 0, 4], 4, 3, 3⟩ (some (memOfList [8, 9])) 5 1 1).handle
        (if (1 : Nat) = 0 then 1 + d else 3 - 1 - 1 - d) = memOfList [8, 9] d) ∧
    (∀ p, (∀ d,
        d < (cBuffWrite ⟨memOfList [5, 6, 0, 4], 4, 3, 3⟩ (some (memOfList [8, 9])) 5 1 1).retVal →
        p ≠ cBuffGetMemIndex ⟨memOfList [5, 6, 0, 4], 4, 3, 3⟩
          (if (1 : Nat) = 0 then 1 + d else 3 - 1 - 1 - d)) →
      (cBuffWrite ⟨memOfList [5, 6, 0, 4], 4, 3, 3⟩ (some (memOfList [8, 9])) 5 1 1).handle.buff p
        = memOfList [5, 6, 0, 4] p) ∧
    (cBuffRead
        (cBuffWrite ⟨memOfList [5, 6, 0, 4], 4, 3, 3⟩ (some (memOfList [8, 9])) 5 1 1).handle
        (some (memOfList [])) 5 1 1).retVal
      = (cBuffWrite ⟨memOfList [5, 6, 0, 4], 4, 3, 3⟩ (some (memOfList [8, 9])) 5 1 1).retVal ∧
    ∃ out',
      (cBuffRead
          (cBuffWrite ⟨memOfList [5, 6, 0, 4], 4, 3, 3⟩ (some (memOfList [8, 9])) 5 1 1).handle
          (some (memOfList [])) 5 1 1).data = some out' ∧
      (∀ d,
        d < (cBuffWrite ⟨memOfList [5, 6, 0, 4], 4, 3, 3⟩ (some (memOfList [8, 9])) 5 1 1).retVal →
        out' d = memOfList [8, 9] d) ∧
      (∀ j,
        (cBuffWrite ⟨memOfList [5, 6, 0, 4], 4, 3, 3⟩ (some (memOfList [8, 9])) 5 1 1).retVal ≤ j →
        out' j = memOfList [] j)) ∧
    (logical ⟨memOfList [5, 6, 0, 4], 4, 3, 3⟩ = [4, 5, 6] ∧
      logical (cBuffWrite ⟨memOfList [5, 6, 0, 4], 4, 3, 3⟩ (some (memOfList [8, 9])) 5 1 1).handle
        = [9, 8, 6] ∧
      memToList
        (cBuffWrite ⟨memOfList [5, 6, 0, 4], 4, 3, 3⟩ (some (memOfList [8, 9])) 5 1 1).handle.buff 4
        = [8, 6, 0, 9]) :=
  ⟨by decide,
    cBuffWrite_spec ⟨memOfList [5, 6, 0, 4], 4, 3, 3⟩ (memOfList [8, 9]) (memOfList []) 5 1 1
      (by decide) (by decide) (by decide),
    by decide⟩

/-! ## The single-byte operations -/

/-- C16: on a handle with `0 < buffLen`, `startIndex < buffLen` and
`elemNum ≤ buffLen`, `cBuffReadByte` returns the byte `cBuffRead` with count 1
copies to `out[0]` when `off < elemNum`, and 0 when `off ≥ elemNum` (an empty
buffer included); `cBuffWriteByte` leaves the handle `cBuffWrite` with the
one-byte buffer `[val]` and count 1 leaves, which is the handle as it was
when `off ≥ elemNum`. -/
theorem byte_ops_specialize (h : circular_buffer_handle) (out : Mem) (val ht off : Nat)
    (hn : 0 < h.buffLen) (h32 : h.buffLen < 4294967296) (_hs : h.startIndex < h.buffLen)
    (he : h.elemNum ≤ h.buffLen) :
    (off < h.elemNum →
      ∃ out', (cBuffRead h (some out) 1 ht off).data = some out' ∧
        cBuffReadByte h ht off = out' 0) ∧
    (off ≥ h.elemNum → cBuffReadByte h ht off = 0) ∧
    cBuffWriteByte h val ht off = (cBuffWrite h (some (memOfList [val])) 1 ht off).handle ∧
    (off ≥ h.elemNum → cBuffWriteByte h val ht off = h) := by
  refine ⟨?_, ?_, ?_, ?_⟩
  · intro hoff
    obtain ⟨_, _, _, out', r4, r5, _⟩ :=
      cBuffRead_some h out 1 ht off h32 he hoff (by decide)
    refine ⟨out', r4, ?_⟩
    rw [r5 0 (by omega)]
    have hc : ¬ (h.buffLen = 0 ∨ h.elemNum = 0 ∨ off ≥ h.elemNum) := by omega
    have s1 : u32sub h.elemNum 1 = h.elemNum - 1 := u32sub_of_le (by omega) (by omega)
    have s2 : u32sub (h.elemNum - 1) off = h.elemNum - 1 - off :=
      u32sub_of_le (by omega) (by omega)
    simp only [cBuffReadByte, if_neg hc, elemAt, s1, s2, Nat.add_zero, Nat.sub_zero]
  · intro hoff
    have hc : h.buffLen = 0 ∨ h.elemNum = 0 ∨ off ≥ h.elemNum := Or.inr (Or.inr hoff)
    simp only [cBuffReadByte, if_pos hc]
  · by_cases hoff : off < h.elemNum
    · have hc : ¬ (h.buffLen = 0 ∨ h.elemNum = 0 ∨ off ≥ h.elemNum) := by omega
      have hc2 : ¬ (h.elemNum = 0 ∨ 1 = 0 ∨ off ≥ h.elemNum) := by omega
      have hr : (if 1 ≤ u32sub h.elemNum off then 1 else u32sub h.elemNum off) = 1 := by
        rw [u32sub_of_le (le_of_lt hoff) (by omega)]
        split_ifs <;> omega
      have a1 : u32add 0 off = off := by rw [u32add_of_lt (by omega)]; omega
      have a2 : u32sub (u32sub h.elemNum 1) 0 = u32sub h.elemNum 1 := by
        have s1 : u32sub h.elemNum 1 = h.elemNum - 1 := u32sub_of_le (by omega) (by omega)
        rw [s1, u32sub_of_le (by omega) (by omega), Nat.sub_zero]
      have hv : memOfList [val] 0 = val := rfl
      simp only [cBuffWriteByte, if_neg hc, cBuffWrite, if_neg hc2, hr, forUpTo, cBuffWriteStep,
        a1, a2, hv]
    · have hc : h.buffLen = 0 ∨ h.elemNum = 0 ∨ off ≥ h.elemNum := by omega
      have hc2 : h.elemNum = 0 ∨ 1 = 0 ∨ off ≥ h.elemNum := by omega
      simp only [cBuffWriteByte, if_pos hc, cBuffWrite, if_pos hc2]
  · intro hoff
    have hc : h.buffLen = 0 ∨ h.elemNum = 0 ∨ off ≥ h.elemNum := Or.inr (Or.inr hoff)
    simp only [cBuffWriteByte, if_pos hc]

/-- C16 on `[4, 5, 6]` in a capacity of 4 from slot 3 on, at offset 1 from the
tail. -/
theorem byte_ops_specialize_witness :
    (0 < 4 ∧ 4 < 4294967296 ∧ 3 < 4 ∧ 3 ≤ 4) ∧
    ((1 < 3 →
      ∃ out', (cBuffRead ⟨memOfList [5, 6, 0, 4], 4, 3, 3⟩ (some (memOfList [])) 1 1 1).data
          = some out' ∧
        cBuffReadByte ⟨memOfList [5, 6, 0, 4], 4, 3, 3⟩ 1 1 = out' 0) ∧
    (1 ≥ 3 → cBuffReadByte ⟨memOfList [5, 6, 0, 4], 4, 3, 3⟩ 1 1 = 0) ∧
    cBuffWriteByte ⟨memOfList [5, 6, 0, 4], 4, 3, 3⟩ 9 1 1 =
      (cBuffWrite ⟨memOfList [5, 6, 0, 4], 4, 3, 3⟩ (some (memOfList [9])) 1 1 1).handle ∧
    (1 ≥ 3 → cBuffWriteByte ⟨memOfList [5, 6, 0, 4], 4, 3, 3⟩ 9 1 1
      = ⟨memOfList [5, 6, 0, 4], 4, 3, 3⟩)) ∧
    (cBuffReadByte ⟨memOfList [5, 6, 0, 4], 4, 3, 3⟩ 1 1 = 5 ∧
      logical (cBuffWriteByte ⟨memOfList [5, 6, 0, 4], 4, 3, 3⟩ 9 1 1) = [4, 9, 6] ∧
      cBuffReadByte ⟨memOfList [5, 6, 0, 4], 4, 3, 3⟩ 0 3 = 0) :=
  ⟨by decide,
    byte_ops_specialize ⟨memOfList [5, 6, 0, 4], 4, 3, 3⟩ (memOfList []) 9 1 1 (by decide)
      (by decide) (by decide) (by decide),
    by decide⟩

/-! ## Conversion of a ring to a plain buffer -/

/-- With start index 0 the memory index of an index is that index. -/
theorem memIndex_start_zero (h : circular_buffer_handle) (v : Nat) (hs : h.startIndex = 0) :
    cBuffGetMemIndex h v = v := by
  unfold cBuffGetMemIndex
  rw [if_pos (Or.inr hs)]

/-- C14: on a ring with `0 < buffLen`, `startIndex < buffLen` and
`elemNum ≤ buffLen`, `cBuffToPlain` leaves the ring with `startIndex = 0` and
the same `buffLen` and `elemNum`, and gives a plain handle over the ring's
storage with that `buffLen` and `elemNum`; storage slot `v` holds the element
that was at virtual index `v` before, for every `v < buffLen` and so for every
`v < elemNum`, and the element at every virtual index of the ring is the one
it was. -/
theorem cBuffToPlain_spec (scratch : Nat) (c : circular_buffer_handle)
    (hn : 0 < c.buffLen) (h32 : c.buffLen < 4294967296) (hs : c.startIndex < c.buffLen)
    (he : c.elemNum ≤ c.buffLen) :
    (cBuffToPlain scratch c).2.startIndex = 0 ∧
    (cBuffToPlain scratch c).2.buffLen = c.buffLen ∧
    (cBuffToPlain scratch c).2.elemNum = c.elemNum ∧
    (cBuffToPlain scratch c).1.buff = (cBuffToPlain scratch c).2.buff ∧
    (cBuffToPlain scratch c).1.buffLen = c.buffLen ∧
    (cBuffToPlain scratch c).1.elemNum = c.elemNum ∧
    (∀ v, v < c.buffLen → (cBuffToPlain scratch c).1.buff v = elemAt c v) ∧
    (∀ v, v < c.elemNum → (cBuffToPlain scratch c).1.buff v = elemAt c v) ∧
    (∀ v, v < c.elemNum → elemAt (cBuffToPlain scratch c).2 v = elemAt c v) := by
  obtain ⟨f1, f2, f3, _⟩ := cBuffRotateMemory_fields scratch c 0 hn h32 hs hn
  have hb : ∀ v, v < c.buffLen → (cBuffRotateMemory scratch c 0).buff v = elemAt c v := by
    intro v hv
    have := cBuffRotateMemory_buff scratch c 0 hn h32 hs hn v
    rw [Nat.add_zero, Nat.mod_eq_of_lt hv] at this
    unfold elemAt
    rw [this, memIndex_eq_mod c v h32 hs hv]
  refine ⟨f1, f2, f3, rfl, f2, f3, hb, fun v hv => hb v (by omega), ?_⟩
  intro v hv
  show (cBuffRotateMemory scratch c 0).buff (cBuffGetMemIndex (cBuffRotateMemory scratch c 0) v)
    = _
  rw [memIndex_start_zero _ v f1]
  exact hb v (by omega)

/-- C14 at capacity 4 with start index 2: the storage `[4, 5, 2, 3]` becomes
`[2, 3, 4, 5]`, the logical order. -/
theorem cBuffToPlain_spec_witness :
    (0 < 4 ∧ 4 < 4294967296 ∧ 2 < 4 ∧ 4 ≤ 4) ∧
    ((cBuffToPlain 77 ⟨memOfList [4, 5, 2, 3], 4, 2, 4⟩).2.startIndex = 0 ∧
    (cBuffToPlain 77 ⟨memOfList [4, 5, 2, 3], 4, 2, 4⟩).2.buffLen = 4 ∧
    (cBuffToPlain 77 ⟨memOfList [4, 5, 2, 3], 4, 2, 4⟩).2.elemNum = 4 ∧
    (cBuffToPlain 77 ⟨memOfList [4, 5, 2, 3], 4, 2, 4⟩).1.buff =
      (cBuffToPlain 77 ⟨memOfList [4, 5, 2, 3], 4, 2, 4⟩).2.buff ∧
    (cBuffToPlain 77 ⟨memOfList [4, 5, 2, 3], 4, 2, 4⟩).1.buffLen = 4 ∧
    (cBuffToPlain 77 ⟨memOfList [4, 5, 2, 3], 4, 2, 4⟩).1.elemNum = 4 ∧
    (∀ v, v < 4 → (cBuffToPlain 77 ⟨memOfList [4, 5, 2, 3], 4, 2, 4⟩).1.buff v =
      elemAt ⟨memOfList [4, 5, 2, 3], 4, 2, 4⟩ v) ∧
    (∀ v, v < 4 → (cBuffToPlain 77 ⟨memOfList [4, 5, 2, 3], 4, 2, 4⟩).1.buff v =
      elemAt ⟨memOfList [4, 5, 2, 3], 4, 2, 4⟩ v) ∧
    (∀ v, v < 4 → elemAt (cBuffToPlain 77 ⟨memOfList [4, 5, 2, 3], 4, 2, 4⟩).2 v =
      elemAt ⟨memOfList [4, 5, 2, 3], 4, 2, 4⟩ v)) ∧
    (logical ⟨memOfList [4, 5, 2, 3], 4, 2, 4⟩ = [2, 3, 4, 5] ∧
      memToList (cBuffToPlain 77 ⟨memOfList [4, 5, 2, 3], 4, 2, 4⟩).1.buff 4 = [2, 3, 4, 5] ∧
      logical (cBuffToPlain 77 ⟨memOfList [4, 5, 2, 3], 4, 2, 4⟩).2 = [2, 3, 4, 5]) :=
  ⟨by decide,
    cBuffToPlain_spec 77 ⟨memOfList [4, 5, 2, 3], 4, 2, 4⟩ (by decide) (by decide) (by decide)
      (by decide),
    by decide⟩

/-! ## The bound of the element count -/

theorem u32add_le (a b : Nat) : u32add a b ≤ a + b := by
  unfold u32add
  exact Nat.mod_le _ _

/-- A pass of the rotation loop writes the storage only. -/
theorem rotateBody_fields (tmp : circular_buffer_handle) (st : RotState) :
    (rotateBody tmp st).handle.buffLen = st.handle.buffLen ∧
    (rotateBody tmp st).handle.elemNum = st.handle.elemNum := by
  unfold rotateBody
  simp only
  split_ifs <;> exact ⟨rfl, rfl⟩

theorem rotateLoop_fields (tmp : circular_buffer_handle) :
    ∀ (fuel : Nat) (st : RotState),
      (rotateLoop tmp fuel st).handle.buffLen = st.handle.buffLen ∧
      (rotateLoop tmp fuel st).handle.elemNum = st.handle.elemNum := by
  intro fuel
  induction fuel with
  | zero => exact fun _ => ⟨rfl, rfl⟩
  | succ fuel ih =>
    intro st
    show (if st.moved < st.handle.buffLen then rotateLoop tmp fuel (rotateBody tmp st)
      else st).handle.buffLen = _ ∧
      (if st.moved < st.handle.buffLen then rotateLoop tmp fuel (rotateBody tmp st)
      else st).handle.elemNum = _
    split_ifs
    · obtain ⟨a1, a2⟩ := ih (rotateBody tmp st)
      obtain ⟨b1, b2⟩ := rotateBody_fields tmp st
      exact ⟨a1.trans b1, a2.trans b2⟩
    · exact ⟨rfl, rfl⟩

/-- Whatever the handle and the new start index, `cBuffRotateMemory` keeps
`buffLen` and `elemNum`. -/
theorem cBuffRotateMemory_keeps (scratch : Nat) (h : circular_buffer_handle) (t : Nat) :
    (cBuffRotateMemory scratch h t).buffLen = h.buffLen ∧
    (cBuffRotateMemory scratch h t).elemNum = h.elemNum := by
  unfold cBuffRotateMemory
  split_ifs
  · exact ⟨rfl, rfl⟩
  · exact rotateLoop_fields _ _ _

/-- A pass of the push loop keeps `buffLen` and keeps `elemNum` within it. -/
theorem cBuffPushStep_bound (data : Mem) (ht d : Nat) (st : circular_buffer_handle × Nat)
    (he : st.1.elemNum ≤ st.1.buffLen) :
    (cBuffPushStep data ht d st).1.buffLen = st.1.buffLen ∧
    (cBuffPushStep data ht d st).1.elemNum ≤ st.1.buffLen := by
  have hb := u32add_le st.1.elemNum 1
  unfold cBuffPushStep
  simp only
  split_ifs <;> refine ⟨rfl, ?_⟩ <;> simp only <;> omega

theorem pushLoop_bound (data : Mem) (ht : Nat) (st : circular_buffer_handle × Nat)
    (he : st.1.elemNum ≤ st.1.buffLen) :
    ∀ j, (forUpTo j (cBuffPushStep data ht) st).1.buffLen = st.1.buffLen ∧
      (forUpTo j (cBuffPushStep data ht) st).1.elemNum ≤ st.1.buffLen := by
  intro j
  induction j with
  | zero => exact ⟨rfl, he⟩
  | succ j ih =>
    obtain ⟨a1, a2⟩ := ih
    rw [forUpTo_succ]
    obtain ⟨b1, b2⟩ := cBuffPushStep_bound data ht j _ (by rw [a1]; exact a2)
    exact ⟨b1.trans a1, by rw [a1] at b2; exact b2⟩

/-- Whatever the arguments, `cBuffPush` keeps `buffLen` and keeps `elemNum`
within it. -/
theorem cBuffPush_bound (h : circular_buffer_handle) (data : Option Mem) (dataLen ht : Nat)
    (he : h.elemNum ≤ h.buffLen) :
    (cBuffPush h data dataLen ht).buffLen = h.buffLen ∧
    (cBuffPush h data dataLen ht).elemNum ≤ h.buffLen := by
  by_cases hc : h.buffLen = 0 ∨ dataLen = 0
  · unfold cBuffPush
    rw [if_pos hc]
    exact ⟨rfl, he⟩
  · unfold cBuffPush
    rw [if_neg hc]
    cases data with
    | none => exact ⟨rfl, he⟩
    | some data => exact pushLoop_bound data ht _ he dataLen

/-- Whatever the arguments, `cBuffRead` returns the handle it was given and a
count of at most `elemNum`. -/
theorem cBuffRead_bound (h : circular_buffer_handle) (data : Option Mem) (dataLen ht off : Nat) :
    (cBuffRead h data dataLen ht off).handle = h ∧
    (cBuffRead h data dataLen ht off).retVal ≤ h.elemNum := by
  have hb : u32sub h.elemNum off ≤ h.elemNum ∨ h.elemNum ≤ off := by
    unfold u32sub
    omega
  unfold cBuffRead
  split_ifs with h1 h2
  · exact ⟨rfl, Nat.zero_le _⟩
  · cases data <;> exact ⟨rfl, by simp only; omega⟩
  · cases data <;> exact ⟨rfl, by simp only; omega⟩

/-- Whatever the arguments, `cBuffPull` keeps `buffLen` and keeps `elemNum`
within it. -/
theorem cBuffPull_bound (h : circular_buffer_handle) (data : Option Mem) (dataLen ht : Nat)
    (h32 : h.buffLen < 4294967296) (he : h.elemNum ≤ h.buffLen) :
    (cBuffPull h data dataLen ht).handle.buffLen = h.buffLen ∧
    (cBuffPull h data dataLen ht).handle.elemNum ≤ h.buffLen := by
  obtain ⟨r1, r2⟩ := cBuffRead_bound h data dataLen ht 0
  have hsub : u32sub h.elemNum (cBuffRead h data dataLen ht 0).retVal ≤ h.elemNum := by
    rw [u32sub_of_le r2 (by omega)]
    omega
  by_cases hc : h.buffLen = 0 ∨ dataLen = 0
  · unfold cBuffPull
    rw [if_pos hc]
    exact ⟨rfl, he⟩
  · obtain ⟨_, _, _, p4, p5, _⟩ :=
      cBuffPull_fields h data dataLen ht (by omega) (by omega) r1
    exact ⟨p4, by rw [p5]; omega⟩

theorem rotateCopy_fields (tmp : circular_buffer_handle) (fixed : Nat)
    (h : circular_buffer_handle) :
    ∀ j, (forUpTo j (cBuffRotateStep tmp fixed) h).buffLen = h.buffLen ∧
      (forUpTo j (cBuffRotateStep tmp fixed) h).elemNum = h.elemNum := by
  intro j
  induction j with
  | zero => exact ⟨rfl, rfl⟩
  | succ j ih => exact ih

/-- Whatever the arguments, `cBuffRotate` keeps `buffLen` and `elemNum`. -/
theorem cBuffRotate_keeps (h : circular_buffer_handle) (dir pos : Nat) :
    (cBuffRotate h dir pos).buffLen = h.buffLen ∧
    (cBuffRotate h dir pos).elemNum = h.elemNum := by
  by_cases hc : h.buffLen = 0 ∨ h.elemNum = 0
  · unfold cBuffRotate
    rw [if_pos hc]
    exact ⟨rfl, rfl⟩
  · unfold cBuffRotate
    rw [if_neg hc]
    exact rotateCopy_fields _ _ _ _

/-- Whatever the arguments, `pBuffPush` keeps `buffLen` and keeps `elemNum`
within it. -/
theorem pBuffPush_bound (scratch : Nat) (p : plain_buffer_handle) (data : Option Mem)
    (dataLen ht : Nat) (he : p.elemNum ≤ p.buffLen) :
    (pBuffPush scratch p data dataLen ht).1.buffLen = p.buffLen ∧
    (pBuffPush scratch p data dataLen ht).1.elemNum ≤ p.buffLen := by
  by_cases hc : p.buffLen = 0 ∨ dataLen = 0 ∨ data.isNone = true
  · unfold pBuffPush
    rw [if_pos hc]
    exact ⟨rfl, he⟩
  · by_cases hz : u32sub p.buffLen p.elemNum = 0
    · unfold pBuffPush
      rw [if_neg hc]
      simp only [hz, if_true]
      exact ⟨trivial, he⟩
    · unfold pBuffPush
      rw [if_neg hc]
      simp only [hz, if_false]
      refine ⟨trivial, ?_⟩
      have hb := fun r => cBuffPush_bound (pBuffToCirc p) data r ht he
      by_cases hht : ht = 0
      · simp only [hht, if_true]
        rw [(cBuffRotateMemory_keeps scratch _ 0).2]
        exact hht ▸ (hb _).2
      · simp only [hht, if_false]
        exact (hb _).2

/-- Whatever the arguments, `pBuffPull` keeps `buffLen` and keeps `elemNum`
within it. -/
theorem pBuffPull_bound (scratch : Nat) (p : plain_buffer_handle) (data : Option Mem)
    (dataLen ht : Nat) (h32 : p.buffLen < 4294967296) (he : p.elemNum ≤ p.buffLen) :
    (pBuffPull scratch p data dataLen ht).handle.buffLen = p.buffLen ∧
    (pBuffPull scratch p data dataLen ht).handle.elemNum ≤ p.buffLen := by
  by_cases hc : p.buffLen = 0 ∨ dataLen = 0
  · unfold pBuffPull
    rw [if_pos hc]
    exact ⟨rfl, he⟩
  · by_cases hz : p.elemNum = 0
    · unfold pBuffPull
      rw [if_neg hc, if_pos hz]
      exact ⟨rfl, he⟩
    · unfold pBuffPull
      rw [if_neg hc, if_neg hz]
      refine ⟨rfl, ?_⟩
      have hb := cBuffPull_bound (pBuffToCirc p) data dataLen ht h32 he
      by_cases hht : ht = 0
      · simp only [hht, if_true]
        rw [(cBuffRotateMemory_keeps scratch _ 0).2]
        exact hht ▸ hb.2
      · simp only [hht, if_false]
        exact hb.2

/-- C15: for a circular handle and a plain handle with `elemNum ≤ buffLen`
(and `startIndex < buffLen` when `0 < buffLen`), whatever the arguments, the
handle left by `cBuffPush`, `cBuffPushToFill`, `cBuffPull`, `cBuffRotate`,
`cBuffRotateMemory`, `cBuffFlush`, `cBuffToPlain`, `pBuffToCirc`, `pBuffPush`,
`pBuffPull` and `pBuffFlush` has the `buffLen` it had and `elemNum ≤ buffLen`. -/
theorem elemNum_le_buffLen_preserved (c : circular_buffer_handle) (p : plain_buffer_handle)
    (data : Option Mem) (dataLen ht dir pos t scratch : Nat)
    (h32c : c.buffLen < 4294967296) (hec : c.elemNum ≤ c.buffLen)
    (_hsc : 0 < c.buffLen → c.startIndex < c.buffLen)
    (h32p : p.buffLen < 4294967296) (hep : p.elemNum ≤ p.buffLen) :
    ((cBuffPush c data dataLen ht).buffLen = c.buffLen ∧
      (cBuffPush c data dataLen ht).elemNum ≤ c.buffLen) ∧
    ((cBuffPushToFill c data dataLen ht).1.buffLen = c.buffLen ∧
      (cBuffPushToFill c data dataLen ht).1.elemNum ≤ c.buffLen) ∧
    ((cBuffPull c data dataLen ht).handle.buffLen = c.buffLen ∧
      (cBuffPull c data dataLen ht).handle.elemNum ≤ c.buffLen) ∧
    ((cBuffRotate c dir pos).buffLen = c.buffLen ∧
      (cBuffRotate c dir pos).elemNum ≤ c.buffLen) ∧
    ((cBuffRotateMemory scratch c t).buffLen = c.buffLen ∧
      (cBuffRotateMemory scratch c t).elemNum ≤ c.buffLen) ∧
    ((cBuffFlush c).buffLen = c.buffLen ∧ (cBuffFlush c).elemNum ≤ c.buffLen) ∧
    ((cBuffToPlain scratch c).1.buffLen = c.buffLen ∧
      (cBuffToPlain scratch c).1.elemNum ≤ c.buffLen ∧
      (cBuffToPlain scratch c).2.buffLen = c.buffLen ∧
      (cBuffToPlain scratch c).2.elemNum ≤ c.buffLen) ∧
    ((pBuffToCirc p).buffLen = p.buffLen ∧ (pBuffToCirc p).elemNum ≤ p.buffLen) ∧
    ((pBuffPush scratch p data dataLen ht).1.buffLen = p.buffLen ∧
      (pBuffPush scratch p data dataLen ht).1.elemNum ≤ p.buffLen) ∧
    ((pBuffPull scratch p data dataLen ht).handle.buffLen = p.buffLen ∧
      (pBuffPull scratch p data dataLen ht).handle.elemNum ≤ p.buffLen) ∧
    ((pBuffFlush p).buffLen = p.buffLen ∧ (pBuffFlush p).elemNum ≤ p.buffLen) := by
  obtain ⟨m1, m2⟩ := cBuffRotateMemory_keeps scratch c 0
  obtain ⟨k1, k2⟩ := cBuffRotateMemory_keeps scratch c t
  obtain ⟨q1, q2⟩ := cBuffRotate_keeps c dir pos
  refine ⟨cBuffPush_bound c data dataLen ht hec, ?_, cBuffPull_bound c data dataLen ht h32c hec,
    ⟨q1, by rw [q2]; exact hec⟩, ⟨k1, by rw [k2]; exact hec⟩, ⟨rfl, Nat.zero_le _⟩,
    ⟨m1, ?_, m1, ?_⟩, ⟨rfl, hep⟩, pBuffPush_bound scratch p data dataLen ht hep,
    pBuffPull_bound scratch p data dataLen ht h32p hep, ⟨rfl, Nat.zero_le _⟩⟩
  · by_cases hc : c.buffLen = 0 ∨ dataLen = 0 ∨ data.isNone = true
    · unfold cBuffPushToFill
      rw [if_pos hc]
      exact ⟨rfl, hec⟩
    · unfold cBuffPushToFill
      rw [if_neg hc]
      exact cBuffPush_bound c data _ ht hec
  · show (cBuffRotateMemory scratch c 0).elemNum ≤ _
    rw [m2]; exact hec
  · show (cBuffRotateMemory scratch c 0).elemNum ≤ _
    rw [m2]; exact hec

/-- C15 on a full ring `[1, 2, 3, 4]` and a full plain buffer `[1, 2, 3, 4]`
of capacity 4, with two bytes of data. -/
theorem elemNum_le_buffLen_preserved_witness :
    (4 < 4294967296 ∧ 4 ≤ 4 ∧ (0 < 4 → 0 < 4) ∧ 4 < 4294967296 ∧ 4 ≤ 4) ∧
    (((cBuffPush ⟨memOfList [1, 2, 3, 4], 4, 0, 4⟩ (some (memOfList [8, 9])) 2 1).buffLen = 4 ∧
      (cBuffPush ⟨memOfList [1, 2, 3, 4], 4, 0, 4⟩ (some (memOfList [8, 9])) 2 1).elemNum ≤ 4) ∧
    ((cBuffPushToFill ⟨memOfList [1, 2, 3, 4], 4, 0, 4⟩ (some (memOfList [8, 9])) 2 1).1.buffLen
        = 4 ∧
      (cBuffPushToFill ⟨memOfList [1, 2, 3, 4], 4, 0, 4⟩ (some (memOfList [8, 9])) 2 1).1.elemNum
        ≤ 4) ∧
    ((cBuffPull ⟨memOfList [1, 2, 3, 4], 4, 0, 4⟩ (some (memOfList [8, 9])) 2 1).handle.buffLen
        = 4 ∧
      (cBuffPull ⟨memOfList [1, 2, 3, 4], 4, 0, 4⟩ (some (memOfList [8, 9])) 2 1).handle.elemNum
        ≤ 4) ∧
    ((cBuffRotate ⟨memOfList [1, 2, 3, 4], 4, 0, 4⟩ 1 3).buffLen = 4 ∧
      (cBuffRotate ⟨memOfList [1, 2, 3, 4], 4, 0, 4⟩ 1 3).elemNum ≤ 4) ∧
    ((cBuffRotateMemory 7 ⟨memOfList [1, 2, 3, 4], 4, 0, 4⟩ 6).buffLen = 4 ∧
      (cBuffRotateMemory 7 ⟨memOfList [1, 2, 3, 4], 4, 0, 4⟩ 6).elemNum ≤ 4) ∧
    ((cBuffFlush ⟨memOfList [1, 2, 3, 4], 4, 0, 4⟩).buffLen = 4 ∧
      (cBuffFlush ⟨memOfList [1, 2, 3, 4], 4, 0, 4⟩).elemNum ≤ 4) ∧
    ((cBuffToPlain 7 ⟨memOfList [1, 2, 3, 4], 4, 0, 4⟩).1.buffLen = 4 ∧
      (cBuffToPlain 7 ⟨memOfList [1, 2, 3, 4], 4, 0, 4⟩).1.elemNum ≤ 4 ∧
      (cBuffToPlain 7 ⟨memOfList [1, 2, 3, 4], 4, 0, 4⟩).2.buffLen = 4 ∧
      (cBuffToPlain 7 ⟨memOfList [1, 2, 3, 4], 4, 0, 4⟩).2.elemNum ≤ 4) ∧
    ((pBuffToCirc ⟨memOfList [1, 2, 3, 4], 4, 4⟩).buffLen = 4 ∧
      (pBuffToCirc ⟨memOfList [1, 2, 3, 4], 4, 4⟩).elemNum ≤ 4) ∧
    ((pBuffPush 7 ⟨memOfList [1, 2, 3, 4], 4, 4⟩ (some (memOfList [8, 9])) 2 1).1.buffLen = 4 ∧
      (pBuffPush 7 ⟨memOfList [1, 2, 3, 4], 4, 4⟩ (some (memOfList [8, 9])) 2 1).1.elemNum ≤ 4) ∧
    ((pBuffPull 7 ⟨memOfList [1, 2, 3, 4], 4, 4⟩ (some (memOfList [8, 9])) 2 1).handle.buffLen
        = 4 ∧
      (pBuffPull 7 ⟨memOfList [1, 2, 3, 4], 4, 4⟩ (some (memOfList [8, 9])) 2 1).handle.elemNum
        ≤ 4) ∧
    ((pBuffFlush ⟨memOfList [1, 2, 3, 4], 4, 4⟩).buffLen = 4 ∧
      (pBuffFlush ⟨memOfList [1, 2, 3, 4], 4, 4⟩).elemNum ≤ 4)) :=
  ⟨by decide,
    elemNum_le_buffLen_preserved ⟨memOfList [1, 2, 3, 4], 4, 0, 4⟩ ⟨memOfList [1, 2, 3, 4], 4, 4⟩
      (some (memOfList [8, 9])) 2 1 1 3 6 7 (by decide) (by decide) (by decide) (by decide)
      (by decide)⟩

/-! ## Head pulls from a plain buffer -/

/-- The form of a head `pBuffPull` past its early returns. -/
theorem pBuffPull_head_eq (scratch : Nat) (p : plain_buffer_handle) (data : Option Mem)
    (dataLen : Nat) (hn : 0 < p.buffLen) (hd : 0 < dataLen) (he0 : 0 < p.elemNum) :
    pBuffPull scratch p data dataLen 0 =
      ⟨{ p with
          buff := (cBuffRotateMemory scratch
            (cBuffPull (pBuffToCirc p) data dataLen 0).handle 0).buff,
          elemNum := (cBuffRotateMemory scratch
            (cBuffPull (pBuffToCirc p) data dataLen 0).handle 0).elemNum },
        (cBuffPull (pBuffToCirc p) data dataLen 0).data,
        (cBuffPull (pBuffToCirc p) data dataLen 0).retVal⟩ := by
  have hc : ¬ (p.buffLen = 0 ∨ dataLen = 0) := by omega
  have hz : ¬ (p.elemNum = 0) := by omega
  unfold pBuffPull
  rw [if_neg hc, if_neg hz]
  simp only [if_true]

/-- C19: on a plain handle with `0 < buffLen` and `elemNum ≤ buffLen`, a head
`pBuffPull` with `0 < dataLen` returns `r = min dataLen elemNum`, copies the
old `storage[0 .. r - 1]` to `out` in order, sets `elemNum` to `elemNum - r`,
keeps `buffLen`, and leaves the remaining elements from slot 0 on:
`storage[v]` is the old `storage[v + r]` for every `v < elemNum - r`. -/
theorem pBuffPull_head_linear (scratch : Nat) (p : plain_buffer_handle) (out : Mem)
    (dataLen : Nat) (hn : 0 < p.buffLen) (h32 : p.buffLen < 4294967296)
    (he : p.elemNum ≤ p.buffLen) (hd : 0 < dataLen) :
    (pBuffPull scratch p (some out) dataLen 0).retVal = min dataLen p.elemNum ∧
    (pBuffPull scratch p (some out) dataLen 0).handle.elemNum
      = p.elemNum - min dataLen p.elemNum ∧
    (pBuffPull scratch p (some out) dataLen 0).handle.buffLen = p.buffLen ∧
    (∃ out', (pBuffPull scratch p (some out) dataLen 0).data = some out' ∧
      (∀ d, d < min dataLen p.elemNum → out' d = p.buff d) ∧
      (∀ j, min dataLen p.elemNum ≤ j → out' j = out j)) ∧
    (∀ v, v + min dataLen p.elemNum < p.elemNum →
      (pBuffPull scratch p (some out) dataLen 0).handle.buff v
        = p.buff (v + min dataLen p.elemNum)) := by
  by_cases he0 : p.elemNum = 0
  · have hc : ¬ (p.buffLen = 0 ∨ dataLen = 0) := by omega
    have e : pBuffPull scratch p (some out) dataLen 0 = ⟨p, some out, 0⟩ := by
      unfold pBuffPull
      rw [if_neg hc, if_pos he0]
    rw [e]
    exact ⟨by show 0 = _; omega, by show p.elemNum = _; omega, rfl,
      ⟨out, rfl, fun d hd => by omega, fun _ _ => rfl⟩, fun v hv => by omega⟩
  · have hpos : 0 < p.elemNum := by omega
    have hs : (pBuffToCirc p).startIndex < (pBuffToCirc p).buffLen := hn
    obtain ⟨b1, b2, _, out', b4, b5, b6⟩ :=
      cBuffRead_some (pBuffToCirc p) out dataLen 0 0 h32 he hpos (by omega)
    obtain ⟨p1, p2, p3, p4, p5, p6⟩ :=
      cBuffPull_fields (pBuffToCirc p) (some out) dataLen 0 hn hd b1
    have hmin : min dataLen ((pBuffToCirc p).elemNum - 0) = min dataLen p.elemNum := rfl
    rw [hmin] at b2 b5 b6
    rw [b2] at p1 p5 p6
    rw [b4] at p2
    rw [if_pos rfl, memIndex_start_zero _ _ rfl] at p6
    have p5' : (cBuffPull (pBuffToCirc p) (some out) dataLen 0).handle.elemNum =
        p.elemNum - min dataLen p.elemNum := by
      have hE : (pBuffToCirc p).elemNum = p.elemNum := rfl
      rw [p5, hE]
      exact u32sub_of_le (by omega) (by omega)
    obtain ⟨_, k2⟩ :=
      cBuffRotateMemory_keeps scratch (cBuffPull (pBuffToCirc p) (some out) dataLen 0).handle 0
    rw [pBuffPull_head_eq scratch p (some out) dataLen hn hd hpos]
    refine ⟨p1, ?_, rfl, ⟨out', p2, ?_, b6⟩, ?_⟩
    · show (cBuffRotateMemory scratch _ 0).elemNum = _
      rw [k2, p5']
    · intro d hd'
      rw [b5 d hd', if_pos rfl, Nat.zero_add]
      unfold elemAt
      rw [memIndex_start_zero _ _ rfl]
      rfl
    · intro v hv
      show (cBuffRotateMemory scratch _ 0).buff v = _
      have hr : min dataLen p.elemNum < p.buffLen := by omega
      have hb := cBuffRotateMemory_buff scratch
        (cBuffPull (pBuffToCirc p) (some out) dataLen 0).handle 0
        (by rw [p4]; exact hn) (by rw [p4]; exact h32) (by rw [p4, p6]; exact hr)
        (by rw [p4]; exact hn) v
      rw [p4, p6, p3, Nat.add_zero] at hb
      have e1 : v % (pBuffToCirc p).buffLen = v := Nat.mod_eq_of_lt (by show v < p.buffLen; omega)
      have e2 : (v + min dataLen p.elemNum) % (pBuffToCirc p).buffLen
          = v + min dataLen p.elemNum :=
        Nat.mod_eq_of_lt (by show _ < p.buffLen; omega)
      rw [e1, e2] at hb
      exact hb

/-- C19 on the full plain buffer `[1, 2, 3, 4]`: pulling two bytes from the
head returns `[1, 2]` and leaves `[3, 4]` from slot 0 on; pulling all four
returns `[1, 2, 3, 4]` and leaves no element. -/
theorem pBuffPull_head_linear_witness :
    (0 < 4 ∧ 4 < 4294967296 ∧ 4 ≤ 4 ∧ 0 < 2) ∧
    ((pBuffPull 7 ⟨memOfList [1, 2, 3, 4], 4, 4⟩ (some (memOfList [])) 2 0).retVal = min 2 4 ∧
    (pBuffPull 7 ⟨memOfList [1, 2, 3, 4], 4, 4⟩ (some (memOfList [])) 2 0).handle.elemNum
      = 4 - min 2 4 ∧
    (pBuffPull 7 ⟨memOfList [1, 2, 3, 4], 4, 4⟩ (some (memOfList [])) 2 0).handle.buffLen = 4 ∧
    (∃ out', (pBuffPull 7 ⟨memOfList [1, 2, 3, 4], 4, 4⟩ (some (memOfList [])) 2 0).data
        = some out' ∧
      (∀ d, d < min 2 4 → out' d = memOfList [1, 2, 3, 4] d) ∧
      (∀ j, min 2 4 ≤ j → out' j = memOfList [] j)) ∧
    (∀ v, v + min 2 4 < 4 →
      (pBuffPull 7 ⟨memOfList [1, 2, 3, 4], 4, 4⟩ (some (memOfList [])) 2 0).handle.buff v
        = memOfList [1, 2, 3, 4] (v + min 2 4))) ∧
    (memToList (pBuffPull 7 ⟨memOfList [1, 2, 3, 4], 4, 4⟩ (some (memOfList [])) 2 0).handle.buff 2
        = [3, 4] ∧
      ((pBuffPull 7 ⟨memOfList [1, 2, 3, 4], 4, 4⟩ (some (memOfList [])) 4 0).data.map
        (fun m => memToList m 4)) = some [1, 2, 3, 4] ∧
      (pBuffPull 7 ⟨memOfList [1, 2, 3, 4], 4, 4⟩ (some (memOfList [])) 4 0).handle.elemNum = 0 ∧
      (pBuffPull 7 ⟨memOfList [1, 2, 3, 4], 4, 4⟩ (some (memOfList [])) 4 0).retVal = 4) :=
  ⟨by decide,
    pBuffPull_head_linear 7 ⟨memOfList [1, 2, 3, 4], 4, 4⟩ (memOfList []) 2 (by decide)
      (by decide) (by decide) (by decide),
    by decide⟩

/-! ## Head pushes of any length -/

/-- The memory index within range, for a handle whose capacity and start
index are known. -/
theorem memIndex_of_fields (h : circular_buffer_handle) (n s v : Nat)
    (hl : h.buffLen = n) (hst : h.startIndex = s) (h32 : n < 4294967296) (hs : s < n)
    (hv : v < n) :
    cBuffGetMemIndex h v = if v < n - s then s + v else v - (n - s) := by
  subst hl
  subst hst
  exact memIndex_of_lt h v h32 hs hv

/-- State of the loop of `cBuffPush` after `j` passes of a head push: the
element count is `min buffLen (elemNum + j)`, the start index is in range, and
the logical content is the bytes pushed so far, last first, followed by the old
content. -/
theorem pushHead_any_loop (h0 : circular_buffer_handle) (data : Mem)
    (hn : 0 < h0.buffLen) (h32 : h0.buffLen < 4294967296) (hs : h0.startIndex < h0.buffLen)
    (he : h0.elemNum ≤ h0.buffLen) :
    ∀ j,
      (forUpTo j (cBuffPushStep data 0)
        (h0, cBuffGetMemIndex h0 (u32sub h0.buffLen 1))).1.buffLen = h0.buffLen ∧
      (forUpTo j (cBuffPushStep data 0)
        (h0, cBuffGetMemIndex h0 (u32sub h0.buffLen 1))).1.startIndex < h0.buffLen ∧
      (forUpTo j (cBuffPushStep data 0)
        (h0, cBuffGetMemIndex h0 (u32sub h0.buffLen 1))).1.elemNum
          = min h0.buffLen (h0.elemNum + j) ∧
      (forUpTo j (cBuffPushStep data 0) (h0, cBuffGetMemIndex h0 (u32sub h0.buffLen 1))).2
        = cBuffGetMemIndex
            (forUpTo j (cBuffPushStep data 0) (h0, cBuffGetMemIndex h0 (u32sub h0.buffLen 1))).1
            (u32sub h0.buffLen 1) ∧
      (∀ i, i < min h0.buffLen (h0.elemNum + j) →
        elemAt (forUpTo j (cBuffPushStep data 0)
          (h0, cBuffGetMemIndex h0 (u32sub h0.buffLen 1))).1 i
          = if i < j then data (j - 1 - i) else elemAt h0 (i - j)) := by
  intro j
  induction j with
  | zero =>
    refine ⟨rfl, hs, ?_, rfl, ?_⟩
    · show h0.elemNum = _
      omega
    · intro i _
      show elemAt h0 i = _
      rw [if_neg (Nat.not_lt_zero i), Nat.sub_zero]
  | succ j ih =>
    obtain ⟨a1, a2, a3, a4, a5⟩ := ih
    rw [forUpTo_succ]
    generalize forUpTo j (cBuffPushStep data 0) (h0, cBuffGetMemIndex h0 (u32sub h0.buffLen 1))
      = st at *
    obtain ⟨hj, pm⟩ := st
    simp only at a1 a2 a3 a4 a5
    have hsj : hj.startIndex < hj.buffLen := by rw [a1]; exact a2
    have h32j : hj.buffLen < 4294967296 := by rw [a1]; exact h32
    have hpm : pm = if hj.startIndex = 0 then h0.buffLen - 1 else hj.startIndex - 1 := by
      rw [a4, u32sub_of_le (by omega) h32, memIndex_of_lt hj _ h32j hsj (by omega), a1]
      split_ifs <;> omega
    have hpmlt : pm < h0.buffLen := by rw [hpm]; split_ifs <;> omega
    -- the handle the pass leaves
    have hstep : (cBuffPushStep data 0 j (hj, pm)).1 =
        { hj with buff := memSet hj.buff pm (data j),
                  elemNum := if hj.elemNum < hj.buffLen then u32add hj.elemNum 1 else hj.elemNum,
                  startIndex := pm } := by
      simp only [cBuffPushStep, if_true]
      split_ifs <;> rfl
    have hstep2 : (cBuffPushStep data 0 j (hj, pm)).2 =
        cBuffGetMemIndex (cBuffPushStep data 0 j (hj, pm)).1 (u32sub h0.buffLen 1) := by
      simp only [cBuffPushStep, if_true]
      split_ifs <;> rw [a1]
    have hen : (if hj.elemNum < hj.buffLen then u32add hj.elemNum 1 else hj.elemNum)
        = min h0.buffLen (h0.elemNum + (j + 1)) := by
      split_ifs with hlt
      · rw [u32add_of_lt (by omega)]; omega
      · omega
    refine ⟨?_, ?_, ?_, hstep2, ?_⟩
    · rw [hstep]; exact a1
    · rw [hstep]; exact hpmlt
    · rw [hstep]; exact hen
    · intro i hi
      rw [hstep]
      unfold elemAt
      show memSet hj.buff pm (data j) (cBuffGetMemIndex _ i) = _
      have hm : cBuffGetMemIndex
          { hj with buff := memSet hj.buff pm (data j),
                    elemNum := if hj.elemNum < hj.buffLen then u32add hj.elemNum 1
                      else hj.elemNum,
                    startIndex := pm } i =
          if i < h0.buffLen - pm then pm + i else i - (h0.buffLen - pm) := by
        exact memIndex_of_fields _ h0.buffLen pm i a1 rfl h32 hpmlt (by omega)
      rw [hm]
      by_cases hi0 : i = 0
      · subst hi0
        rw [if_pos (by omega), Nat.add_zero, memSet_same, if_pos (by omega)]
        congr 1
      · have hprev := a5 (i - 1) (by omega)
        unfold elemAt at hprev
        have hm2 := memIndex_of_fields hj h0.buffLen hj.startIndex (i - 1) a1 rfl h32 a2
          (by omega)
        have hslot : (if i < h0.buffLen - pm then pm + i else i - (h0.buffLen - pm))
            = cBuffGetMemIndex hj (i - 1) := by
          rw [hm2, hpm]
          split_ifs <;> omega
        have hne : cBuffGetMemIndex hj (i - 1) ≠ pm := by
          rw [hm2, hpm]
          split_ifs <;> omega
        rw [hslot, memSet_other _ _ hne, hprev]
        by_cases hij : i - 1 < j
        · rw [if_pos hij, if_pos (by omega)]
          congr 1
          omega
        · rw [if_neg hij, if_neg (by omega)]
          congr 2
          omega

theorem map_range_eq_take_append (f A B : Nat → Nat) (k c e : Nat) (hk : k ≤ c + e)
    (hf : ∀ i, i < k → f i = if i < c then A i else B (i - c)) :
    (List.range k).map f = (((List.range c).map A) ++ ((List.range e).map B)).take k := by
  apply List.ext_getElem
  · simp
    omega
  · intro i h1 h2
    have hi : i < k := by simpa using h1
    simp only [List.getElem_map, List.getElem_range, List.getElem_take]
    rw [hf i hi, List.getElem_append]
    split_ifs with h3 h4 h4
    · simp
    · simp at h4; omega
    · simp at h4; omega
    · simp

/-- C20: on a handle with `0 < buffLen`, `startIndex < buffLen` and
`elemNum ≤ buffLen`, a head push of `n > 0` bytes leaves
`elemNum = min buffLen (elemNum + n)` and, as logical content, the first
`min buffLen (elemNum + n)` elements of `data[n - 1], ..., data[0]` followed
by the old logical content: the element at virtual index `i` is
`data[n - 1 - i]` for `i < n` and the old element at `i - n` beyond. -/
theorem cBuffPush_head_reversed (h : circular_buffer_handle) (data : Mem) (n : Nat)
    (hn : 0 < h.buffLen) (h32 : h.buffLen < 4294967296) (hs : h.startIndex < h.buffLen)
    (he : h.elemNum ≤ h.buffLen) (hc : 0 < n) :
    (cBuffPush h (some data) n 0).elemNum = min h.buffLen (h.elemNum + n) ∧
    (cBuffPush h (some data) n 0).buffLen = h.buffLen ∧
    (cBuffPush h (some data) n 0).startIndex < h.buffLen ∧
    (∀ i, i < min h.buffLen (h.elemNum + n) →
      elemAt (cBuffPush h (some data) n 0) i =
        if i < n then data (n - 1 - i) else elemAt h (i - n)) ∧
    logical (cBuffPush h (some data) n 0) =
      (((List.range n).map (fun i => data (n - 1 - i))) ++ logical h).take
        (min h.buffLen (h.elemNum + n)) := by
  have hcond : ¬ (h.buffLen = 0 ∨ n = 0) := by omega
  have e : cBuffPush h (some data) n 0 =
      (forUpTo n (cBuffPushStep data 0) (h, cBuffGetMemIndex h (u32sub h.buffLen 1))).1 := by
    simp only [cBuffPush, if_neg hcond, if_true]
  obtain ⟨a1, a2, a3, _, a5⟩ := pushHead_any_loop h data hn h32 hs he n
  rw [← e] at a1 a2 a3 a5
  refine ⟨a3, a1, a2, a5, ?_⟩
  unfold logical
  rw [a3]
  exact map_range_eq_take_append _ (fun i => data (n - 1 - i)) (elemAt h) _ n h.elemNum
    (by omega) a5

/-- C20 on `[7, 8]` in a capacity of 4 from slot 3 on: a head push of
`[1, 2, 3]` gives `[3, 2, 1, 7]`, and a head push of `[1, 2, 3, 4, 5]` gives
`[5, 4, 3, 2]`. -/
theorem cBuffPush_head_reversed_witness :
    (0 < 4 ∧ 4 < 4294967296 ∧ 3 < 4 ∧ 2 ≤ 4 ∧ 0 < 3) ∧
    ((cBuffPush ⟨memOfList [8, 0, 0, 7], 4, 3, 2⟩ (some (memOfList [1, 2, 3])) 3 0).elemNum
      = min 4 (2 + 3) ∧
    (cBuffPush ⟨memOfList [8, 0, 0, 7], 4, 3, 2⟩ (some (memOfList [1, 2, 3])) 3 0).buffLen = 4 ∧
    (cBuffPush ⟨memOfList [8, 0, 0, 7], 4, 3, 2⟩ (some (memOfList [1, 2, 3])) 3 0).startIndex
      < 4 ∧
    (∀ i, i < min 4 (2 + 3) →
      elemAt (cBuffPush ⟨memOfList [8, 0, 0, 7], 4, 3, 2⟩ (some (memOfList [1, 2, 3])) 3 0) i =
        if i < 3 then memOfList [1, 2, 3] (3 - 1 - i)
        else elemAt ⟨memOfList [8, 0, 0, 7], 4, 3, 2⟩ (i - 3)) ∧
    logical (cBuffPush ⟨memOfList [8, 0, 0, 7], 4, 3, 2⟩ (some (memOfList [1, 2, 3])) 3 0) =
      (((List.range 3).map (fun i => memOfList [1, 2, 3] (3 - 1 - i))) ++
        logical ⟨memOfList [8, 0, 0, 7], 4, 3, 2⟩).take (min 4 (2 + 3))) ∧
    (logical (cBuffPush ⟨memOfList [8, 0, 0, 7], 4, 3, 2⟩ (some (memOfList [1, 2, 3])) 3 0)
        = [3, 2, 1, 7] ∧
      logical (cBuffPush ⟨memOfList [8, 0, 0, 7], 4, 3, 2⟩
        (some (memOfList [1, 2, 3, 4, 5])) 5 0) = [5, 4, 3, 2]) :=
  ⟨by decide,
    cBuffPush_head_reversed ⟨memOfList [8, 0, 0, 7], 4, 3, 2⟩ (memOfList [1, 2, 3]) 3
      (by decide) (by decide) (by decide) (by decide) (by decide),
    by decide⟩

end BufferUtils
